import Mathlib

/-! FAT16 reader (`readfat16.c`): embedding and verified properties

The C program is embedded as pure functions.

* Unsigned machine integers are `Nat`, signed ones are `Int`; every place where the
  C arithmetic can leave the range of its type carries an explicit wrap
  (`wrapInt32`, `toU32`, `toSizeT`, `toOffT`).  Signed `int` overflow is modelled
  as two's-complement wrap-around; `off_t`, `size_t` and `ssize_t` are 64 bits wide
  and `int` is 32 bits wide.
* The image file behind a descriptor is a `Disk`: its bytes, and the offsets at
  which `read` reports an error.
* Behaviour that C leaves undefined (reading `fat[c]` outside the loaded table,
  writing `chain[i]` outside the allocated array, dividing by zero) is an explicit
  constructor of the result type of the function in which it happens.
* Loops are recursive functions; the `while` loop of `readFile` carries a fuel
  argument and returns `none` when the fuel is used up.
-/

namespace FAT16

/-! ## Machine integers -/

/-- Value of a 32-bit `int` expression whose exact value is `n` (all such expressions
of the program are sums and products of unsigned fields, so `n` is a natural
number), after two's-complement wrap-around. -/
def wrapInt32 (n : Nat) : Int :=
  if n % 4294967296 < 2147483648 then ((n % 4294967296 : Nat) : Int)
  else ((n % 4294967296 : Nat) : Int) - 4294967296

/-- Conversion to `uint32_t`. -/
def toU32 (x : Int) : Nat := (x % 4294967296).toNat

/-- Conversion to `size_t` (64 bits). -/
def toSizeT (x : Int) : Nat := (x % 18446744073709551616).toNat

/-- Conversion of a 64-bit unsigned value to `off_t` (64 bits, signed). -/
def toOffT (n : Nat) : Int :=
  if n % 18446744073709551616 < 9223372036854775808 then ((n % 18446744073709551616 : Nat) : Int)
  else ((n % 18446744073709551616 : Nat) : Int) - 18446744073709551616

/-- Little-endian 16-bit value at byte offset `off` of `bs` (missing bytes read as 0). -/
def le16 (bs : List Nat) (off : Nat) : Nat :=
  bs.getD off 0 + 256 * bs.getD (off + 1) 0

/-- Little-endian 32-bit value at byte offset `off` of `bs`. -/
def le32 (bs : List Nat) (off : Nat) : Nat :=
  le16 bs off + 65536 * le16 bs (off + 2)

/-! ## The disk image -/

/-- The file behind a descriptor: its content, one `Nat < 256` per byte, and the
offsets at which `read` fails with `-1`. -/
structure Disk where
  bytes : List Nat
  ioError : Nat → Bool

/-- The function `readFromDiskImage`: `none` is the return value `-1` (the `lseek`
to a negative offset fails, or `read` fails); `some bs` is the return value
`bs.length ≤ numBytes` together with the bytes stored in the buffer. -/
def readFromDiskImage (fd : Disk) (offset : Int) (numBytes : Nat) : Option (List Nat) :=
  if offset < 0 then none
  else if fd.ioError offset.toNat then none
  else some ((fd.bytes.drop offset.toNat).take numBytes)

/-! ## Boot sector -/

/-- The packed `BootSector` struct (62 bytes). -/
structure BootSector where
  BS_jmpBoot : List Nat
  BS_OEMName : List Nat
  BPB_BytsPerSec : Nat
  BPB_SecPerClus : Nat
  BPB_RsvdSecCnt : Nat
  BPB_NumFATs : Nat
  BPB_RootEntCnt : Nat
  BPB_TotSec16 : Nat
  BPB_Media : Nat
  BPB_FATSz16 : Nat
  BPB_SecPerTrk : Nat
  BPB_NumHeads : Nat
  BPB_HiddSec : Nat
  BPB_TotSec32 : Nat
  BS_DrvNum : Nat
  BS_Reserved1 : Nat
  BS_BootSig : Nat
  BS_VolID : Nat
  BS_VolLab : List Nat
  BS_FilSysType : List Nat
deriving DecidableEq

/-- The fields of the boot sector that enter the geometry hold values of their C
types (`uint16_t`, `uint8_t`). -/
def BootSector.InRange (bs : BootSector) : Prop :=
  bs.BPB_BytsPerSec < 65536 ∧ bs.BPB_SecPerClus < 256 ∧ bs.BPB_RsvdSecCnt < 65536 ∧
  bs.BPB_NumFATs < 256 ∧ bs.BPB_RootEntCnt < 65536 ∧ bs.BPB_FATSz16 < 65536

instance (bs : BootSector) : Decidable bs.InRange := by
  unfold BootSector.InRange; infer_instance

/-- The value of `sizeof(BootSector)`. -/
def sizeofBootSector : Nat := 62

/-- The byte overlay of the packed struct on a little-endian machine. -/
def decodeBootSector (b : List Nat) : BootSector :=
  { BS_jmpBoot := (b.drop 0).take 3
    BS_OEMName := (b.drop 3).take 8
    BPB_BytsPerSec := le16 b 11
    BPB_SecPerClus := b.getD 13 0
    BPB_RsvdSecCnt := le16 b 14
    BPB_NumFATs := b.getD 16 0
    BPB_RootEntCnt := le16 b 17
    BPB_TotSec16 := le16 b 19
    BPB_Media := b.getD 21 0
    BPB_FATSz16 := le16 b 22
    BPB_SecPerTrk := le16 b 24
    BPB_NumHeads := le16 b 26
    BPB_HiddSec := le32 b 28
    BPB_TotSec32 := le32 b 32
    BS_DrvNum := b.getD 36 0
    BS_Reserved1 := b.getD 37 0
    BS_BootSig := b.getD 38 0
    BS_VolID := le32 b 39
    BS_VolLab := (b.drop 43).take 11
    BS_FilSysType := (b.drop 54).take 8 }

/-- The function `readBootSector`: `none` is `exit(EXIT_FAILURE)`, taken when the
read does not return `sizeof(BootSector)` bytes. -/
def readBootSector (fd : Disk) : Option BootSector :=
  match readFromDiskImage fd 0 sizeofBootSector with
  | none => none
  | some b => if b.length ≠ sizeofBootSector then none else some (decodeBootSector b)

/-! ## File allocation table and cluster chains -/

/-- The `uint16_t` view of a byte buffer on a little-endian machine: element `i` is
made of bytes `2i` and `2i+1`. -/
def u16View : List Nat → List Nat
  | lo :: hi :: rest => (lo + 256 * hi) :: u16View rest
  | _ => []

/-- The local `fatSize` of `loadFAT`: an `int` product converted to `size_t`. -/
def fatSizeBytes (bs : BootSector) : Nat :=
  toSizeT (wrapInt32 (bs.BPB_FATSz16 * bs.BPB_BytsPerSec))

/-- The local `fatOffset` of `loadFAT`: an `int` product converted to `off_t`. -/
def fatRegionOffset (bs : BootSector) : Int :=
  wrapInt32 (bs.BPB_RsvdSecCnt * bs.BPB_BytsPerSec)

/-- The function `loadFAT`: `none` is the `NULL` result (seek or read failed, or
fewer than `fatSize` bytes were read); `some fat` is the loaded table as 16-bit
entries. -/
def loadFAT (fd : Disk) (bs : BootSector) : Option (List Nat) :=
  match readFromDiskImage fd (fatRegionOffset bs) (fatSizeBytes bs) with
  | none => none
  | some b => if b.length ≠ fatSizeBytes bs then none else some (u16View b)

/-- Number of elements of the `chain` array allocated by `getClusterChain`. -/
def chainCapacity : Nat := 65536

/-- What a call of `getClusterChain` does once the table is loaded. -/
inductive ChainResult where
  /-- The function returns; `chain` is the content of the array up to and including
  the `0xFFFF` written after the loop. -/
  | returned (chain : List Nat)
  /-- Undefined behaviour: `fat[cluster]` is read with `cluster` outside the loaded
  table; `yielded` are the clusters stored in `chain` so far. -/
  | fatReadOutOfBounds (yielded : List Nat) (cluster : Nat)
  /-- Undefined behaviour: `chain[i]` is written with `i = 65536`, one past the end
  of the array; `yielded` are the 65536 clusters stored before. -/
  | chainWriteOutOfBounds (yielded : List Nat)
deriving DecidableEq

/-- The `while` loop of `getClusterChain` and the store after it.  `chain` is the
array content `chain[0..i)`, so `i = chain.length`; `room` is the number of free
elements, `65536 - i`. -/
def chainLoop (fat : List Nat) : Nat → Nat → List Nat → ChainResult
  | 0, _, chain => .chainWriteOutOfBounds chain
  | room + 1, currentCluster, chain =>
    if currentCluster < 0xFFF8 then
      match fat[currentCluster]? with
      | some next => chainLoop fat room next (chain ++ [currentCluster])
      | none => .fatReadOutOfBounds (chain ++ [currentCluster]) currentCluster
    else .returned (chain ++ [0xFFFF])

/-- The walk of `getClusterChain` over a loaded table. -/
def walkChain (fat : List Nat) (startingCluster : Nat) : ChainResult :=
  chainLoop fat chainCapacity startingCluster []

/-- The function `getClusterChain`: `none` is the `NULL` result (the table could not
be loaded). -/
def getClusterChain (fd : Disk) (bs : BootSector) (startingCluster : Nat) : Option ChainResult :=
  match loadFAT fd bs with
  | none => none
  | some fat => some (walkChain fat startingCluster)

/-- The cluster reached from `s` after `j` FAT links, `none` when a link leaves the
table. -/
def linkAt (fat : List Nat) (s : Nat) : Nat → Option Nat
  | 0 => some s
  | j + 1 => (linkAt fat s j).bind (fun c => fat[c]?)

/-- The clusters reached from `s` by fewer than `k` links, in order. -/
def linksUpTo (fat : List Nat) (s : Nat) (k : Nat) : List Nat :=
  (List.range k).filterMap (linkAt fat s)

/-- Content of the `chain` array when the walk ends. -/
def ChainResult.stored : ChainResult → List Nat
  | .returned chain => chain
  | .fatReadOutOfBounds yielded _ => yielded
  | .chainWriteOutOfBounds yielded => yielded

/-! ## Root directory region -/

/-- The value of `sizeof(DirectoryEntry)`. -/
def sizeofDirectoryEntry : Nat := 32

/-- The local `rootDirSize` of `readDirectory` (a `size_t` product). -/
def rootDirSize (bs : BootSector) : Nat :=
  bs.BPB_RootEntCnt * sizeofDirectoryEntry

/-- The local `rootDirOffset` of `readDirectory`: an `int` expression converted to
`off_t`. -/
def rootDirOffset (bs : BootSector) : Int :=
  wrapInt32 ((bs.BPB_RsvdSecCnt + bs.BPB_NumFATs * bs.BPB_FATSz16) * bs.BPB_BytsPerSec)

/-- The root directory region read by `readDirectory`; `none` when the function
returns before the scan (seek or read failed, or the read was short). -/
def readRootDir (fd : Disk) (bs : BootSector) : Option (List Nat) :=
  match readFromDiskImage fd (rootDirOffset bs) (rootDirSize bs) with
  | none => none
  | some b => if b.length ≠ rootDirSize bs then none else some b

/-! ## Volumes and open files -/

/-- The packed `DirectoryEntry` struct (32 bytes). -/
structure DirectoryEntry where
  DIR_Name : List Nat
  DIR_Attr : Nat
  DIR_NTRes : Nat
  DIR_CrtTimeTenth : Nat
  DIR_CrtTime : Nat
  DIR_CrtDate : Nat
  DIR_LstAccDate : Nat
  DIR_FstClusHI : Nat
  DIR_WrtTime : Nat
  DIR_WrtDate : Nat
  DIR_FstClusLO : Nat
  DIR_FileSize : Nat
deriving DecidableEq

/-- The `Volume` struct. -/
structure Volume where
  fd : Disk
  bootSector : BootSector

/-- The `File` struct.  `dirEntry` is `none` while the field has never been
written. -/
structure File where
  volume : Volume
  dirEntry : Option DirectoryEntry
  fileSize : Nat
  filePosition : Nat
  currentCluster : Nat

/-- The function `clusterToSector`; `none` is the division by `BPB_BytsPerSec = 0`
(undefined behaviour).  `firstDataSector` is an `int` expression stored in a
`uint32_t`; the sum with the `int` product is made in `uint32_t` and returned as
`off_t`. -/
def clusterToSector (volume : Volume) (cluster : Nat) : Option Int :=
  let bs := volume.bootSector
  if bs.BPB_BytsPerSec = 0 then none
  else
    let firstDataSector : Nat :=
      toU32 (wrapInt32 (bs.BPB_RsvdSecCnt + bs.BPB_NumFATs * bs.BPB_FATSz16 +
        (bs.BPB_RootEntCnt * 32 + (bs.BPB_BytsPerSec - 1)) / bs.BPB_BytsPerSec))
    some (toU32 ((firstDataSector : Int) + ((cluster : Int) - 2) * (bs.BPB_SecPerClus : Int)) : Nat)

/-- The function `nextCluster`: the 16-bit value read at `fatOffset`, or `0xFFFF`
when the seek or the read fails or fewer than 2 bytes are read.  `fatOffset` is the
sum of an `int` product and a `size_t` product, converted to `off_t`. -/
def nextCluster (volume : Volume) (currentCluster : Nat) : Nat :=
  let bs := volume.bootSector
  let fatOffset : Int :=
    toOffT (toSizeT (wrapInt32 (bs.BPB_RsvdSecCnt * bs.BPB_BytsPerSec)) + currentCluster * 2)
  match readFromDiskImage volume.fd fatOffset 2 with
  | none => 0xFFFF
  | some b => if b.length ≠ 2 then 0xFFFF else le16 b 0

/-- The function `readSector`: `none` is a negative return value. -/
def readSector (volume : Volume) (sector : Int) : Option (List Nat) :=
  readFromDiskImage volume.fd (sector * (volume.bootSector.BPB_BytsPerSec : Int))
    volume.bootSector.BPB_BytsPerSec

/-- The function `openFile` (the allocation is taken to succeed).  The 32-bit cluster
number is stored in the 16-bit field `currentCluster`; `dirEntry` is not written. -/
def openFile (vol : Volume) (entry : DirectoryEntry) : File :=
  { volume := vol
    dirEntry := none
    fileSize := entry.DIR_FileSize
    filePosition := 0
    currentCluster := ((entry.DIR_FstClusHI * 65536) % 4294967296 ||| entry.DIR_FstClusLO) % 65536 }

/-- The function `seekFile` with `SEEK_SET = 0`, `SEEK_CUR = 1`, `SEEK_END = 2`: the
handle after the call and the return value. -/
def seekFile (file : File) (offset : Int) (whence : Int) : File × Int :=
  if whence = 0 then
    ({ file with filePosition := toU32 offset }, (toU32 offset : Nat))
  else if whence = 1 then
    ({ file with filePosition := toU32 ((file.filePosition : Int) + offset) },
      (toU32 ((file.filePosition : Int) + offset) : Nat))
  else if whence = 2 then
    ({ file with filePosition := toU32 ((file.fileSize : Int) + offset) },
      (toU32 ((file.fileSize : Int) + offset) : Nat))
  else (file, -1)

/-- What a call of `readFile` does. -/
inductive ReadResult where
  /-- The function returns `bytesRead`; `buffer` is the content of
  `buffer[0 .. bytesRead)` and `file` the handle after the call. -/
  | returned (bytesRead : Nat) (buffer : List Nat) (file : File)
  /-- Undefined behaviour: a division or remainder by zero (`BPB_BytsPerSec = 0` or
  `BPB_SecPerClus = 0`). -/
  | divisionByZero

/-- The `while` loop of `readFile` and the `return` after it; `none` when `fuel`
iterations do not end the loop.  `buf` is the content of `buffer[0 .. bytesRead)`.
`junk i` is the indeterminate initial value of `tempBuf[i]`, which stays there when
the sector read is short. -/
def readFileLoop (junk : Nat → Nat) :
    Nat → File → List Nat → Nat → Nat → Option ReadResult
  | 0, _, _, _, _ => none
  | fuel + 1, file, buf, bytesRead, length =>
    if length > 0 ∧ file.filePosition < file.fileSize then
      let bs := file.volume.bootSector
      match clusterToSector file.volume file.currentCluster with
      | none => some .divisionByZero
      | some sector =>
        let sectorOffset := file.filePosition % bs.BPB_BytsPerSec
        if bs.BPB_BytsPerSec * bs.BPB_SecPerClus = 0 then some .divisionByZero
        else
          let clusterOffset := file.filePosition % (bs.BPB_BytsPerSec * bs.BPB_SecPerClus)
          let bytesToRead := bs.BPB_BytsPerSec - sectorOffset
          let bytesToRead := if bytesToRead > length then length else bytesToRead
          let bytesToRead :=
            if bytesRead + bytesToRead > file.fileSize then file.fileSize - bytesRead
            else bytesToRead
          match readSector file.volume (sector + (clusterOffset / bs.BPB_BytsPerSec : Nat)) with
          | none => some (.returned bytesRead buf file)
          | some data =>
            let tempBuf := data ++
              (List.range (bs.BPB_BytsPerSec - data.length)).map (fun i => junk (data.length + i))
            let buf := buf ++ (tempBuf.drop sectorOffset).take bytesToRead
            let file1 := { file with filePosition := (file.filePosition + bytesToRead) % 4294967296 }
            let file2 :=
              if clusterOffset + bytesToRead ≥ bs.BPB_BytsPerSec * bs.BPB_SecPerClus then
                { file1 with currentCluster := nextCluster file1.volume file1.currentCluster }
              else file1
            readFileLoop junk fuel file2 buf (bytesRead + bytesToRead) (length - bytesToRead)
    else some (.returned bytesRead buf file)

/-- The function `readFile`, with the fuel of its loop. -/
def readFile (junk : Nat → Nat) (fuel : Nat) (file : File) (length : Nat) : Option ReadResult :=
  if file.filePosition ≥ file.fileSize then some (.returned 0 [] file)
  else readFileLoop junk fuel file [] 0 length

/-- Number of bytes returned, 0 for undefined behaviour. -/
def ReadResult.count : ReadResult → Nat
  | .returned bytesRead _ _ => bytesRead
  | .divisionByZero => 0

/-- Bytes stored in the caller's buffer. -/
def ReadResult.data : ReadResult → List Nat
  | .returned _ buffer _ => buffer
  | .divisionByZero => []

/-- Position of the handle after the call. -/
def ReadResult.position : ReadResult → Option Nat
  | .returned _ _ file => some file.filePosition
  | .divisionByZero => none

/-- Current cluster of the handle after the call. -/
def ReadResult.cluster : ReadResult → Option Nat
  | .returned _ _ file => some file.currentCluster
  | .divisionByZero => none

/-! ## Reference notions used in the statements -/

/-- The bytes of the disk and the fields of the boot sector hold values of their C
types. -/
def Volume.InRange (vol : Volume) : Prop :=
  vol.bootSector.InRange ∧ ∀ b ∈ vol.fd.bytes, b < 256

instance (vol : Volume) : Decidable vol.InRange := by
  unfold Volume.InRange; infer_instance

/-- Size of a cluster in bytes. -/
def clusterSize (bs : BootSector) : Nat := bs.BPB_BytsPerSec * bs.BPB_SecPerClus

/-- First sector of the data region: reserved sectors, FATs, and the root directory
rounded up to whole sectors. -/
def firstDataSector (bs : BootSector) : Nat :=
  bs.BPB_RsvdSecCnt + bs.BPB_NumFATs * bs.BPB_FATSz16 +
    (bs.BPB_RootEntCnt * 32 + bs.BPB_BytsPerSec - 1) / bs.BPB_BytsPerSec

/-- Byte offset in the image of the data of cluster `c ≥ 2`. -/
def clusterByteOffset (bs : BootSector) (c : Nat) : Nat :=
  (firstDataSector bs + (c - 2) * bs.BPB_SecPerClus) * bs.BPB_BytsPerSec

/-- The data of cluster `c`. -/
def clusterData (vol : Volume) (c : Nat) : List Nat :=
  (vol.fd.bytes.drop (clusterByteOffset vol.bootSector c)).take (clusterSize vol.bootSector)

/-- The cluster at index `j` of the chain that starts at cluster `s`, each link
looked up by `nextCluster`. -/
def chainAt (vol : Volume) (s : Nat) : Nat → Nat
  | 0 => s
  | j + 1 => nextCluster vol (chainAt vol s j)

/-- Concatenation, in chain order, of the data of the first `n` clusters of the chain
that starts at cluster `s`. -/
def chainData (vol : Volume) (s : Nat) : Nat → List Nat
  | 0 => []
  | n + 1 => chainData vol s n ++ clusterData vol (chainAt vol s n)

/-- Cluster `c` is a data cluster (`2 ≤ c`) that lies inside the image, and each of
its sectors can be read. -/
def ClusterReadable (vol : Volume) (c : Nat) : Prop :=
  2 ≤ c ∧ clusterByteOffset vol.bootSector c + clusterSize vol.bootSector ≤ vol.fd.bytes.length ∧
    ∀ t < vol.bootSector.BPB_SecPerClus,
      vol.fd.ioError (clusterByteOffset vol.bootSector c + t * vol.bootSector.BPB_BytsPerSec) = false

instance (vol : Volume) (c : Nat) : Decidable (ClusterReadable vol c) := by
  unfold ClusterReadable; infer_instance

/-- Number of bytes copied by an iteration of the loop of `readFile` entered with the
handle `f`, `bytesRead` bytes copied so far and `length` bytes of capacity left. -/
def chunkSize (f : File) (bytesRead length : Nat) : Nat :=
  let b1 := f.volume.bootSector.BPB_BytsPerSec - f.filePosition % f.volume.bootSector.BPB_BytsPerSec
  let b2 := if b1 > length then length else b1
  if bytesRead + b2 > f.fileSize then f.fileSize - bytesRead else b2

/-- The handle at the end of an iteration of the loop of `readFile` that copied `n`
bytes. -/
def stepFile (f : File) (n : Nat) : File :=
  if f.filePosition % clusterSize f.volume.bootSector + n ≥ clusterSize f.volume.bootSector then
    { f with filePosition := (f.filePosition + n) % 4294967296
             currentCluster := nextCluster f.volume f.currentCluster }
  else { f with filePosition := (f.filePosition + n) % 4294967296 }

/-- The handle's current cluster is the cluster at index `position / clusterSize` of
the chain that starts at cluster `s`. -/
def Tracks (f : File) (s : Nat) : Prop :=
  f.currentCluster = chainAt f.volume s (f.filePosition / clusterSize f.volume.bootSector)

instance (f : File) (s : Nat) : Decidable (Tracks f s) := by
  unfold Tracks; infer_instance

/-! ## A small volume used in the examples -/

/-- On-disk bytes of a table of 16-bit entries (little endian). -/
def fatBytes : List Nat → List Nat
  | [] => []
  | e :: es => e % 256 :: e / 256 :: fatBytes es

/-- Zero padding of `l` to `n` bytes. -/
def padTo (n : Nat) (l : List Nat) : List Nat := l ++ List.replicate (n - l.length) 0

/-- Geometry of the example volume: 512-byte sectors, 4 sectors per cluster, one
reserved sector, one FAT of one sector, 16 root entries (one sector). -/
def exBoot : BootSector :=
  { BS_jmpBoot := [0xEB, 0x3C, 0x90], BS_OEMName := [], BPB_BytsPerSec := 512,
    BPB_SecPerClus := 4, BPB_RsvdSecCnt := 1, BPB_NumFATs := 1, BPB_RootEntCnt := 16,
    BPB_TotSec16 := 15, BPB_Media := 0xF8, BPB_FATSz16 := 1, BPB_SecPerTrk := 0,
    BPB_NumHeads := 0, BPB_HiddSec := 0, BPB_TotSec32 := 0, BS_DrvNum := 0,
    BS_Reserved1 := 0, BS_BootSig := 0x29, BS_VolID := 0, BS_VolLab := [],
    BS_FilSysType := [] }

/-- An image with the given FAT entries and data region: sector 0 reserved, sector 1
the FAT, sector 2 the root directory, the data region from sector 3 on. -/
def exDisk (fat : List Nat) (data : List Nat) : Disk :=
  { bytes := List.replicate 512 0 ++ padTo 512 (fatBytes fat) ++ List.replicate 512 0 ++ data
    ioError := fun _ => false }

/-- FAT with the chain 5 → 6 → 7 → end. -/
def chainFat : List Nat := [0xFFF8, 0xFFFF, 0, 0, 0, 6, 7, 0xFFFF]

/-- FAT with the cycle 5 → 6 → 5. -/
def cycleFat : List Nat := [0xFFF8, 0xFFFF, 0, 0, 0, 6, 5]

/-- FAT in which the entry of cluster 5 is the free marker `0x0000`. -/
def freeFat : List Nat := [0xFFF8, 0xFFFF, 0, 0, 0, 0]

/-- FAT in which cluster 5 links to cluster 300, outside the 256-entry table. -/
def strayFat : List Nat := [0xFFF8, 0xFFFF, 0, 0, 0, 300]

/-- FAT with the two-cluster chain 2 → 4 → end. -/
def fileFat : List Nat := [0xFFF8, 0xFFFF, 4, 0, 0xFFFF]

/-- Data region of three clusters (2, 3, 4) of 2048 bytes. -/
def exData : List Nat := (List.range 6144).map (fun i => (i + 7 * (i / 2048)) % 251)

/-- The example volume with the chain 2 → 4. -/
def exVolume : Volume := { fd := exDisk fileFat exData, bootSector := exBoot }

/-- Directory entry of a file of 3000 bytes whose first cluster is 2. -/
def exEntry : DirectoryEntry :=
  { DIR_Name := [70, 73, 76, 69, 32, 32, 32, 32, 84, 88, 84], DIR_Attr := 0x20, DIR_NTRes := 0,
    DIR_CrtTimeTenth := 0, DIR_CrtTime := 0, DIR_CrtDate := 0, DIR_LstAccDate := 0,
    DIR_FstClusHI := 0, DIR_WrtTime := 0, DIR_WrtDate := 0, DIR_FstClusLO := 2,
    DIR_FileSize := 3000 }

/-- Indeterminate stack content used in the examples. -/
def exJunk : Nat → Nat := fun _ => 0xAA

/-- The geometry of the worked example: 512-byte sectors, 4 sectors per cluster, one
reserved sector, two FATs of 32 sectors, 512 root entries. -/
def specBoot : BootSector :=
  { exBoot with BPB_NumFATs := 2, BPB_FATSz16 := 32, BPB_RootEntCnt := 512 }

/-- A boot sector whose fields fit their types but whose root directory offset does
not fit a 32-bit `int`: 32768-byte sectors, 2 FATs of 32768 sectors. -/
def bigBoot : BootSector :=
  { exBoot with BPB_BytsPerSec := 32768, BPB_NumFATs := 2, BPB_FATSz16 := 32768 }

/-- An image of one sector of zero bytes. -/
def zeroDisk : Disk := { bytes := List.replicate 512 0, ioError := fun _ => false }

/-- The handle after a call of `readFile` on `f` with result `r` (`f` itself when
the call did not return). -/
def fileAfter (f : File) (r : Option ReadResult) : File :=
  match r with
  | some (.returned _ _ f') => f'
  | _ => f

/-- The freshly opened handle of the example file. -/
def exFresh : File := openFile exVolume exEntry

/-- The example handle after a read of all 3000 bytes. -/
def exAfterRead : File := fileAfter exFresh (readFile exJunk 100 exFresh 3000)

/-- The example handle after the read of 3000 bytes and a seek back to offset 0. -/
def exAfterSeek : File := (seekFile exAfterRead 0 0).1

/-- The example handle after a read of the first 2900 bytes. -/
def exAt2900 : File := fileAfter exFresh (readFile exJunk 100 exFresh 2900)

/-- Origin of a seek: the start of the file, the current position, or the end. -/
def seekOrigin (file : File) (whence : Int) : Int :=
  if whence = 0 then 0 else if whence = 1 then (file.filePosition : Int) else (file.fileSize : Int)

/-- Directory entry whose first-cluster field has a non-zero high half: the 32-bit
cluster number is `0x00010002`. -/
def hiEntry : DirectoryEntry := { exEntry with DIR_FstClusHI := 1 }

/-- The example handle after a seek to the end of the file. -/
def exAtEnd : File := (seekFile exFresh 0 2).1

/-- Directory entry of a file of `2^32 - 1` bytes whose first cluster is 2. -/
def bigEntry : DirectoryEntry := { exEntry with DIR_FileSize := 4294967295 }

/-- A handle on the file of `2^32 - 1` bytes after a seek to position `2^32 - 2`. -/
def wrapHandle : File := (seekFile (openFile exVolume bigEntry) 4294967294 0).1

/-- The example volume with a read error at byte offset 2048, the second sector of
cluster 2. -/
def faultyVolume : Volume :=
  { fd := { bytes := exVolume.fd.bytes, ioError := fun off => off == 2048 }, bootSector := exBoot }

/-- The freshly opened handle of the example file on the volume with the read
error. -/
def faultyFresh : File := openFile faultyVolume exEntry

/-- A boot sector whose fields fit their types but whose FAT offset does not fit a
32-bit `int`: 65535 reserved sectors of 32769 bytes. -/
def hugeBoot : BootSector := { exBoot with BPB_RsvdSecCnt := 65535, BPB_BytsPerSec := 32769 }

/-- An image of zero bytes that reaches beyond the first FAT slot of `hugeBoot`. -/
def hugeDisk : Disk := { bytes := List.replicate 2147516421 0, ioError := fun _ => false }

/-! ## Root directory listing

The listing functions print.  Their output is embedded as the list of what is
printed: one `Output` value per filename line, per long-entry dump and per entry
dump, with the values passed to `printf` and `wprintf` as fields (a string argument
is the list of its characters up to the terminating zero). -/

/-- The packed `LongDirectoryEntry` struct (32 bytes). -/
structure LongDirectoryEntry where
  LDIR_Ord : Nat
  LDIR_Name1 : List Nat
  LDIR_Attr : Nat
  LDIR_Type : Nat
  LDIR_Chksum : Nat
  LDIR_Name2 : List Nat
  LDIR_FstClusLO : Nat
  LDIR_Name3 : List Nat
deriving DecidableEq

/-- The 32 bytes of `rootDir[i]`. -/
def record (rootDir : List Nat) (i : Nat) : List Nat :=
  (rootDir.drop (sizeofDirectoryEntry * i)).take sizeofDirectoryEntry

/-- A 32-byte record seen through the packed `DirectoryEntry` struct. -/
def decodeDirectoryEntry (r : List Nat) : DirectoryEntry :=
  { DIR_Name := r.take 11
    DIR_Attr := r.getD 11 0
    DIR_NTRes := r.getD 12 0
    DIR_CrtTimeTenth := r.getD 13 0
    DIR_CrtTime := le16 r 14
    DIR_CrtDate := le16 r 16
    DIR_LstAccDate := le16 r 18
    DIR_FstClusHI := le16 r 20
    DIR_WrtTime := le16 r 22
    DIR_WrtDate := le16 r 24
    DIR_FstClusLO := le16 r 26
    DIR_FileSize := le32 r 28 }

/-- A 32-byte record seen through the packed `LongDirectoryEntry` struct (the cast
`(LongDirectoryEntry *)&rootDir[i]`). -/
def decodeLongDirectoryEntry (r : List Nat) : LongDirectoryEntry :=
  { LDIR_Ord := r.getD 0 0
    LDIR_Name1 := (r.drop 1).take 10
    LDIR_Attr := r.getD 11 0
    LDIR_Type := r.getD 12 0
    LDIR_Chksum := r.getD 13 0
    LDIR_Name2 := (r.drop 14).take 12
    LDIR_FstClusLO := le16 r 26
    LDIR_Name3 := (r.drop 28).take 4 }

/-- The function `isLongNameEntry`. -/
def isLongNameEntry (entry : DirectoryEntry) : Bool := entry.DIR_Attr == 0x0F

/-- The 13 values that `parseLongNameEntry` and `printLongDirectoryEntry` take from a
long entry: byte `i * 2` of each name field, converted to `wchar_t`. -/
def nameUnits (longEntry : LongDirectoryEntry) : List Nat :=
  (List.range 5).map (fun i => longEntry.LDIR_Name1.getD (i * 2) 0)
    ++ (List.range 6).map (fun i => longEntry.LDIR_Name2.getD (i * 2) 0)
    ++ (List.range 2).map (fun i => longEntry.LDIR_Name3.getD (i * 2) 0)

/-- The function `parseLongNameEntry`: the buffer after the 13 stores at
`position .. position + 12`; `none` when one of the stores falls outside the buffer
(undefined behaviour). -/
def parseLongNameEntry (longEntry : LongDirectoryEntry) (longNameBuffer : List Nat)
    (position : Int) : Option (List Nat) :=
  if position < 0 ∨ (longNameBuffer.length : Int) < position + 13 then none
  else some (longNameBuffer.take position.toNat ++ nameUnits longEntry
    ++ longNameBuffer.drop (position.toNat + 13))

/-- The characters that `%ls` prints for a wide string: those before the first zero. -/
def cString (s : List Nat) : List Nat := s.takeWhile (fun ch => ch != 0)

/-- The attribute names that the listing functions print. -/
inductive Attribute where
  | readOnly
  | hidden
  | system
  | volumeLabel
  | subDirectory
  | archive
deriving DecidableEq

/-- The attribute names printed for an attribute byte, in the order of the six tests
of `printDirectoryEntry` and `printLongDirectoryEntry`. -/
def attributeFlags (attr : Nat) : List Attribute :=
  (if attr &&& 0x01 ≠ 0 then [Attribute.readOnly] else [])
    ++ (if attr &&& 0x02 ≠ 0 then [Attribute.hidden] else [])
    ++ (if attr &&& 0x04 ≠ 0 then [Attribute.system] else [])
    ++ (if attr &&& 0x08 ≠ 0 then [Attribute.volumeLabel] else [])
    ++ (if attr &&& 0x10 ≠ 0 then [Attribute.subDirectory] else [])
    ++ (if attr &&& 0x20 ≠ 0 then [Attribute.archive] else [])

/-- What `printLongDirectoryEntry` prints. -/
structure LongEntryReport where
  order : Nat
  attributes : List Attribute
  name : List Nat
  type : Nat
  checksum : Nat
  firstCluster : Nat
deriving DecidableEq

/-- The function `printLongDirectoryEntry`. -/
def printLongDirectoryEntry (longEntry : LongDirectoryEntry) : LongEntryReport :=
  { order := longEntry.LDIR_Ord
    attributes := attributeFlags longEntry.LDIR_Attr
    name := cString (nameUnits longEntry ++ [0])
    type := longEntry.LDIR_Type
    checksum := longEntry.LDIR_Chksum
    firstCluster := longEntry.LDIR_FstClusLO }

/-- The three numbers printed for a date word: year, month, day. -/
def decodeDate (date : Nat) : Nat × Nat × Nat :=
  (((date >>> 9) &&& 0x7F) + 1980, (date >>> 5) &&& 0x0F, date &&& 0x1F)

/-- The three numbers printed for a time word: hours, minutes, seconds. -/
def decodeTime (time : Nat) : Nat × Nat × Nat :=
  (time >>> 11, (time >>> 5) &&& 0x3F, (time &&& 0x1F) * 2)

/-- What `printDirectoryEntry` prints for an entry that it does not skip. -/
structure EntryReport where
  fileName : List Nat
  attributes : List Attribute
  fileSize : Nat
  firstCluster : Nat
  creationDate : Nat × Nat × Nat
  creationTime : Nat × Nat × Nat
  writeDate : Nat × Nat × Nat
  writeTime : Nat × Nat × Nat
deriving DecidableEq

/-- The test of the filename loop of `printDirectoryEntry` on one name byte. -/
def invalidNameByte (b : Nat) : Bool :=
  (b != 0x20 && decide (b < 0x20)) || decide (b > 0x7E)

/-- The function `printDirectoryEntry`: `none` when the function returns without
printing (unused or deleted entry, volume label, hidden or system entry, or a name
byte that fails the test). -/
def printDirectoryEntry (entry : DirectoryEntry) : Option EntryReport :=
  if entry.DIR_Name.getD 0 0 = 0x00 ∨ entry.DIR_Name.getD 0 0 = 0xE5 then none
  else if entry.DIR_Attr &&& 0x08 ≠ 0 ∨ entry.DIR_Attr &&& 0x02 ≠ 0 ∨ entry.DIR_Attr &&& 0x04 ≠ 0 then
    none
  else if (List.range 11).any (fun i => invalidNameByte (entry.DIR_Name.getD i 0)) then none
  else some
    { fileName := (List.range 11).map (fun i =>
        if 32 ≤ entry.DIR_Name.getD i 0 ∧ entry.DIR_Name.getD i 0 ≤ 126 then entry.DIR_Name.getD i 0
        else 46)
      attributes := attributeFlags entry.DIR_Attr
      fileSize := entry.DIR_FileSize
      firstCluster := (entry.DIR_FstClusHI * 65536) % 4294967296 ||| entry.DIR_FstClusLO
      creationDate := decodeDate entry.DIR_CrtDate
      creationTime := decodeTime entry.DIR_CrtTime
      writeDate := decodeDate entry.DIR_WrtDate
      writeTime := decodeTime entry.DIR_WrtTime }

/-- One item of the listing printed by `readDirectory`. -/
inductive Output where
  /-- The line `Long Filename: %ls`. -/
  | longFilename (name : List Nat)
  /-- The dump printed by `printLongDirectoryEntry`. -/
  | longEntry (report : LongEntryReport)
  /-- The dump printed by `printDirectoryEntry`. -/
  | entry (report : EntryReport)
deriving DecidableEq

/-- What the loop of `readDirectory` does. -/
inductive ScanResult where
  /-- The loop ends; `out` is the listing. -/
  | finished (out : List Output)
  /-- Undefined behaviour: `parseLongNameEntry` stores outside `longNameBuffer`;
  `out` is the listing so far. -/
  | bufferOverrun (out : List Output) (position : Int)
deriving DecidableEq

/-- Number of elements of `longNameBuffer`. -/
def longNameCapacity : Nat := 256

/-- The local `order` of `readDirectory`: `LDIR_Ord & ~0x40`. -/
def longOrder (longEntry : LongDirectoryEntry) : Nat := longEntry.LDIR_Ord &&& 0xFFFFFFBF

/-- The `for` loop of `readDirectory`, from `i = n - 1` down to `0`; `out` is the
listing printed so far.  An in-bounds call of `parseLongNameEntry` stores below
element 247, so the string printed from the buffer ends inside the buffer. -/
def scanLoop (rootDir : List Nat) : Nat → List Nat → List Output → ScanResult
  | 0, _, out => .finished out
  | i + 1, longNameBuffer, out =>
    if isLongNameEntry (decodeDirectoryEntry (record rootDir i)) then
      let longEntry := decodeLongDirectoryEntry (record rootDir i)
      let position : Int := (((longOrder longEntry : Nat) : Int) - 1) * 13
      match parseLongNameEntry longEntry longNameBuffer position with
      | none => .bufferOverrun out position
      | some buffer => scanLoop rootDir i buffer out
    else
      let named := longNameBuffer.getD 0 0 ≠ 0
      let out1 := if named then
          out ++ [Output.longFilename (cString longNameBuffer),
            Output.longEntry (printLongDirectoryEntry (decodeLongDirectoryEntry (record rootDir i)))]
        else out
      let buffer := if named then List.replicate longNameCapacity 0 else longNameBuffer
      match printDirectoryEntry (decodeDirectoryEntry (record rootDir i)) with
      | none => scanLoop rootDir i buffer out1
      | some report => scanLoop rootDir i buffer (out1 ++ [Output.entry report])

/-- The function `readDirectory`: `none` when it returns before the loop (seek or
read failed, or the read was short). -/
def readDirectory (fd : Disk) (bs : BootSector) : Option ScanResult :=
  match readRootDir fd bs with
  | none => none
  | some rootDir => some (scanLoop rootDir bs.BPB_RootEntCnt (List.replicate longNameCapacity 0) [])

/-- The entry dump of a listing item, if it is one. -/
def Output.entryReport : Output → Option EntryReport
  | .entry report => some report
  | _ => none

/-- The entry dumps of a listing, in the order printed. -/
def ScanResult.entries : ScanResult → List EntryReport
  | .finished out => out.filterMap Output.entryReport
  | .bufferOverrun out _ => out.filterMap Output.entryReport

/-! ## Example directories -/

/-- The two bytes of a 16-bit value, low byte first. -/
def le16Bytes (v : Nat) : List Nat := [v % 256, v / 256 % 256]

/-- The 32 bytes of a `DirectoryEntry`, field by field. -/
def encodeDirectoryEntry (e : DirectoryEntry) : List Nat :=
  (padTo 11 e.DIR_Name).take 11 ++ [e.DIR_Attr, e.DIR_NTRes, e.DIR_CrtTimeTenth]
    ++ le16Bytes e.DIR_CrtTime ++ le16Bytes e.DIR_CrtDate ++ le16Bytes e.DIR_LstAccDate
    ++ le16Bytes e.DIR_FstClusHI ++ le16Bytes e.DIR_WrtTime ++ le16Bytes e.DIR_WrtDate
    ++ le16Bytes e.DIR_FstClusLO ++ le16Bytes e.DIR_FileSize ++ le16Bytes (e.DIR_FileSize / 65536)

/-- The 32 bytes of a `LongDirectoryEntry`, field by field. -/
def encodeLongDirectoryEntry (e : LongDirectoryEntry) : List Nat :=
  [e.LDIR_Ord] ++ (padTo 10 e.LDIR_Name1).take 10 ++ [e.LDIR_Attr, e.LDIR_Type, e.LDIR_Chksum]
    ++ (padTo 12 e.LDIR_Name2).take 12 ++ le16Bytes e.LDIR_FstClusLO
    ++ (padTo 4 e.LDIR_Name3).take 4

/-- UTF-16 code units as bytes, low byte first. -/
def utf16Bytes : List Nat → List Nat
  | [] => []
  | u :: us => u % 256 :: u / 256 % 256 :: utf16Bytes us

/-- A long-name record with sequence byte `ord` that carries the 13 code units
`units`. -/
def longPart (ord : Nat) (units : List Nat) : LongDirectoryEntry :=
  { LDIR_Ord := ord
    LDIR_Name1 := utf16Bytes (units.take 5)
    LDIR_Attr := 0x0F
    LDIR_Type := 0
    LDIR_Chksum := 0
    LDIR_Name2 := utf16Bytes ((units.drop 5).take 6)
    LDIR_FstClusLO := 0
    LDIR_Name3 := utf16Bytes ((units.drop 11).take 2) }

/-- An image with the geometry of `exBoot` whose root directory region starts with
the bytes `root`. -/
def dirDisk (root : List Nat) : Disk :=
  { bytes := List.replicate 512 0 ++ padTo 512 (fatBytes fileFat) ++ padTo 512 root ++ exData
    ioError := fun _ => false }

/-- Short entry `README  TXT`: archive, 1234 bytes, cluster 3, created and written
on 2024-03-15 at 13:37:42. -/
def readmeEntry : DirectoryEntry :=
  { DIR_Name := [82, 69, 65, 68, 77, 69, 32, 32, 84, 88, 84], DIR_Attr := 0x20, DIR_NTRes := 0,
    DIR_CrtTimeTenth := 0, DIR_CrtTime := 27829, DIR_CrtDate := 22639, DIR_LstAccDate := 22639,
    DIR_FstClusHI := 0, DIR_WrtTime := 27829, DIR_WrtDate := 22639, DIR_FstClusLO := 3,
    DIR_FileSize := 1234 }

/-- Short entry `LONGFI~1TXT` of the file named `longfilename.txt`. -/
def aliasEntry : DirectoryEntry :=
  { exEntry with DIR_Name := [76, 79, 78, 71, 70, 73, 126, 49, 84, 88, 84] }

/-- The code units of `longfilename.` (ordinal 1). -/
def unitsPart1 : List Nat := [108, 111, 110, 103, 102, 105, 108, 101, 110, 97, 109, 101, 46]

/-- The code units of `txt`, the terminator `0x0000` and nine `0xFFFF` fill units
(ordinal 2). -/
def unitsPart2 : List Nat := [116, 120, 116, 0] ++ List.replicate 9 0xFFFF

/-- The long name of the two parts as the specification assembles it: the units of
part 1, then those of part 2, cut at the first `0x0000` or `0xFFFF`. -/
def specLongName (part1 part2 : List Nat) : List Nat :=
  (part1 ++ part2).takeWhile (fun u => u != 0 && u != 0xFFFF)

/-- Root directory `README.TXT`, then the long-name records `0x42` and `0x01`, then
their short entry `LONGFI~1.TXT`. -/
def lfnDir : List Nat :=
  encodeDirectoryEntry readmeEntry ++ encodeLongDirectoryEntry (longPart 0x42 unitsPart2)
    ++ encodeLongDirectoryEntry (longPart 0x01 unitsPart1) ++ encodeDirectoryEntry aliasEntry

/-- Root directory that starts with the long-name records `0x42` and `0x01` and
their short entry. -/
def lfnFirstDir : List Nat :=
  encodeLongDirectoryEntry (longPart 0x42 unitsPart2)
    ++ encodeLongDirectoryEntry (longPart 0x01 unitsPart1) ++ encodeDirectoryEntry aliasEntry

/-- A deleted short entry: `README  TXT` with the first name byte replaced by
`0xE5`. -/
def deletedEntry : DirectoryEntry :=
  { readmeEntry with DIR_Name := [0xE5, 69, 65, 68, 77, 69, 32, 32, 84, 88, 84] }

/-- The code units of `notes.txt`, the terminator and three fill units. -/
def unitsNotes : List Nat := [110, 111, 116, 101, 115, 46, 116, 120, 116, 0] ++ List.replicate 3 0xFFFF

/-- Root directory with a deleted entry in front of a file that has a one-record
long name. -/
def deletedDir : List Nat :=
  encodeDirectoryEntry deletedEntry ++ encodeLongDirectoryEntry (longPart 0x41 unitsNotes)
    ++ encodeDirectoryEntry exEntry

/-- Root directory whose first record is all zero, followed by `README.TXT`, a
long-name record and the short entry `FILE.TXT`. -/
def markerDir : List Nat :=
  List.replicate 32 0 ++ encodeDirectoryEntry readmeEntry
    ++ encodeLongDirectoryEntry (longPart 0x41 unitsNotes) ++ encodeDirectoryEntry exEntry

/-- A hidden archive file with a valid name. -/
def hiddenEntry : DirectoryEntry := { exEntry with DIR_Attr := 0x22 }

/-- Root directory whose first record is all zero, followed by a file that has a
one-record long name. -/
def unusedDir : List Nat :=
  List.replicate 32 0 ++ encodeLongDirectoryEntry (longPart 0x41 unitsNotes)
    ++ encodeDirectoryEntry exEntry

/-! ## Further reference notions and examples -/

/-- The indices at which `parseLongNameEntry` stores: `position + j` for
`j = 0 .. 12`. -/
def storeIndices (position : Int) : List Int :=
  (List.range 13).map (fun (j : Nat) => position + (j : Int))

/-- The 13 UTF-16 code units of a long entry as the specification reads them: the
full little-endian 16-bit value of each pair of bytes of the three name fields. -/
def codeUnits (longEntry : LongDirectoryEntry) : List Nat :=
  (List.range 5).map (fun i => le16 longEntry.LDIR_Name1 (2 * i))
    ++ (List.range 6).map (fun i => le16 longEntry.LDIR_Name2 (2 * i))
    ++ (List.range 2).map (fun i => le16 longEntry.LDIR_Name3 (2 * i))

/-- The code units of a name with two letters outside Latin-1 (`U+0141`, `U+017A`),
the terminator and four fill units. -/
def unitsWide : List Nat :=
  [0x141, 0xF3, 0x64, 0x17A, 0x2E, 0x74, 0x78, 0x74, 0] ++ List.replicate 4 0xFFFF

/-- A long-name record with ordinal 1 that carries `unitsWide`. -/
def widePart : LongDirectoryEntry := longPart 0x01 unitsWide

/-- Root directory whose first record is a long-name record with sequence byte
`0x54` (last-part flag and ordinal 20), followed by the short entry `FILE.TXT`. -/
def ordinal20Dir : List Nat :=
  encodeLongDirectoryEntry (longPart 0x54 unitsNotes) ++ encodeDirectoryEntry exEntry

/-- A handle on the file of `2^32 - 1` bytes after a seek to position 1. -/
def stuckHandle : File := (seekFile (openFile exVolume bigEntry) 1 0).1

/-! ## Cluster chains: lemmas -/

theorem linkAt_succ_start (fat : List Nat) (s j : Nat) :
    linkAt fat s (j + 1) = (fat[s]?).bind (fun c => linkAt fat c j) := by
  induction j with
  | zero => simp [linkAt]
  | succ j ih =>
    rw [linkAt, ih]
    cases fat[s]? <;> simp [linkAt]

theorem linkAt_shift (fat : List Nat) (s a b : Nat) (h : linkAt fat s a = linkAt fat s b)
    (m : Nat) : linkAt fat s (a + m) = linkAt fat s (b + m) := by
  induction m with
  | zero => simpa using h
  | succ m ih =>
    rw [← Nat.add_assoc, ← Nat.add_assoc, linkAt, linkAt, ih]

theorem linksUpTo_zero (fat : List Nat) (s : Nat) : linksUpTo fat s 0 = [] := by
  simp [linksUpTo]

theorem linksUpTo_succ_start (fat : List Nat) (s k next : Nat) (h : fat[s]? = some next) :
    linksUpTo fat s (k + 1) = s :: linksUpTo fat next k := by
  unfold linksUpTo
  rw [List.range_succ_eq_map, List.filterMap_cons, List.filterMap_map]
  simp only [linkAt]
  congr 1
  apply List.filterMap_congr
  intro j _
  simp [linkAt_succ_start, h]

theorem linksUpTo_length (fat : List Nat) (s k : Nat)
    (h : ∀ j < k, ∃ c, linkAt fat s j = some c) : (linksUpTo fat s k).length = k := by
  induction k with
  | zero => simp [linksUpTo]
  | succ k ih =>
    obtain ⟨c, hc⟩ := h k (Nat.lt_succ_self k)
    have ih2 := ih (fun j hj => h j (Nat.lt_succ_of_lt hj))
    unfold linksUpTo at ih2 ⊢
    rw [List.range_succ, List.filterMap_append, List.length_append, ih2]
    simp [hc]

/-- A walk over `k` links, all below `0xFFF8`, that then meets an end marker returns
the visited clusters followed by `0xFFFF`, when the array has room for them. -/
theorem chainLoop_returns (fat : List Nat) (k : Nat) :
    ∀ (room cur : Nat) (chain : List Nat), k < room →
      (∀ j < k, ∃ c, linkAt fat cur j = some c ∧ c < 0xFFF8) →
      (∃ e, linkAt fat cur k = some e ∧ 0xFFF8 ≤ e) →
      chainLoop fat room cur chain = .returned (chain ++ linksUpTo fat cur k ++ [0xFFFF]) := by
  induction k with
  | zero =>
    intro room cur chain hroom _ hend
    obtain ⟨e, he, hge⟩ := hend
    simp only [linkAt, Option.some.injEq] at he
    subst he
    obtain ⟨room, rfl⟩ : ∃ r, room = r + 1 := ⟨room - 1, by omega⟩
    have : ¬ cur < 0xFFF8 := by omega
    simp [chainLoop, this, linksUpTo_zero]
  | succ k ih =>
    intro room cur chain hroom hlt hend
    obtain ⟨room, rfl⟩ : ∃ r, room = r + 1 := ⟨room - 1, by omega⟩
    obtain ⟨c0, hc0, hc0lt⟩ := hlt 0 (Nat.succ_pos k)
    simp only [linkAt, Option.some.injEq] at hc0
    subst hc0
    obtain ⟨e, he, hge⟩ := hend
    rw [linkAt_succ_start] at he
    cases hnx : fat[cur]? with
    | none => rw [hnx] at he; simp at he
    | some next =>
      rw [hnx] at he
      simp only [Option.some_bind] at he
      have hlt2 : ∀ j < k, ∃ c, linkAt fat next j = some c ∧ c < 0xFFF8 := by
        intro j hj
        obtain ⟨c, hc, hclt⟩ := hlt (j + 1) (Nat.succ_lt_succ hj)
        rw [linkAt_succ_start, hnx] at hc
        exact ⟨c, hc, hclt⟩
      have := ih room next (chain ++ [cur]) (by omega) hlt2 ⟨e, he, hge⟩
      rw [chainLoop, if_pos hc0lt, hnx]
      simp only
      rw [this, linksUpTo_succ_start fat cur k next hnx]
      simp

/-- A walk whose links never leave the table and never meet an end marker fills the
whole array and then writes past its end. -/
theorem chainLoop_overruns (fat : List Nat) (room : Nat) :
    ∀ (cur : Nat) (chain : List Nat),
      (∀ j, ∃ c, linkAt fat cur j = some c ∧ c < 0xFFF8) →
      chainLoop fat room cur chain = .chainWriteOutOfBounds (chain ++ linksUpTo fat cur room) := by
  induction room with
  | zero => intro cur chain _; simp [chainLoop, linksUpTo_zero]
  | succ room ih =>
    intro cur chain h
    obtain ⟨c0, hc0, hc0lt⟩ := h 0
    simp only [linkAt, Option.some.injEq] at hc0
    subst hc0
    obtain ⟨c1, hc1, _⟩ := h 1
    rw [linkAt_succ_start] at hc1
    cases hnx : fat[cur]? with
    | none => rw [hnx] at hc1; simp at hc1
    | some next =>
      have h2 : ∀ j, ∃ c, linkAt fat next j = some c ∧ c < 0xFFF8 := by
        intro j
        obtain ⟨c, hc, hclt⟩ := h (j + 1)
        rw [linkAt_succ_start, hnx] at hc
        exact ⟨c, hc, hclt⟩
      rw [chainLoop, if_pos hc0lt, hnx]
      simp only
      rw [ih next (chain ++ [cur]) h2, linksUpTo_succ_start fat cur room next hnx]
      simp

/-- A walk that reaches, over `k` links below `0xFFF8`, a cluster below `0xFFF8`
that is outside the table reads the table out of bounds there. -/
theorem chainLoop_reads_outside (fat : List Nat) (k : Nat) :
    ∀ (room cur : Nat) (chain : List Nat) (c : Nat), k < room →
      (∀ j < k, ∃ d, linkAt fat cur j = some d ∧ d < 0xFFF8) →
      linkAt fat cur k = some c → c < 0xFFF8 → fat.length ≤ c →
      chainLoop fat room cur chain =
        .fatReadOutOfBounds (chain ++ linksUpTo fat cur k ++ [c]) c := by
  induction k with
  | zero =>
    intro room cur chain c hroom _ hc hclt hout
    simp only [linkAt, Option.some.injEq] at hc
    subst hc
    obtain ⟨room, rfl⟩ : ∃ r, room = r + 1 := ⟨room - 1, by omega⟩
    have hn : fat[cur]? = none := List.getElem?_eq_none hout
    simp [chainLoop, hclt, hn, linksUpTo_zero]
  | succ k ih =>
    intro room cur chain c hroom hlt hc hclt hout
    obtain ⟨room, rfl⟩ : ∃ r, room = r + 1 := ⟨room - 1, by omega⟩
    obtain ⟨c0, hc0, hc0lt⟩ := hlt 0 (Nat.succ_pos k)
    simp only [linkAt, Option.some.injEq] at hc0
    subst hc0
    rw [linkAt_succ_start] at hc
    cases hnx : fat[cur]? with
    | none => rw [hnx] at hc; simp at hc
    | some next =>
      rw [hnx] at hc
      simp only [Option.some_bind] at hc
      have hlt2 : ∀ j < k, ∃ d, linkAt fat next j = some d ∧ d < 0xFFF8 := by
        intro j hj
        obtain ⟨d, hd, hdlt⟩ := hlt (j + 1) (Nat.succ_lt_succ hj)
        rw [linkAt_succ_start, hnx] at hd
        exact ⟨d, hd, hdlt⟩
      have := ih room next (chain ++ [cur]) c (by omega) hlt2 hc hclt hout
      rw [chainLoop, if_pos hc0lt, hnx]
      simp only
      rw [this, linksUpTo_succ_start fat cur k next hnx]
      simp

/-- Every walk result keeps what was already stored in the array. -/
theorem chainLoop_keeps_stored (fat : List Nat) (room : Nat) :
    ∀ (cur : Nat) (chain : List Nat),
      ∃ rest, (chainLoop fat room cur chain).stored = chain ++ rest := by
  induction room with
  | zero => intro cur chain; exact ⟨[], by simp [chainLoop, ChainResult.stored]⟩
  | succ room ih =>
    intro cur chain
    rw [chainLoop]
    split
    · cases hnx : fat[cur]? with
      | none => exact ⟨[cur], by simp [ChainResult.stored]⟩
      | some next =>
        obtain ⟨rest, hrest⟩ := ih next (chain ++ [cur])
        exact ⟨cur :: rest, by simp [hrest]⟩
    · exact ⟨[0xFFFF], by simp [ChainResult.stored]⟩

/-- The clusters met over the first `k + 1` steps, all below `0xFFF8`, are stored in
the array in order when it has room for them. -/
theorem chainLoop_stored_links (fat : List Nat) (k : Nat) :
    ∀ (room cur : Nat) (chain : List Nat), k < room →
      (∀ j ≤ k, ∃ c, linkAt fat cur j = some c ∧ c < 0xFFF8) →
      ∃ rest, (chainLoop fat room cur chain).stored = chain ++ linksUpTo fat cur (k + 1) ++ rest := by
  induction k with
  | zero =>
    intro room cur chain hroom hlt
    obtain ⟨room, rfl⟩ : ∃ r, room = r + 1 := ⟨room - 1, by omega⟩
    obtain ⟨c0, hc0, hc0lt⟩ := hlt 0 (Nat.le_refl 0)
    simp only [linkAt, Option.some.injEq] at hc0
    subst hc0
    have hl : linksUpTo fat cur 1 = [cur] := by
      simp [linksUpTo, List.range_succ, linkAt]
    rw [chainLoop, if_pos hc0lt, hl]
    cases hnx : fat[cur]? with
    | none => exact ⟨[], by simp [ChainResult.stored]⟩
    | some next =>
      obtain ⟨rest, hrest⟩ := chainLoop_keeps_stored fat room next (chain ++ [cur])
      exact ⟨rest, by simp [hrest]⟩
  | succ k ih =>
    intro room cur chain hroom hlt
    obtain ⟨room, rfl⟩ : ∃ r, room = r + 1 := ⟨room - 1, by omega⟩
    obtain ⟨c0, hc0, hc0lt⟩ := hlt 0 (Nat.zero_le _)
    simp only [linkAt, Option.some.injEq] at hc0
    subst hc0
    obtain ⟨c1, hc1, _⟩ := hlt 1 (by omega)
    rw [linkAt_succ_start] at hc1
    cases hnx : fat[cur]? with
    | none => rw [hnx] at hc1; simp at hc1
    | some next =>
      have hlt2 : ∀ j ≤ k, ∃ c, linkAt fat next j = some c ∧ c < 0xFFF8 := by
        intro j hj
        obtain ⟨c, hc, hclt⟩ := hlt (j + 1) (Nat.succ_le_succ hj)
        rw [linkAt_succ_start, hnx] at hc
        exact ⟨c, hc, hclt⟩
      obtain ⟨rest, hrest⟩ := ih room next (chain ++ [cur]) (by omega) hlt2
      refine ⟨rest, ?_⟩
      rw [chainLoop, if_pos hc0lt, hnx]
      simp only
      rw [hrest, linksUpTo_succ_start fat cur (k + 1) next hnx]
      simp

theorem linksUpTo_getElem? (fat : List Nat) (s k : Nat)
    (h : ∀ j < k, ∃ c, linkAt fat s j = some c) :
    ∀ j < k, (linksUpTo fat s k)[j]? = linkAt fat s j := by
  induction k with
  | zero => intro j hj; omega
  | succ k ih =>
    intro j hj
    have hk := fun i hi => h i (Nat.lt_succ_of_lt hi)
    have hlen := linksUpTo_length fat s k hk
    obtain ⟨c, hc⟩ := h k (Nat.lt_succ_self k)
    have hsplit : linksUpTo fat s (k + 1) = linksUpTo fat s k ++ [c] := by
      unfold linksUpTo
      rw [List.range_succ, List.filterMap_append]
      simp [hc]
    rw [hsplit]
    by_cases hjk : j < k
    · rw [List.getElem?_append_left (by omega)]
      exact ih hk j hjk
    · have : j = k := by omega
      subst this
      rw [List.getElem?_append_right (by omega)]
      simp [hlen, hc]

/-- Links that come back to an earlier cluster repeat for ever. -/
theorem linkAt_cycle_forever (fat : List Nat) (s a p : Nat) (hp : 0 < p)
    (hcyc : linkAt fat s (a + p) = linkAt fat s a)
    (hlt : ∀ j < a + p, ∃ c, linkAt fat s j = some c ∧ c < 0xFFF8) :
    ∀ j, ∃ c, linkAt fat s j = some c ∧ c < 0xFFF8 := by
  intro j
  induction j using Nat.strong_induction_on with
  | _ j ih =>
    by_cases hj : j < a + p
    · exact hlt j hj
    · have hshift := linkAt_shift fat s (a + p) a hcyc (j - (a + p))
      have e1 : a + p + (j - (a + p)) = j := by omega
      rw [e1] at hshift
      rw [hshift]
      exact ih (a + (j - (a + p))) (by omega)

/-- A walk over `k` links that reaches a cluster it has not met before has met at
most `0xFFF8` clusters below `0xFFF8`. -/
theorem links_count_le (fat : List Nat) (s k : Nat)
    (hlt : ∀ j < k, ∃ c, linkAt fat s j = some c ∧ c < 0xFFF8)
    (hnew : ∀ j < k, linkAt fat s j ≠ linkAt fat s k) : k ≤ 0xFFF8 := by
  have hinj : Set.InjOn (fun j => (linkAt fat s j).getD 0) (Finset.range k : Set Nat) := by
    intro a ha b hb hab
    simp only [Finset.coe_range, Set.mem_Iio] at ha hb
    obtain ⟨ca, hca, _⟩ := hlt a ha
    obtain ⟨cb, hcb, _⟩ := hlt b hb
    have heq : linkAt fat s a = linkAt fat s b := by
      simp only [hca, hcb, Option.getD_some] at hab
      rw [hca, hcb, hab]
    by_contra hne
    rcases Nat.lt_or_gt_of_ne hne with h | h
    · have := linkAt_shift fat s a b heq (k - b)
      rw [show b + (k - b) = k by omega] at this
      exact hnew (a + (k - b)) (by omega) this
    · have := linkAt_shift fat s b a heq.symm (k - a)
      rw [show a + (k - a) = k by omega] at this
      exact hnew (b + (k - a)) (by omega) this
  have hmaps : ∀ j ∈ Finset.range k, (fun j => (linkAt fat s j).getD 0) j ∈ Finset.range 0xFFF8 := by
    intro j hj
    obtain ⟨c, hc, hclt⟩ := hlt j (Finset.mem_range.mp hj)
    simp [hc, hclt]
  have := Finset.card_le_card_of_injOn _ hmaps hinj
  simpa using this

theorem u16View_length : ∀ b : List Nat, (u16View b).length = b.length / 2
  | [] => by simp [u16View]
  | [_] => by simp [u16View]
  | _ :: _ :: rest => by
    have ih := u16View_length rest
    simp only [u16View, List.length_cons, ih]
    omega

theorem loadFAT_length (fd : Disk) (bs : BootSector) (fat : List Nat)
    (h : loadFAT fd bs = some fat) : fat.length = fatSizeBytes bs / 2 := by
  unfold loadFAT at h
  generalize fatSizeBytes bs = n at h ⊢
  generalize readFromDiskImage fd (fatRegionOffset bs) n = r at h
  cases r with
  | none => exact Option.noConfusion h
  | some b =>
    simp only at h
    by_cases hlen : b.length = n
    · rw [if_neg (not_not.mpr hlen)] at h
      rw [← Option.some.inj h, u16View_length, hlen]
    · rw [if_pos hlen] at h
      exact Option.noConfusion h


/-! ## Geometry: lemmas -/

theorem wrapInt32_of_lt (n : Nat) (h : n < 2147483648) : wrapInt32 n = (n : Int) := by
  unfold wrapInt32
  have h1 : n % 4294967296 = n := Nat.mod_eq_of_lt (by omega)
  rw [h1, if_pos h]

theorem toU32_of_lt (n : Nat) (h : n < 4294967296) : toU32 (n : Int) = n := by
  unfold toU32
  omega

theorem toSizeT_of_lt (n : Nat) (h : n < 18446744073709551616) : toSizeT (n : Int) = n := by
  unfold toSizeT
  omega

theorem toOffT_of_lt (n : Nat) (h : n < 9223372036854775808) : toOffT n = (n : Int) := by
  unfold toOffT
  have h1 : n % 18446744073709551616 = n := Nat.mod_eq_of_lt (by omega)
  rw [h1, if_pos h]

/-- Rounding up by adding `b - 1` before the division is the ceiling of the
quotient. -/
theorem ceil_div_eq (a b : Nat) (hb : 0 < b) : ⌈(a : ℚ) / (b : ℚ)⌉₊ = (a + b - 1) / b := by
  have hbq : (0 : ℚ) < (b : ℚ) := by exact_mod_cast hb
  apply le_antisymm
  · rw [Nat.ceil_le, div_le_iff₀ hbq]
    have h1 : a ≤ (a + b - 1) / b * b := by
      have e1 := Nat.div_add_mod (a + b - 1) b
      have e2 := Nat.mod_lt (a + b - 1) hb
      rw [Nat.mul_comm] at e1
      generalize (a + b - 1) / b * b = m at e1 ⊢
      omega
    exact_mod_cast h1
  · have h2 : (a : ℚ) / (b : ℚ) ≤ (⌈(a : ℚ) / (b : ℚ)⌉₊ : ℚ) := Nat.le_ceil _
    rw [div_le_iff₀ hbq] at h2
    have h3 : a ≤ ⌈(a : ℚ) / (b : ℚ)⌉₊ * b := by exact_mod_cast h2
    rw [Nat.div_le_iff_le_mul_add_pred hb, Nat.mul_comm]
    generalize ⌈(a : ℚ) / (b : ℚ)⌉₊ * b = m at h3 ⊢
    omega

theorem firstDataSector_lt (bs : BootSector) (hr : bs.InRange) (hb : 1 ≤ bs.BPB_BytsPerSec) :
    firstDataSector bs < 18939615 := by
  obtain ⟨h1, h2, h3, h4, h5, h6⟩ := hr
  unfold firstDataSector
  have hdiv : (bs.BPB_RootEntCnt * 32 + bs.BPB_BytsPerSec - 1) / bs.BPB_BytsPerSec
      ≤ bs.BPB_RootEntCnt * 32 + bs.BPB_BytsPerSec - 1 := Nat.div_le_self _ _
  have hmul : bs.BPB_NumFATs * bs.BPB_FATSz16 ≤ 255 * 65535 :=
    Nat.mul_le_mul (by omega) (by omega)
  omega

/-- For fields in range and a non-zero sector size, `clusterToSector` computes the
exact sector number of a 16-bit cluster `c ≥ 2`. -/
theorem clusterToSector_eq (vol : Volume) (c : Nat) (hr : vol.bootSector.InRange)
    (hb : 1 ≤ vol.bootSector.BPB_BytsPerSec) (hc : 2 ≤ c) (hc16 : c < 65536) :
    clusterToSector vol c
      = some ((firstDataSector vol.bootSector + (c - 2) * vol.bootSector.BPB_SecPerClus : Nat) : Int) := by
  have hfds := firstDataSector_lt vol.bootSector hr hb
  obtain ⟨h1, h2, h3, h4, h5, h6⟩ := hr
  have hne : ¬ vol.bootSector.BPB_BytsPerSec = 0 := by omega
  have hform : vol.bootSector.BPB_RsvdSecCnt + vol.bootSector.BPB_NumFATs * vol.bootSector.BPB_FATSz16 +
      (vol.bootSector.BPB_RootEntCnt * 32 + (vol.bootSector.BPB_BytsPerSec - 1)) /
        vol.bootSector.BPB_BytsPerSec = firstDataSector vol.bootSector := by
    unfold firstDataSector
    rw [Nat.add_sub_assoc hb]
  have hprod : (c - 2) * vol.bootSector.BPB_SecPerClus ≤ 65533 * 255 :=
    Nat.mul_le_mul (by omega) (by omega)
  unfold clusterToSector
  simp only [hne, if_false, hform]
  rw [wrapInt32_of_lt _ (by omega), toU32_of_lt _ (by omega)]
  have hcast : (firstDataSector vol.bootSector : Int) + ((c : Int) - 2) * (vol.bootSector.BPB_SecPerClus : Int)
      = ((firstDataSector vol.bootSector + (c - 2) * vol.bootSector.BPB_SecPerClus : Nat) : Int) := by
    push_cast [Nat.cast_sub hc]
    ring
  rw [hcast, toU32_of_lt _ (by omega)]

theorem readFromDiskImage_length_le (fd : Disk) (offset : Int) (n : Nat) (b : List Nat)
    (h : readFromDiskImage fd offset n = some b) : b.length ≤ n := by
  unfold readFromDiskImage at h
  split at h
  · exact Option.noConfusion h
  · split at h
    · exact Option.noConfusion h
    · rw [← Option.some.inj h]
      simp

theorem readFromDiskImage_ofNat (fd : Disk) (off n : Nat) :
    readFromDiskImage fd (off : Int) n
      = if fd.ioError off = true then none else some ((fd.bytes.drop off).take n) := by
  unfold readFromDiskImage
  rw [if_neg (by omega), Int.toNat_ofNat]


/-! ## `readFile`: lemmas -/

theorem getD_lt_of_forall (b : List Nat) (i : Nat) (h : ∀ x ∈ b, x < 256) : b.getD i 0 < 256 := by
  rw [List.getD_eq_getElem?_getD]
  cases hi : b[i]? with
  | none => simp
  | some x =>
    simp only [Option.getD_some]
    exact h x (List.getElem?_mem hi)

theorem readFromDiskImage_mem (fd : Disk) (offset : Int) (n : Nat) (b : List Nat)
    (h : readFromDiskImage fd offset n = some b) : ∀ x ∈ b, x ∈ fd.bytes := by
  unfold readFromDiskImage at h
  split at h
  · exact Option.noConfusion h
  · split at h
    · exact Option.noConfusion h
    · rw [← Option.some.inj h]
      exact fun x hx => List.mem_of_mem_drop (List.mem_of_mem_take hx)

theorem nextCluster_lt (vol : Volume) (c : Nat) (hr : vol.InRange) : nextCluster vol c < 65536 := by
  unfold nextCluster
  simp only
  generalize toOffT (toSizeT (wrapInt32 (vol.bootSector.BPB_RsvdSecCnt * vol.bootSector.BPB_BytsPerSec))
    + c * 2) = off
  cases hread : readFromDiskImage vol.fd off 2 with
  | none => simp
  | some b =>
    simp only
    split
    · omega
    · have hall : ∀ x ∈ b, x < 256 := fun x hx =>
        hr.2 x (readFromDiskImage_mem vol.fd off 2 b hread x hx)
      have h0 := getD_lt_of_forall _ 0 hall
      have h1 := getD_lt_of_forall _ (0 + 1) hall
      unfold le16
      omega

theorem chainAt_lt (vol : Volume) (s : Nat) (hr : vol.InRange) (hs : s < 65536) :
    ∀ j, chainAt vol s j < 65536
  | 0 => hs
  | _ + 1 => nextCluster_lt vol _ hr

theorem mod_clusterSize_mod (p b k : Nat) : p % (b * k) % b = p % b :=
  Nat.mod_mul_right_mod p b k

/-- Offset within the cluster, split into whole sectors and the offset within the
sector. -/
theorem clusterOffset_split (p b k : Nat) :
    p % (b * k) / b * b + p % b = p % (b * k) := by
  have h := Nat.div_add_mod (p % (b * k)) b
  rw [mod_clusterSize_mod, Nat.mul_comm] at h
  exact h

theorem clusterOffset_sector_lt (p b k : Nat) (hb : 0 < b) (hk : 0 < k) :
    p % (b * k) / b < k := by
  rw [Nat.div_lt_iff_lt_mul hb, Nat.mul_comm k b]
  exact Nat.mod_lt _ (Nat.mul_pos hb hk)

theorem take_drop_take (l : List Nat) (x so n b : Nat) (h : so + n ≤ b) :
    (((l.drop x).take b).drop so).take n = (l.drop (x + so)).take n := by
  rw [List.drop_take, List.take_take, List.drop_drop, Nat.min_eq_left (by omega)]

/-- The sector read made by an iteration of the loop of `readFile` in a readable
cluster: sector `k` of the cluster comes back whole. -/
theorem readSector_in_cluster (vol : Volume) (c k : Nat) (hc : ClusterReadable vol c)
    (hk : k < vol.bootSector.BPB_SecPerClus) :
    readSector vol (((firstDataSector vol.bootSector + (c - 2) * vol.bootSector.BPB_SecPerClus : Nat) : Int)
        + ((k : Nat) : Int))
      = some ((vol.fd.bytes.drop (clusterByteOffset vol.bootSector c + k * vol.bootSector.BPB_BytsPerSec)).take
          vol.bootSector.BPB_BytsPerSec) := by
  obtain ⟨_, _, hio⟩ := hc
  have hcast : (((firstDataSector vol.bootSector + (c - 2) * vol.bootSector.BPB_SecPerClus : Nat) : Int)
        + ((k : Nat) : Int)) * (vol.bootSector.BPB_BytsPerSec : Int)
      = ((clusterByteOffset vol.bootSector c + k * vol.bootSector.BPB_BytsPerSec : Nat) : Int) := by
    unfold clusterByteOffset
    push_cast
    ring
  unfold readSector
  rw [hcast, readFromDiskImage_ofNat, hio k hk]
  simp

theorem sector_in_cluster_length (vol : Volume) (c k : Nat) (hc : ClusterReadable vol c)
    (hk : k < vol.bootSector.BPB_SecPerClus) :
    ((vol.fd.bytes.drop (clusterByteOffset vol.bootSector c + k * vol.bootSector.BPB_BytsPerSec)).take
        vol.bootSector.BPB_BytsPerSec).length = vol.bootSector.BPB_BytsPerSec := by
  obtain ⟨_, hin, _⟩ := hc
  have h1 : (k + 1) * vol.bootSector.BPB_BytsPerSec ≤ clusterSize vol.bootSector := by
    unfold clusterSize
    rw [Nat.mul_comm vol.bootSector.BPB_BytsPerSec]
    exact Nat.mul_le_mul_right _ hk
  rw [Nat.add_mul, Nat.one_mul] at h1
  rw [List.length_take, List.length_drop]
  omega

theorem chunkSize_le (f : File) (br L : Nat) :
    chunkSize f br L ≤ f.volume.bootSector.BPB_BytsPerSec - f.filePosition % f.volume.bootSector.BPB_BytsPerSec ∧
      chunkSize f br L ≤ L := by
  unfold chunkSize
  simp only
  split <;> split <;> omega

theorem chunkSize_le_size (f : File) (br L : Nat) (h : br ≤ f.fileSize) :
    br + chunkSize f br L ≤ f.fileSize := by
  unfold chunkSize
  simp only
  split <;> split <;> omega

theorem chunkSize_pos (f : File) (br L : Nat) (hb : 1 ≤ f.volume.bootSector.BPB_BytsPerSec)
    (hL : 0 < L) (h : br < f.fileSize) : 0 < chunkSize f br L := by
  have := Nat.mod_lt f.filePosition hb
  unfold chunkSize
  simp only
  split <;> split <;> omega

theorem chunkSize_eq (f : File) (br L : Nat) :
    chunkSize f br L =
      if br + (if f.volume.bootSector.BPB_BytsPerSec - f.filePosition % f.volume.bootSector.BPB_BytsPerSec > L
          then L
          else f.volume.bootSector.BPB_BytsPerSec - f.filePosition % f.volume.bootSector.BPB_BytsPerSec)
            > f.fileSize
      then f.fileSize - br
      else (if f.volume.bootSector.BPB_BytsPerSec - f.filePosition % f.volume.bootSector.BPB_BytsPerSec > L
          then L
          else f.volume.bootSector.BPB_BytsPerSec - f.filePosition % f.volume.bootSector.BPB_BytsPerSec) :=
  rfl

/-- One iteration of the loop of `readFile` in a readable cluster: `chunkSize` bytes
are copied from the current cluster, at the offset of the position in the cluster. -/
theorem readFileLoop_step (junk : Nat → Nat) (fuel : Nat) (f : File) (buf : List Nat) (br L : Nat)
    (hr : f.volume.bootSector.InRange) (hb : 1 ≤ f.volume.bootSector.BPB_BytsPerSec)
    (hs : 1 ≤ f.volume.bootSector.BPB_SecPerClus)
    (hL : 0 < L) (hp : f.filePosition < f.fileSize)
    (hc : ClusterReadable f.volume f.currentCluster) (hc16 : f.currentCluster < 65536) :
    readFileLoop junk (fuel + 1) f buf br L =
      readFileLoop junk fuel (stepFile f (chunkSize f br L))
        (buf ++ (f.volume.fd.bytes.drop (clusterByteOffset f.volume.bootSector f.currentCluster
            + f.filePosition % clusterSize f.volume.bootSector)).take (chunkSize f br L))
        (br + chunkSize f br L) (L - chunkSize f br L) := by
  have hcs : ¬ (f.volume.bootSector.BPB_BytsPerSec * f.volume.bootSector.BPB_SecPerClus = 0) :=
    Nat.ne_of_gt (Nat.mul_pos hb hs)
  have hk := clusterOffset_sector_lt f.filePosition _ _ hb hs
  have hcond : L > 0 ∧ f.filePosition < f.fileSize := ⟨hL, hp⟩
  have hle := (chunkSize_le f br L).1
  have hmod := Nat.mod_lt f.filePosition hb
  rw [readFileLoop, if_pos hcond]
  simp only []
  rw [clusterToSector_eq f.volume f.currentCluster hr hb hc.1 hc16]
  simp only []
  rw [if_neg hcs, readSector_in_cluster f.volume f.currentCluster _ hc hk]
  simp only []
  rw [sector_in_cluster_length f.volume f.currentCluster _ hc hk]
  simp only [← chunkSize_eq, Nat.sub_self, List.range_zero, List.map_nil, List.append_nil]
  rw [take_drop_take _ _ _ _ _ (by omega), Nat.add_assoc, clusterOffset_split]
  rfl

theorem clusterData_length (vol : Volume) (c : Nat) (hc : ClusterReadable vol c) :
    (clusterData vol c).length = clusterSize vol.bootSector := by
  obtain ⟨_, hin, _⟩ := hc
  unfold clusterData
  rw [List.length_take, List.length_drop]
  omega

theorem chainData_length (vol : Volume) (s : Nat) :
    ∀ n, (∀ j < n, ClusterReadable vol (chainAt vol s j)) →
      (chainData vol s n).length = n * clusterSize vol.bootSector
  | 0, _ => by simp [chainData]
  | n + 1, h => by
    rw [chainData, List.length_append, chainData_length vol s n (fun j hj => h j (Nat.lt_succ_of_lt hj)),
      clusterData_length vol _ (h n (Nat.lt_succ_self n)), Nat.succ_mul]

theorem chainData_initial (vol : Volume) (s j : Nat) :
    ∀ n, j ≤ n → ∃ tail, chainData vol s n = chainData vol s j ++ tail
  | 0, h => by
    have : j = 0 := by omega
    subst this
    exact ⟨[], by simp⟩
  | n + 1, h => by
    by_cases hj : j = n + 1
    · subst hj
      exact ⟨[], by simp⟩
    · obtain ⟨tail, ht⟩ := chainData_initial vol s j n (by omega)
      exact ⟨tail ++ clusterData vol (chainAt vol s n), by rw [chainData, ht, List.append_assoc]⟩

/-- A run of bytes of the chain data that lies inside the cluster at index `j` is the
same run of bytes of that cluster in the image. -/
theorem chainData_slice (vol : Volume) (s N j co n : Nat)
    (hcov : ∀ i < N, ClusterReadable vol (chainAt vol s i)) (hj : j < N)
    (hco : co + n ≤ clusterSize vol.bootSector) :
    ((chainData vol s N).drop (j * clusterSize vol.bootSector + co)).take n
      = (vol.fd.bytes.drop (clusterByteOffset vol.bootSector (chainAt vol s j) + co)).take n := by
  obtain ⟨tail, ht⟩ := chainData_initial vol s (j + 1) N hj
  have hlenj := chainData_length vol s j (fun i hi => hcov i (by omega))
  have hlenc := clusterData_length vol _ (hcov j hj)
  rw [ht, chainData, List.append_assoc, ← hlenj, List.drop_append,
    List.drop_append_of_le_length (by omega),
    List.take_append_of_le_length (by rw [List.length_drop]; omega)]
  unfold clusterData
  exact take_drop_take _ _ _ _ _ hco

theorem clusterOffset_add_le (p b k : Nat) (hb : 0 < b) (hk : 0 < k) :
    p % (b * k) + (b - p % b) ≤ b * k := by
  have h1 := clusterOffset_split p b k
  have h2 := clusterOffset_sector_lt p b k hb hk
  have h3 : (p % (b * k) / b + 1) * b ≤ k * b := Nat.mul_le_mul_right b h2
  have h4 := Nat.mod_lt p hb
  rw [Nat.add_mul, Nat.one_mul, Nat.mul_comm k b] at h3
  generalize p % (b * k) / b * b = m at h1 h3
  omega

theorem stepFile_volume (f : File) (n : Nat) : (stepFile f n).volume = f.volume := by
  unfold stepFile; split <;> rfl

theorem stepFile_fileSize (f : File) (n : Nat) : (stepFile f n).fileSize = f.fileSize := by
  unfold stepFile; split <;> rfl

theorem stepFile_dirEntry (f : File) (n : Nat) : (stepFile f n).dirEntry = f.dirEntry := by
  unfold stepFile; split <;> rfl

theorem stepFile_filePosition (f : File) (n : Nat) :
    (stepFile f n).filePosition = (f.filePosition + n) % 4294967296 := by
  unfold stepFile; split <;> rfl

/-- An iteration that stays within a sector keeps the current cluster in step with
the position. -/
theorem stepFile_tracks (f : File) (s n : Nat) (ht : Tracks f s)
    (hb : 1 ≤ f.volume.bootSector.BPB_BytsPerSec) (hs : 1 ≤ f.volume.bootSector.BPB_SecPerClus)
    (hn : n ≤ f.volume.bootSector.BPB_BytsPerSec - f.filePosition % f.volume.bootSector.BPB_BytsPerSec)
    (hw : f.filePosition + n < 4294967296) : Tracks (stepFile f n) s := by
  have hle := clusterOffset_add_le f.filePosition _ _ hb hs
  have hcs : 0 < clusterSize f.volume.bootSector := Nat.mul_pos hb hs
  have hdm := Nat.div_add_mod f.filePosition (clusterSize f.volume.bootSector)
  have hmod := Nat.mod_eq_of_lt hw
  unfold Tracks at ht ⊢
  unfold stepFile
  split
  · rename_i hge
    simp only [hmod]
    have hpos : f.filePosition + n
        = clusterSize f.volume.bootSector * (f.filePosition / clusterSize f.volume.bootSector + 1) := by
      rw [Nat.mul_add, Nat.mul_one]
      unfold clusterSize at hge hdm ⊢
      omega
    rw [hpos, Nat.mul_div_cancel_left _ hcs, chainAt, ← ht]
  · rename_i hlt
    simp only [hmod]
    have hdiv : (f.filePosition + n) / clusterSize f.volume.bootSector
        = f.filePosition / clusterSize f.volume.bootSector := by
      apply Nat.div_eq_of_lt_le
      · rw [Nat.mul_comm]; omega
      · rw [Nat.add_mul, Nat.one_mul, Nat.mul_comm]; omega
    rw [hdiv]
    exact ht

/-- The loop of `readFile` on a handle whose current cluster is in step with its
position: as long as the clusters it needs are readable, it copies the bytes of the
chain data that follow the position, keeps cluster and position in step, and stops
when the capacity is used up or the position has reached the file size. -/
theorem readFileLoop_reads_chain (junk : Nat → Nat) (vol : Volume) (s N F p0 : Nat)
    (hr : vol.InRange) (hb : 1 ≤ vol.bootSector.BPB_BytsPerSec)
    (hs : 1 ≤ vol.bootSector.BPB_SecPerClus) (hs16 : s < 65536)
    (hcov : ∀ j < N, ClusterReadable vol (chainAt vol s j))
    (hwrap : p0 + F < 4294967296) :
    ∀ (fuel : Nat) (f : File) (buf : List Nat) (br L : Nat),
      f.volume = vol → f.fileSize = F → f.filePosition = p0 + br → br ≤ F → Tracks f s →
      f.filePosition + min L (F - br) ≤ N * clusterSize vol.bootSector →
      min L (F - br) < fuel →
      ∃ n f', readFileLoop junk fuel f buf br L
          = some (.returned (br + n) (buf ++ ((chainData vol s N).drop f.filePosition).take n) f') ∧
        n ≤ L ∧ br + n ≤ F ∧ (n = L ∨ F ≤ f.filePosition + n) ∧
        f'.volume = vol ∧ f'.fileSize = F ∧ f'.dirEntry = f.dirEntry ∧
        f'.filePosition = f.filePosition + n ∧ Tracks f' s := by
  intro fuel
  induction fuel with
  | zero => intro f buf br L _ _ _ _ _ _ hfuel; omega
  | succ fuel ih =>
    intro f buf br L hvol hF hpos hbr ht hcover hfuel
    by_cases hcond : L > 0 ∧ f.filePosition < f.fileSize
    · obtain ⟨hL, hp⟩ := hcond
      subst hvol
      subst hF
      have ht2 : f.currentCluster
          = chainAt f.volume s (f.filePosition / clusterSize f.volume.bootSector) := ht
      have hcs : 0 < clusterSize f.volume.bootSector := Nat.mul_pos hb hs
      have hbrlt : br < f.fileSize := by omega
      have hj : f.filePosition / clusterSize f.volume.bootSector < N := by
        rw [Nat.div_lt_iff_lt_mul hcs]
        omega
      have hcur : ClusterReadable f.volume f.currentCluster := by
        rw [ht2]; exact hcov _ hj
      have hcur16 : f.currentCluster < 65536 := by
        rw [ht2]; exact chainAt_lt f.volume s hr hs16 _
      have hc1 := chunkSize_le f br L
      have hc2 := chunkSize_le_size f br L hbr
      have hc3 := chunkSize_pos f br L hb hL hbrlt
      have hco := clusterOffset_add_le f.filePosition _ _ hb hs
      have hnowrap : f.filePosition + chunkSize f br L < 4294967296 := by omega
      have hslice := chainData_slice f.volume s N _ (f.filePosition % clusterSize f.volume.bootSector)
        (chunkSize f br L) hcov hj (by unfold clusterSize; omega)
      rw [Nat.div_add_mod'] at hslice
      rw [readFileLoop_step junk fuel f buf br L hr.1 hb hs hL hp hcur hcur16, ht2, ← hslice]
      have hpos2 : (stepFile f (chunkSize f br L)).filePosition = f.filePosition + chunkSize f br L := by
        rw [stepFile_filePosition, Nat.mod_eq_of_lt hnowrap]
      obtain ⟨n, f', hres, hn1, hn2, hn3, hv, hfs, hde, hfp, htr⟩ :=
        ih (stepFile f (chunkSize f br L))
          (buf ++ ((chainData f.volume s N).drop f.filePosition).take (chunkSize f br L))
          (br + chunkSize f br L) (L - chunkSize f br L)
          (stepFile_volume _ _) (stepFile_fileSize _ _) (by rw [hpos2, hpos]; omega)
          (by omega) (stepFile_tracks f s _ ht hb hs hc1.1 hnowrap)
          (by rw [hpos2]; omega) (by omega)
      refine ⟨chunkSize f br L + n, f', ?_, by omega, by omega, ?_, hv, hfs, ?_, ?_, htr⟩
      · rw [hres, hpos2, List.append_assoc, List.take_add, List.drop_drop, Nat.add_assoc]
      · rw [hpos2] at hn3; omega
      · rw [hde, stepFile_dirEntry]
      · rw [hfp, hpos2]; omega
    · refine ⟨0, f, ?_, by omega, by omega, ?_, hvol, hF, rfl, by omega, ht⟩
      · rw [readFileLoop, if_neg hcond]
        simp
      · rw [hF] at hcond
        omega

theorem fatBytes_lt (fat : List Nat) (h : ∀ e ∈ fat, e < 65536) : ∀ b ∈ fatBytes fat, b < 256 := by
  induction fat with
  | nil => intro b hb; simp [fatBytes] at hb
  | cons e es ih =>
    intro b hb
    have he := h e (List.mem_cons_self e es)
    simp only [fatBytes, List.mem_cons] at hb
    rcases hb with rfl | rfl | hb
    · omega
    · omega
    · exact ih (fun x hx => h x (List.mem_cons_of_mem e hx)) b hb

/-- The example images hold byte values when the FAT entries are 16-bit values and
the data are bytes. -/
theorem exDisk_bytes_lt (fat data : List Nat) (hfat : ∀ e ∈ fat, e < 65536)
    (hdata : ∀ b ∈ data, b < 256) : ∀ b ∈ (exDisk fat data).bytes, b < 256 := by
  intro b hb
  simp only [exDisk, padTo, List.mem_append, List.mem_replicate] at hb
  rcases hb with ((⟨_, rfl⟩ | hb | ⟨_, rfl⟩) | ⟨_, rfl⟩) | hb
  · omega
  · exact fatBytes_lt fat hfat b hb
  · omega
  · omega
  · exact hdata b hb

theorem exVolume_inRange : exVolume.InRange := by
  refine ⟨by decide, exDisk_bytes_lt fileFat exData (by decide) ?_⟩
  intro b hb
  simp only [exData, List.mem_map] at hb
  obtain ⟨i, _, rfl⟩ := hb
  omega


/-! ## File handles: lemmas -/

theorem shifted_or_mod (hi lo : Nat) (hlo : lo < 65536) :
    ((hi * 65536) % 4294967296 ||| lo) % 65536 = lo := by
  have h1 : (hi * 65536) % 4294967296 = 65536 * (hi % 65536) := by omega
  have h2 := Nat.mul_add_lt_is_or (i := 16) (b := lo) (by norm_num; exact hlo) (hi % 65536)
  norm_num at h2
  rw [h1, ← h2]
  omega

theorem shiftLeft_or_eq (hi lo : Nat) (hlo : lo < 65536) :
    hi <<< 16 ||| lo = hi * 65536 + lo := by
  have h2 := Nat.mul_add_lt_is_or (i := 16) (b := lo) (by norm_num; exact hlo) hi
  norm_num at h2
  rw [Nat.shiftLeft_eq, Nat.mul_comm hi, ← h2]

theorem seekFile_known (f : File) (offset whence : Int) (hw : whence = 0 ∨ whence = 1 ∨ whence = 2) :
    seekFile f offset whence
      = ({ f with filePosition := toU32 (seekOrigin f whence + offset) },
          ((toU32 (seekOrigin f whence + offset) : Nat) : Int)) := by
  rcases hw with h | h | h
  · subst h
    simp only [seekFile, seekOrigin, if_true, Int.zero_add]
  · subst h
    simp only [seekFile, seekOrigin, show ¬ ((1 : Int) = 0) by decide, if_true, if_false]
  · subst h
    simp only [seekFile, seekOrigin, show ¬ ((2 : Int) = 0) by decide,
      show ¬ ((2 : Int) = 1) by decide, if_true, if_false]


/-! ## `readFile` on an arbitrary volume: lemmas -/

/-- One iteration of the loop of `readFile`, when the divisions are defined: either
the sector read fails and the function returns, or `chunkSize` bytes of `tempBuf` are
copied and the loop goes on from the handle `stepFile`. -/
theorem readFileLoop_unfold (junk : Nat → Nat) (fuel : Nat) (f : File) (buf : List Nat)
    (br L : Nat) (sector : Int) (hL : 0 < L) (hp : f.filePosition < f.fileSize)
    (hcts : clusterToSector f.volume f.currentCluster = some sector)
    (hcs : ¬ f.volume.bootSector.BPB_BytsPerSec * f.volume.bootSector.BPB_SecPerClus = 0) :
    readFileLoop junk (fuel + 1) f buf br L =
      match readSector f.volume (sector + ((f.filePosition % clusterSize f.volume.bootSector
          / f.volume.bootSector.BPB_BytsPerSec : Nat) : Int)) with
      | none => some (.returned br buf f)
      | some data =>
        readFileLoop junk fuel (stepFile f (chunkSize f br L))
          (buf ++ ((data ++ (List.range (f.volume.bootSector.BPB_BytsPerSec - data.length)).map
              (fun i => junk (data.length + i))).drop
                (f.filePosition % f.volume.bootSector.BPB_BytsPerSec)).take (chunkSize f br L))
          (br + chunkSize f br L) (L - chunkSize f br L) := by
  have hcond : L > 0 ∧ f.filePosition < f.fileSize := ⟨hL, hp⟩
  rw [readFileLoop, if_pos hcond]
  simp only []
  rw [hcts]
  simp only []
  rw [if_neg hcs]
  rfl

theorem readSector_length_le (vol : Volume) (sector : Int) (data : List Nat)
    (h : readSector vol sector = some data) : data.length ≤ vol.bootSector.BPB_BytsPerSec :=
  readFromDiskImage_length_le _ _ _ _ h

/-- Whatever the volume, when the loop of `readFile` returns it has copied `k` more
bytes, `k` at most the capacity left, and moved the 32-bit position forward by `k`
modulo `2^32`. -/
theorem readFileLoop_advance (junk : Nat → Nat) :
    ∀ (fuel : Nat) (f : File) (buf : List Nat) (br L n : Nat) (buf' : List Nat) (f' : File),
      f.filePosition < 4294967296 →
      readFileLoop junk fuel f buf br L = some (.returned n buf' f') →
      ∃ k, n = br + k ∧ k ≤ L ∧ f'.filePosition = (f.filePosition + k) % 4294967296 ∧
        buf'.length = buf.length + k ∧ f'.fileSize = f.fileSize ∧ f'.volume = f.volume ∧
        (br ≤ f.fileSize → n ≤ f.fileSize) := by
  intro fuel
  induction fuel with
  | zero =>
    intro f buf br L n buf' f' _ h
    rw [readFileLoop] at h
    exact Option.noConfusion h
  | succ fuel ih =>
    intro f buf br L n buf' f' hpos h
    by_cases hcond : L > 0 ∧ f.filePosition < f.fileSize
    · obtain ⟨hL, hp⟩ := hcond
      cases hcts : clusterToSector f.volume f.currentCluster with
      | none =>
        rw [readFileLoop, if_pos ⟨hL, hp⟩] at h
        simp only [] at h
        rw [hcts] at h
        simp only [Option.some.injEq] at h
        exact ReadResult.noConfusion h
      | some sector =>
        by_cases hcs : f.volume.bootSector.BPB_BytsPerSec * f.volume.bootSector.BPB_SecPerClus = 0
        · rw [readFileLoop, if_pos ⟨hL, hp⟩] at h
          simp only [] at h
          rw [hcts] at h
          simp only [] at h
          rw [if_pos hcs] at h
          simp only [Option.some.injEq] at h
          exact ReadResult.noConfusion h
        · rw [readFileLoop_unfold junk fuel f buf br L sector hL hp hcts hcs] at h
          cases hrs : readSector f.volume (sector + ((f.filePosition % clusterSize f.volume.bootSector
              / f.volume.bootSector.BPB_BytsPerSec : Nat) : Int)) with
          | none =>
            rw [hrs] at h
            simp only [Option.some.injEq, ReadResult.returned.injEq] at h
            obtain ⟨h1, h2, h3⟩ := h
            subst h1; subst h2; subst h3
            exact ⟨0, rfl, Nat.zero_le _, by rw [Nat.add_zero, Nat.mod_eq_of_lt hpos], rfl, rfl, rfl,
              fun h => h⟩
          | some data =>
            rw [hrs] at h
            simp only [] at h
            have hc1 := chunkSize_le f br L
            have hdl := readSector_length_le _ _ _ hrs
            obtain ⟨k, hk1, hk2, hk3, hk4, hk5, hk6, hk7⟩ :=
              ih _ _ _ _ _ _ _ (by rw [stepFile_filePosition]; exact Nat.mod_lt _ (by norm_num)) h
            refine ⟨chunkSize f br L + k, by omega, by omega, ?_, ?_, ?_, ?_, ?_⟩
            · rw [hk3, stepFile_filePosition, Nat.mod_add_mod, Nat.add_assoc]
            · rw [hk4, List.length_append, List.length_take, List.length_drop, List.length_append,
                List.length_map, List.length_range]
              omega
            · rw [hk5, stepFile_fileSize]
            · rw [hk6, stepFile_volume]
            · intro hbr
              rw [stepFile_fileSize] at hk7
              exact hk7 (chunkSize_le_size f br L hbr)
    · rw [readFileLoop, if_neg hcond] at h
      simp only [Option.some.injEq, ReadResult.returned.injEq] at h
      obtain ⟨h1, h2, h3⟩ := h
      subst h1; subst h2; subst h3
      exact ⟨0, rfl, Nat.zero_le _, by rw [Nat.add_zero, Nat.mod_eq_of_lt hpos], rfl, rfl, rfl,
        fun h => h⟩

/-- When the position cannot pass `2^32` during the call, every iteration of the loop
of `readFile` that goes on copies at least one byte, so the loop ends within
`min length (fileSize - bytesRead) + 1` iterations. -/
theorem readFileLoop_total (junk : Nat → Nat) (F p0 : Nat) (hwrap : p0 + F < 4294967296) :
    ∀ (fuel : Nat) (f : File) (buf : List Nat) (br L : Nat),
      f.fileSize = F → f.filePosition = p0 + br → br ≤ F → min L (F - br) < fuel →
      ∃ r, readFileLoop junk fuel f buf br L = some r := by
  intro fuel
  induction fuel with
  | zero => intro f buf br L _ _ _ hfuel; omega
  | succ fuel ih =>
    intro f buf br L hF hpos hbr hfuel
    by_cases hcond : L > 0 ∧ f.filePosition < f.fileSize
    · obtain ⟨hL, hp⟩ := hcond
      cases hcts : clusterToSector f.volume f.currentCluster with
      | none =>
        refine ⟨.divisionByZero, ?_⟩
        rw [readFileLoop, if_pos ⟨hL, hp⟩]
        simp only []
        rw [hcts]
      | some sector =>
        by_cases hcs : f.volume.bootSector.BPB_BytsPerSec * f.volume.bootSector.BPB_SecPerClus = 0
        · refine ⟨.divisionByZero, ?_⟩
          rw [readFileLoop, if_pos ⟨hL, hp⟩]
          simp only []
          rw [hcts]
          simp only []
          rw [if_pos hcs]
        · rw [readFileLoop_unfold junk fuel f buf br L sector hL hp hcts hcs]
          cases hrs : readSector f.volume (sector + ((f.filePosition % clusterSize f.volume.bootSector
              / f.volume.bootSector.BPB_BytsPerSec : Nat) : Int)) with
          | none => exact ⟨_, rfl⟩
          | some data =>
            simp only []
            have hb : 1 ≤ f.volume.bootSector.BPB_BytsPerSec :=
              Nat.pos_of_ne_zero (fun h0 => hcs (by rw [h0, Nat.zero_mul]))
            have hc1 := chunkSize_le f br L
            have hc2 := chunkSize_le_size f br L (by omega)
            have hc3 := chunkSize_pos f br L hb hL (by omega)
            apply ih
            · rw [stepFile_fileSize, hF]
            · rw [stepFile_filePosition, Nat.mod_eq_of_lt (by omega), hpos, Nat.add_assoc]
            · omega
            · omega
    · exact ⟨_, by rw [readFileLoop, if_neg hcond]⟩


/-! ## FAT lookups: lemmas -/

theorem u16View_getElem? : ∀ (b : List Nat) (c : Nat), 2 * c + 2 ≤ b.length →
    (u16View b)[c]? = some (le16 b (2 * c))
  | [], _, h => by simp at h
  | [_], _, h => by simp at h
  | lo :: hi :: rest, 0, _ => by simp [u16View, le16]
  | lo :: hi :: rest, c + 1, h => by
    have hlen : 2 * c + 2 ≤ rest.length := by
      simp only [List.length_cons] at h
      omega
    have ih := u16View_getElem? rest c hlen
    have e : 2 * (c + 1) = 2 * c + 1 + 1 := by ring
    simp only [u16View, List.getElem?_cons_succ, ih, le16, e, List.getD_cons_succ]

theorem getD_take_drop (l : List Nat) (o n k : Nat) (hk : k < n) :
    ((l.drop o).take n).getD k 0 = l.getD (o + k) 0 := by
  simp only [List.getD_eq_getElem?_getD, List.getElem?_take, List.getElem?_drop, hk, if_true]

theorem le16_take_drop (l : List Nat) (o n k : Nat) (hk : k + 2 ≤ n) :
    le16 ((l.drop o).take n) k = le16 l (o + k) := by
  unfold le16
  rw [getD_take_drop l o n k (by omega), getD_take_drop l o n (k + 1) (by omega), Nat.add_assoc]

/-- Without overflow of the two `int` products, a table returned by `loadFAT` holds
at index `c` the little-endian value stored at the slot of `c`. -/
theorem loadFAT_getElem? (fd : Disk) (bs : BootSector) (fat : List Nat) (c : Nat)
    (hr : bs.BPB_RsvdSecCnt * bs.BPB_BytsPerSec < 2147483648)
    (hf : bs.BPB_FATSz16 * bs.BPB_BytsPerSec < 2147483648)
    (hc : c < bs.BPB_FATSz16 * bs.BPB_BytsPerSec / 2)
    (hload : loadFAT fd bs = some fat) :
    fat[c]? = some (le16 fd.bytes (bs.BPB_RsvdSecCnt * bs.BPB_BytsPerSec + 2 * c)) := by
  have hoff : fatRegionOffset bs = ((bs.BPB_RsvdSecCnt * bs.BPB_BytsPerSec : Nat) : Int) := by
    unfold fatRegionOffset
    rw [wrapInt32_of_lt _ hr]
  have hsize : fatSizeBytes bs = bs.BPB_FATSz16 * bs.BPB_BytsPerSec := by
    unfold fatSizeBytes
    rw [wrapInt32_of_lt _ hf, toSizeT_of_lt _ (by omega)]
  unfold loadFAT at hload
  rw [hoff, hsize, readFromDiskImage_ofNat] at hload
  generalize bs.BPB_RsvdSecCnt * bs.BPB_BytsPerSec = off at hload ⊢
  generalize bs.BPB_FATSz16 * bs.BPB_BytsPerSec = n at hload hc
  by_cases hio : fd.ioError off = true
  · rw [if_pos hio] at hload
    exact Option.noConfusion hload
  · rw [if_neg hio] at hload
    simp only at hload
    by_cases hlen : ((fd.bytes.drop off).take n).length = n
    · rw [if_neg (not_not.mpr hlen)] at hload
      rw [← Option.some.inj hload, u16View_getElem? _ c (by omega),
        le16_take_drop _ _ _ _ (by omega)]
    · rw [if_pos hlen] at hload
      exact Option.noConfusion hload

/-- Without overflow of the `int` product and without a read error, `nextCluster`
returns the little-endian value stored at the slot of `c`, when the slot lies inside
the image. -/
theorem nextCluster_eq_le16 (vol : Volume) (c : Nat)
    (hr : vol.bootSector.BPB_RsvdSecCnt * vol.bootSector.BPB_BytsPerSec < 2147483648)
    (hc16 : c < 65536)
    (hin : vol.bootSector.BPB_RsvdSecCnt * vol.bootSector.BPB_BytsPerSec + 2 * c + 2
      ≤ vol.fd.bytes.length)
    (hio : vol.fd.ioError (vol.bootSector.BPB_RsvdSecCnt * vol.bootSector.BPB_BytsPerSec + 2 * c)
      = false) :
    nextCluster vol c
      = le16 vol.fd.bytes (vol.bootSector.BPB_RsvdSecCnt * vol.bootSector.BPB_BytsPerSec + 2 * c) := by
  unfold nextCluster
  simp only []
  rw [wrapInt32_of_lt _ hr, toSizeT_of_lt _ (by omega), Nat.mul_comm c 2,
    toOffT_of_lt _ (by omega), readFromDiskImage_ofNat]
  generalize vol.bootSector.BPB_RsvdSecCnt * vol.bootSector.BPB_BytsPerSec + 2 * c = off at hin hio ⊢
  rw [hio]
  simp only [Bool.false_eq_true, if_false]
  have hlen : ((vol.fd.bytes.drop off).take 2).length = 2 := by
    rw [List.length_take, List.length_drop]
    omega
  rw [if_neg (not_not.mpr hlen), le16_take_drop _ _ _ _ (by omega), Nat.add_zero]

theorem le16_replicate_zero (n i : Nat) : le16 (List.replicate n 0) i = 0 := by
  unfold le16
  rw [List.getD_eq_getElem?_getD, List.getElem?_getD_replicate_default_eq,
    List.getD_eq_getElem?_getD, List.getElem?_getD_replicate_default_eq]


/-! ## Root directory listing: lemmas -/

theorem nameUnits_length (e : LongDirectoryEntry) : (nameUnits e).length = 13 := by
  simp [nameUnits]

/-- For an ordinal from 1 to 19 the 13 stores of `parseLongNameEntry` stay inside a
buffer of 256 elements. -/
theorem parseLongNameEntry_in_bounds (e : LongDirectoryEntry) (buf : List Nat) (order : Nat)
    (h1 : 1 ≤ order) (h19 : order ≤ 19) (hlen : buf.length = 256) :
    ∃ buf', parseLongNameEntry e buf ((((order : Nat) : Int) - 1) * 13) = some buf' ∧
      buf'.length = 256 := by
  have hpos : (((order : Nat) : Int) - 1) * 13 = (((order - 1) * 13 : Nat) : Int) := by
    push_cast [Nat.cast_sub h1]
    ring
  have hle : (order - 1) * 13 ≤ 234 := by omega
  rw [hpos]
  generalize (order - 1) * 13 = p at hle
  refine ⟨buf.take p ++ nameUnits e ++ buf.drop (p + 13), ?_, ?_⟩
  · unfold parseLongNameEntry
    rw [if_neg (by rw [hlen]; omega), Int.toNat_ofNat]
  · rw [List.length_append, List.length_append, List.length_take, List.length_drop,
      nameUnits_length, hlen]
    omega

theorem printDirectoryEntry_long (e : DirectoryEntry) (h : isLongNameEntry e = true) :
    printDirectoryEntry e = none := by
  have hattr : e.DIR_Attr = 15 := by
    unfold isLongNameEntry at h
    exact beq_iff_eq.mp h
  unfold printDirectoryEntry
  by_cases h0 : e.DIR_Name.getD 0 0 = 0x00 ∨ e.DIR_Name.getD 0 0 = 0xE5
  · rw [if_pos h0]
  · rw [if_neg h0, if_pos (Or.inl (by rw [hattr]; decide))]

theorem scanLoop_long (rootDir : List Nat) (i : Nat) (buf : List Nat) (out : List Output)
    (h : isLongNameEntry (decodeDirectoryEntry (record rootDir i)) = true) :
    scanLoop rootDir (i + 1) buf out
      = match parseLongNameEntry (decodeLongDirectoryEntry (record rootDir i)) buf
          ((((longOrder (decodeLongDirectoryEntry (record rootDir i)) : Nat) : Int) - 1) * 13) with
        | none => .bufferOverrun out
            ((((longOrder (decodeLongDirectoryEntry (record rootDir i)) : Nat) : Int) - 1) * 13)
        | some buffer => scanLoop rootDir i buffer out := by
  rw [scanLoop, if_pos h]

theorem scanLoop_short (rootDir : List Nat) (i : Nat) (buf : List Nat) (out : List Output)
    (h : ¬ isLongNameEntry (decodeDirectoryEntry (record rootDir i)) = true) :
    scanLoop rootDir (i + 1) buf out
      = match printDirectoryEntry (decodeDirectoryEntry (record rootDir i)) with
        | none => scanLoop rootDir i
            (if buf.getD 0 0 ≠ 0 then List.replicate longNameCapacity 0 else buf)
            (if buf.getD 0 0 ≠ 0 then
              out ++ [Output.longFilename (cString buf),
                Output.longEntry (printLongDirectoryEntry (decodeLongDirectoryEntry (record rootDir i)))]
            else out)
        | some report => scanLoop rootDir i
            (if buf.getD 0 0 ≠ 0 then List.replicate longNameCapacity 0 else buf)
            ((if buf.getD 0 0 ≠ 0 then
              out ++ [Output.longFilename (cString buf),
                Output.longEntry (printLongDirectoryEntry (decodeLongDirectoryEntry (record rootDir i)))]
            else out) ++ [Output.entry report]) := by
  rw [scanLoop, if_neg h]

/-- When every long-name record has an ordinal from 1 to 19, the loop of
`readDirectory` ends, and the entry dumps it adds are those of all records that pass
the tests of `printDirectoryEntry`, from the last record to the first. -/
theorem scanLoop_finishes (rootDir : List Nat) :
    ∀ (n : Nat) (buf : List Nat) (out : List Output), buf.length = 256 →
      (∀ i, i < n → isLongNameEntry (decodeDirectoryEntry (record rootDir i)) = true →
        1 ≤ longOrder (decodeLongDirectoryEntry (record rootDir i)) ∧
        longOrder (decodeLongDirectoryEntry (record rootDir i)) ≤ 19) →
      ∃ out', scanLoop rootDir n buf out = .finished out' ∧
        out'.filterMap Output.entryReport
          = out.filterMap Output.entryReport ++ (List.range n).reverse.filterMap
              (fun i => printDirectoryEntry (decodeDirectoryEntry (record rootDir i))) := by
  intro n
  induction n with
  | zero =>
    intro buf out _ _
    exact ⟨out, by rw [scanLoop], by simp⟩
  | succ n ih =>
    intro buf out hlen hord
    have hord' : ∀ i, i < n → isLongNameEntry (decodeDirectoryEntry (record rootDir i)) = true →
        1 ≤ longOrder (decodeLongDirectoryEntry (record rootDir i)) ∧
        longOrder (decodeLongDirectoryEntry (record rootDir i)) ≤ 19 :=
      fun i hi => hord i (Nat.lt_succ_of_lt hi)
    have hrange : (List.range (n + 1)).reverse = n :: (List.range n).reverse := by
      rw [List.range_succ, List.reverse_append, List.reverse_singleton, List.singleton_append]
    rw [hrange, List.filterMap_cons]
    by_cases hlong : isLongNameEntry (decodeDirectoryEntry (record rootDir n)) = true
    · obtain ⟨h1, h19⟩ := hord n (Nat.lt_succ_self n) hlong
      obtain ⟨buf', hparse, hlen'⟩ := parseLongNameEntry_in_bounds
        (decodeLongDirectoryEntry (record rootDir n)) buf _ h1 h19 hlen
      rw [scanLoop_long rootDir n buf out hlong, hparse, printDirectoryEntry_long _ hlong]
      exact ih buf' out hlen' hord'
    · have hbuf : (if buf.getD 0 0 ≠ 0 then List.replicate longNameCapacity 0 else buf).length
          = 256 := by
        by_cases hz : buf.getD 0 0 ≠ 0
        · rw [if_pos hz, List.length_replicate]
          rfl
        · rw [if_neg hz, hlen]
      have hout : (if buf.getD 0 0 ≠ 0 then
              out ++ [Output.longFilename (cString buf),
                Output.longEntry (printLongDirectoryEntry (decodeLongDirectoryEntry (record rootDir n)))]
            else out).filterMap Output.entryReport = out.filterMap Output.entryReport := by
        by_cases hz : buf.getD 0 0 ≠ 0
        · rw [if_pos hz, List.filterMap_append]
          simp [Output.entryReport]
        · rw [if_neg hz]
      rw [scanLoop_short rootDir n buf out hlong]
      cases hp : printDirectoryEntry (decodeDirectoryEntry (record rootDir n)) with
      | none =>
        obtain ⟨out', h1, h2⟩ := ih _ (if buf.getD 0 0 ≠ 0 then
              out ++ [Output.longFilename (cString buf),
                Output.longEntry (printLongDirectoryEntry (decodeLongDirectoryEntry (record rootDir n)))]
            else out) hbuf hord'
        exact ⟨out', h1, by rw [h2, hout]⟩
      | some report =>
        obtain ⟨out', h1, h2⟩ := ih _ ((if buf.getD 0 0 ≠ 0 then
              out ++ [Output.longFilename (cString buf),
                Output.longEntry (printLongDirectoryEntry (decodeLongDirectoryEntry (record rootDir n)))]
            else out) ++ [Output.entry report]) hbuf hord'
        refine ⟨out', h1, ?_⟩
        rw [h2, List.filterMap_append, hout]
        simp [Output.entryReport]

theorem mem_attributeFlags (attr : Nat) (a : Attribute) :
    a ∈ attributeFlags attr ↔
      (a = Attribute.readOnly ∧ attr &&& 0x01 ≠ 0) ∨ (a = Attribute.hidden ∧ attr &&& 0x02 ≠ 0) ∨
      (a = Attribute.system ∧ attr &&& 0x04 ≠ 0) ∨ (a = Attribute.volumeLabel ∧ attr &&& 0x08 ≠ 0) ∨
      (a = Attribute.subDirectory ∧ attr &&& 0x10 ≠ 0) ∨ (a = Attribute.archive ∧ attr &&& 0x20 ≠ 0) := by
  unfold attributeFlags
  simp only [List.mem_append, List.mem_ite_nil_right, List.mem_singleton]
  tauto

/-- A report of `printDirectoryEntry` exists exactly when none of its three tests
makes it return, and it carries the fields of the entry. -/
theorem printDirectoryEntry_eq_some (entry : DirectoryEntry) (rep : EntryReport)
    (h : printDirectoryEntry entry = some rep) :
    (¬ (entry.DIR_Name.getD 0 0 = 0x00 ∨ entry.DIR_Name.getD 0 0 = 0xE5)) ∧
      (¬ (entry.DIR_Attr &&& 0x08 ≠ 0 ∨ entry.DIR_Attr &&& 0x02 ≠ 0 ∨ entry.DIR_Attr &&& 0x04 ≠ 0)) ∧
      rep.attributes = attributeFlags entry.DIR_Attr ∧
      rep.creationDate = decodeDate entry.DIR_CrtDate ∧
      rep.creationTime = decodeTime entry.DIR_CrtTime ∧
      rep.writeDate = decodeDate entry.DIR_WrtDate ∧
      rep.writeTime = decodeTime entry.DIR_WrtTime ∧
      rep.fileSize = entry.DIR_FileSize := by
  unfold printDirectoryEntry at h
  by_cases h0 : entry.DIR_Name.getD 0 0 = 0x00 ∨ entry.DIR_Name.getD 0 0 = 0xE5
  · rw [if_pos h0] at h
    exact Option.noConfusion h
  · rw [if_neg h0] at h
    by_cases h1 : entry.DIR_Attr &&& 0x08 ≠ 0 ∨ entry.DIR_Attr &&& 0x02 ≠ 0 ∨ entry.DIR_Attr &&& 0x04 ≠ 0
    · rw [if_pos h1] at h
      exact Option.noConfusion h
    · rw [if_neg h1] at h
      by_cases h2 : (List.range 11).any (fun i => invalidNameByte (entry.DIR_Name.getD i 0)) = true
      · rw [if_pos h2] at h
        exact Option.noConfusion h
      · rw [if_neg h2] at h
        have hrep := Option.some.inj h
        subst hrep
        exact ⟨h0, h1, rfl, rfl, rfl, rfl, rfl, rfl⟩

theorem and_mask_eq_mod (x : Nat) :
    x &&& 0x7F = x % 128 ∧ x &&& 0x0F = x % 16 ∧ x &&& 0x1F = x % 32 ∧ x &&& 0x3F = x % 64 :=
  ⟨Nat.and_pow_two_sub_one_eq_mod x 7, Nat.and_pow_two_sub_one_eq_mod x 4,
    Nat.and_pow_two_sub_one_eq_mod x 5, Nat.and_pow_two_sub_one_eq_mod x 6⟩

theorem decodeDate_eq (d : Nat) : decodeDate d = (d / 512 % 128 + 1980, d / 32 % 16, d % 32) := by
  unfold decodeDate
  rw [(and_mask_eq_mod _).1, (and_mask_eq_mod _).2.1, (and_mask_eq_mod _).2.2.1,
    Nat.shiftRight_eq_div_pow, Nat.shiftRight_eq_div_pow]

theorem decodeTime_eq (t : Nat) : decodeTime t = (t / 2048, t / 32 % 64, t % 32 * 2) := by
  unfold decodeTime
  rw [(and_mask_eq_mod _).2.2.1, (and_mask_eq_mod _).2.2.2,
    Nat.shiftRight_eq_div_pow, Nat.shiftRight_eq_div_pow]


/-! ## Termination of `readFile`: lemmas -/

theorem clusterToSector_some (vol : Volume) (c : Nat) (hb : 1 ≤ vol.bootSector.BPB_BytsPerSec) :
    ∃ s : Nat, clusterToSector vol c = some (s : Int) := by
  have hne : ¬ vol.bootSector.BPB_BytsPerSec = 0 := by omega
  unfold clusterToSector
  simp only [hne, if_false]
  exact ⟨_, rfl⟩

theorem readSector_some (vol : Volume) (s k : Nat) (hio : ∀ off, vol.fd.ioError off = false) :
    ∃ data, readSector vol ((s : Int) + (k : Int)) = some data := by
  have hcast : ((s : Int) + (k : Int)) * (vol.bootSector.BPB_BytsPerSec : Int)
      = (((s + k) * vol.bootSector.BPB_BytsPerSec : Nat) : Int) := by
    push_cast
    rfl
  unfold readSector
  rw [hcast, readFromDiskImage_ofNat, hio, if_neg (by decide)]
  exact ⟨_, rfl⟩

theorem stepFile_zero (f : File) (hb : 1 ≤ f.volume.bootSector.BPB_BytsPerSec)
    (hs : 1 ≤ f.volume.bootSector.BPB_SecPerClus) (hpos : f.filePosition < 4294967296) :
    stepFile f 0 = f := by
  have hcs : 0 < clusterSize f.volume.bootSector := Nat.mul_pos hb hs
  have hlt := Nat.mod_lt f.filePosition hcs
  unfold stepFile
  rw [if_neg (by omega), Nat.add_zero, Nat.mod_eq_of_lt hpos]

/-- Once the bytes copied by the call have reached the file size, an iteration of the
loop of `readFile` copies zero bytes. -/
theorem chunkSize_zero_at_size (g : File) (br L : Nat)
    (hb : 1 ≤ g.volume.bootSector.BPB_BytsPerSec) (hL : 0 < L) (h : g.fileSize ≤ br) :
    chunkSize g br L = 0 := by
  have := Nat.mod_lt g.filePosition hb
  unfold chunkSize
  simp only
  split <;> split <;> omega

/-- With sectors of 512 bytes, no read error, a file size above `2^32 - 512`, a start
position `p0` with `p0 + fileSize ≥ 2^32` and a capacity above the file size, the loop
of `readFile` never ends: the position passes `2^32` on a sector boundary, and once
`bytesRead` has reached the file size every iteration copies zero bytes. -/
theorem readFileLoop_never_ends (junk : Nat → Nat) (F p0 cap : Nat)
    (hF1 : 4294966784 < F) (hF2 : F < 4294967296) (hp0 : p0 < F)
    (hwrap : 4294967296 ≤ p0 + F) (hcap : F < cap) :
    ∀ (fuel : Nat) (f : File) (buf : List Nat) (br L : Nat),
      f.fileSize = F → f.volume.bootSector.BPB_BytsPerSec = 512 →
      1 ≤ f.volume.bootSector.BPB_SecPerClus →
      (∀ off, f.volume.fd.ioError off = false) →
      L + br = cap → br ≤ F → f.filePosition = (p0 + br) % 4294967296 →
      (br = 0 ∨ f.filePosition % 512 = 0 ∨ br = F) →
      readFileLoop junk fuel f buf br L = none := by
  intro fuel
  induction fuel with
  | zero =>
    intro f buf br L _ _ _ _ _ _ _ _
    rw [readFileLoop]
  | succ fuel ih =>
    intro f buf br L hF hbps hspc hio hL hbr hpos hst
    have hL0 : 0 < L := by omega
    have hp : f.filePosition < f.fileSize := by
      rw [hF]
      omega
    obtain ⟨s, hs⟩ := clusterToSector_some f.volume f.currentCluster (by omega)
    have hcs : ¬ f.volume.bootSector.BPB_BytsPerSec * f.volume.bootSector.BPB_SecPerClus = 0 := by
      rw [hbps]
      omega
    rw [readFileLoop_unfold junk fuel f buf br L (s : Int) hL0 hp hs hcs]
    obtain ⟨data, hdata⟩ := readSector_some f.volume s
      (f.filePosition % clusterSize f.volume.bootSector / f.volume.bootSector.BPB_BytsPerSec) hio
    rw [hdata]
    simp only []
    have hc : chunkSize f br L =
        if br + (if 512 - f.filePosition % 512 > L then L else 512 - f.filePosition % 512) > F
        then F - br
        else (if 512 - f.filePosition % 512 > L then L else 512 - f.filePosition % 512) := by
      rw [chunkSize_eq, hbps, hF]
    generalize chunkSize f br L = c at hc ⊢
    have hcL : c ≤ L := by
      by_cases h1 : 512 - f.filePosition % 512 > L
      · rw [if_pos h1] at hc
        by_cases h2 : br + L > F
        · rw [if_pos h2] at hc
          omega
        · rw [if_neg h2] at hc
          omega
      · rw [if_neg h1] at hc
        by_cases h2 : br + (512 - f.filePosition % 512) > F
        · rw [if_pos h2] at hc
          omega
        · rw [if_neg h2] at hc
          omega
    apply ih
    · rw [stepFile_fileSize, hF]
    · rw [stepFile_volume, hbps]
    · rw [stepFile_volume]
      exact hspc
    · rw [stepFile_volume]
      exact hio
    · omega
    · by_cases h1 : 512 - f.filePosition % 512 > L
      · rw [if_pos h1] at hc
        by_cases h2 : br + L > F
        · rw [if_pos h2] at hc
          omega
        · rw [if_neg h2] at hc
          omega
      · rw [if_neg h1] at hc
        by_cases h2 : br + (512 - f.filePosition % 512) > F
        · rw [if_pos h2] at hc
          omega
        · rw [if_neg h2] at hc
          omega
    · rw [stepFile_filePosition, hpos]
      omega
    · rw [stepFile_filePosition]
      by_cases h1 : 512 - f.filePosition % 512 > L
      · rw [if_pos h1] at hc
        by_cases h2 : br + L > F
        · rw [if_pos h2] at hc
          omega
        · rw [if_neg h2] at hc
          omega
      · rw [if_neg h1] at hc
        by_cases h2 : br + (512 - f.filePosition % 512) > F
        · rw [if_pos h2] at hc
          omega
        · rw [if_neg h2] at hc
          omega

/-- When the capacity is at most the file size, or the position cannot pass `2^32`,
every iteration of the loop of `readFile` that goes on copies at least one byte, so
the loop ends within `length` iterations, with a return value. -/
theorem readFileLoop_terminates (junk : Nat → Nat) :
    ∀ (fuel : Nat) (f : File) (buf : List Nat) (br L : Nat),
      1 ≤ f.volume.bootSector.BPB_BytsPerSec → 1 ≤ f.volume.bootSector.BPB_SecPerClus →
      (br + L ≤ f.fileSize ∨
        (br ≤ f.filePosition ∧ f.filePosition - br + f.fileSize < 4294967296 ∧ br ≤ f.fileSize)) →
      L < fuel →
      ∃ n buf' f', readFileLoop junk fuel f buf br L = some (.returned n buf' f') := by
  intro fuel
  induction fuel with
  | zero => intro f buf br L _ _ _ hfuel; omega
  | succ fuel ih =>
    intro f buf br L hb hs hinv hfuel
    by_cases hcond : L > 0 ∧ f.filePosition < f.fileSize
    · obtain ⟨hL, hp⟩ := hcond
      obtain ⟨s, hcts⟩ := clusterToSector_some f.volume f.currentCluster hb
      have hcs : ¬ f.volume.bootSector.BPB_BytsPerSec * f.volume.bootSector.BPB_SecPerClus = 0 :=
        Nat.mul_ne_zero (by omega) (by omega)
      rw [readFileLoop_unfold junk fuel f buf br L (s : Int) hL hp hcts hcs]
      cases hrs : readSector f.volume ((s : Int) + ((f.filePosition % clusterSize f.volume.bootSector
          / f.volume.bootSector.BPB_BytsPerSec : Nat) : Int)) with
      | none => exact ⟨_, _, _, rfl⟩
      | some data =>
        simp only []
        have hbr : br < f.fileSize := by omega
        have hc1 := (chunkSize_le f br L).2
        have hc2 := chunkSize_le_size f br L (by omega)
        have hc3 := chunkSize_pos f br L hb hL hbr
        apply ih
        · rw [stepFile_volume]
          exact hb
        · rw [stepFile_volume]
          exact hs
        · rw [stepFile_fileSize, stepFile_filePosition]
          rcases hinv with hA | ⟨hB1, hB2, hB3⟩
          · exact Or.inl (by omega)
          · refine Or.inr ?_
            rw [Nat.mod_eq_of_lt (by omega)]
            omega
        · omega
    · exact ⟨_, _, _, by rw [readFileLoop, if_neg hcond]⟩

/-! ## Chains without repetition: lemmas -/

/-- The clusters of a walk that meets an end marker are pairwise different. -/
theorem linksUpTo_nodup (fat : List Nat) (s k : Nat)
    (hlinks : ∀ j < k, ∃ c, linkAt fat s j = some c ∧ c < 0xFFF8)
    (hend : ∃ e, linkAt fat s k = some e ∧ 0xFFF8 ≤ e) : (linksUpTo fat s k).Nodup := by
  have hsome : ∀ j < k, ∃ c, linkAt fat s j = some c := fun j hj =>
    let ⟨c, hc, _⟩ := hlinks j hj; ⟨c, hc⟩
  rw [List.nodup_iff_getElem?_ne_getElem?]
  intro i j hij hj heq
  rw [linksUpTo_length fat s k hsome] at hj
  rw [linksUpTo_getElem? fat s k hsome i (by omega), linksUpTo_getElem? fat s k hsome j hj] at heq
  have hshift := linkAt_shift fat s i j heq (k - j)
  rw [show j + (k - j) = k by omega] at hshift
  obtain ⟨c, hc, hclt⟩ := hlinks (i + (k - j)) (by omega)
  obtain ⟨e, he, hge⟩ := hend
  rw [hc, he, Option.some.injEq] at hshift
  omega

theorem links_count_le_of_end (fat : List Nat) (s k : Nat)
    (hlinks : ∀ j < k, ∃ c, linkAt fat s j = some c ∧ c < 0xFFF8)
    (hend : ∃ e, linkAt fat s k = some e ∧ 0xFFF8 ≤ e) : k ≤ 0xFFF8 := by
  apply links_count_le fat s k hlinks
  intro j hj heq
  obtain ⟨c, hc, hclt⟩ := hlinks j hj
  obtain ⟨e, he, hge⟩ := hend
  rw [hc, he, Option.some.injEq] at heq
  omega

/-! ## Long-name parts: lemmas -/

theorem parseLongNameEntry_eq_some (e : LongDirectoryEntry) (buf : List Nat) (pos : Int)
    (buf' : List Nat) (h : parseLongNameEntry e buf pos = some buf') :
    0 ≤ pos ∧ pos + 13 ≤ (buf.length : Int) ∧
      buf' = buf.take pos.toNat ++ nameUnits e ++ buf.drop (pos.toNat + 13) := by
  unfold parseLongNameEntry at h
  by_cases hc : pos < 0 ∨ (buf.length : Int) < pos + 13
  · rw [if_pos hc] at h
    exact Option.noConfusion h
  · rw [if_neg hc] at h
    exact ⟨by omega, by omega, (Option.some.inj h).symm⟩

theorem le16_mod_256 (name : List Nat) (i : Nat) (h : ∀ b ∈ name, b < 256) :
    le16 name (2 * i) % 256 = name.getD (i * 2) 0 := by
  have hlt := getD_lt_of_forall name (i * 2) h
  unfold le16
  rw [Nat.mul_comm 2 i]
  omega

theorem nameUnits_eq_codeUnits_mod (e : LongDirectoryEntry)
    (h1 : ∀ b ∈ e.LDIR_Name1, b < 256) (h2 : ∀ b ∈ e.LDIR_Name2, b < 256)
    (h3 : ∀ b ∈ e.LDIR_Name3, b < 256) :
    nameUnits e = (codeUnits e).map (fun u => u % 256) := by
  unfold nameUnits codeUnits
  simp only [List.map_append, List.map_map, Function.comp_def, le16_mod_256 _ _ h1,
    le16_mod_256 _ _ h2, le16_mod_256 _ _ h3]

/-- Clearing bit `0x40` of a sequence byte that carries the ordinal `n ≤ 20`, with
or without the last-part flag, gives `n`. -/
theorem land_clear_flag (n : Nat) (h : n ≤ 20) :
    n &&& 0xFFFFFFBF = n ∧ (n + 0x40) &&& 0xFFFFFFBF = n := by
  interval_cases n <;> exact ⟨by decide, by decide⟩

/-! ## The tests of `printDirectoryEntry`: lemmas -/

theorem invalidNameByte_iff (b : Nat) : invalidNameByte b = true ↔ b < 0x20 ∨ 0x7E < b := by
  unfold invalidNameByte
  simp only [Bool.or_eq_true, Bool.and_eq_true, bne_iff_ne, decide_eq_true_eq]
  omega

theorem any_invalidNameByte_iff (name : List Nat) :
    ((List.range 11).any (fun i => invalidNameByte (name.getD i 0)) = true)
      ↔ ¬ ∀ i, i < 11 → 0x20 ≤ name.getD i 0 ∧ name.getD i 0 ≤ 0x7E := by
  rw [List.any_eq_true]
  constructor
  · rintro ⟨i, hi, hinv⟩ hall
    have hb := hall i (List.mem_range.mp hi)
    rw [invalidNameByte_iff] at hinv
    omega
  · intro hnot
    push_neg at hnot
    obtain ⟨i, hi, hb⟩ := hnot
    refine ⟨i, List.mem_range.mpr hi, ?_⟩
    rw [invalidNameByte_iff]
    by_cases hlow : 0x20 ≤ name.getD i 0
    · exact Or.inr (hb hlow)
    · exact Or.inl (by omega)

theorem decodeDirectoryEntry_name (r : List Nat) (i : Nat) (hi : i < 11) :
    (decodeDirectoryEntry r).DIR_Name.getD i 0 = r.getD i 0 := by
  show (r.take 11).getD i 0 = r.getD i 0
  rw [List.getD_eq_getElem?_getD, List.getD_eq_getElem?_getD, List.getElem?_take_of_lt hi]

/-- The function `printDirectoryEntry` prints exactly when no hidden, system or
volume-label bit is set and the 11 name bytes lie in `0x20..0x7E`; the test of the
first name byte adds nothing, `0x00` and `0xE5` being outside that range. -/
theorem printDirectoryEntry_isSome_iff (entry : DirectoryEntry) :
    (printDirectoryEntry entry).isSome = true ↔
      (entry.DIR_Attr &&& 0x02 = 0 ∧ entry.DIR_Attr &&& 0x04 = 0 ∧ entry.DIR_Attr &&& 0x08 = 0) ∧
      ∀ i, i < 11 → 0x20 ≤ entry.DIR_Name.getD i 0 ∧ entry.DIR_Name.getD i 0 ≤ 0x7E := by
  have hname := any_invalidNameByte_iff entry.DIR_Name
  unfold printDirectoryEntry
  by_cases h0 : entry.DIR_Name.getD 0 0 = 0x00 ∨ entry.DIR_Name.getD 0 0 = 0xE5
  · rw [if_pos h0]
    simp only [Option.isSome_none, Bool.false_eq_true, false_iff]
    rintro ⟨_, hall⟩
    have hb := hall 0 (by decide)
    omega
  · rw [if_neg h0]
    by_cases h1 : entry.DIR_Attr &&& 0x08 ≠ 0 ∨ entry.DIR_Attr &&& 0x02 ≠ 0 ∨ entry.DIR_Attr &&& 0x04 ≠ 0
    · rw [if_pos h1]
      simp only [Option.isSome_none, Bool.false_eq_true, false_iff]
      rintro ⟨⟨h2, h4, h8⟩, _⟩
      rcases h1 with h | h | h
      · exact h h8
      · exact h h2
      · exact h h4
    · rw [if_neg h1]
      by_cases h2 : (List.range 11).any (fun i => invalidNameByte (entry.DIR_Name.getD i 0)) = true
      · rw [if_pos h2]
        simp only [Option.isSome_none, Bool.false_eq_true, false_iff]
        rintro ⟨_, hall⟩
        exact (hname.mp h2) hall
      · rw [if_neg h2]
        simp only [Option.isSome_some, true_iff]
        push_neg at h1
        exact ⟨⟨h1.2.1, h1.2.2, h1.1⟩, not_not.mp (fun hn => h2 (hname.mpr hn))⟩


/-! ## Claims on `getClusterChain` -/

set_option maxRecDepth 100000

/-- C2: when the table loads and the links followed from the starting cluster `s`
stay inside the table and stay below `0xFFF8` for `k` steps, and the `k`-th link is
an entry `≥ 0xFFF8`, `getClusterChain` returns exactly the `k` visited clusters
`s, fat[s], fat[fat[s]], …` in order, one per step, followed by `0xFFFF`. -/
theorem getClusterChain_returns_visited (fd : Disk) (bs : BootSector) (fat : List Nat)
    (s k : Nat) (hload : loadFAT fd bs = some fat)
    (hlinks : ∀ j < k, ∃ c, linkAt fat s j = some c ∧ c < 0xFFF8)
    (hend : ∃ e, linkAt fat s k = some e ∧ 0xFFF8 ≤ e) :
    getClusterChain fd bs s = some (.returned (linksUpTo fat s k ++ [0xFFFF])) ∧
      (linksUpTo fat s k).length = k ∧
      ∀ j < k, (linksUpTo fat s k)[j]? = linkAt fat s j := by
  have hsome : ∀ j < k, ∃ c, linkAt fat s j = some c := fun j hj =>
    let ⟨c, hc, _⟩ := hlinks j hj; ⟨c, hc⟩
  have hk : k ≤ 0xFFF8 := by
    apply links_count_le fat s k hlinks
    intro j hj heq
    obtain ⟨c, hc, hclt⟩ := hlinks j hj
    obtain ⟨e, he, hge⟩ := hend
    rw [hc, he, Option.some.injEq] at heq
    omega
  refine ⟨?_, linksUpTo_length fat s k hsome, linksUpTo_getElem? fat s k hsome⟩
  unfold getClusterChain
  rw [hload]
  simp only [walkChain]
  rw [chainLoop_returns fat k chainCapacity s [] (by unfold chainCapacity; omega) hlinks hend]
  simp

/-- C2, witness: entry[5]=6, entry[6]=7, entry[7]=0xFFFF, start 5 yields [5,6,7]
followed by the terminator. -/
theorem getClusterChain_returns_visited_witness :
    getClusterChain (exDisk chainFat []) exBoot 5
        = some (.returned (linksUpTo (padTo 256 chainFat) 5 3 ++ [0xFFFF])) ∧
      linksUpTo (padTo 256 chainFat) 5 3 = [5, 6, 7] :=
  ⟨(getClusterChain_returns_visited (exDisk chainFat []) exBoot (padTo 256 chainFat) 5 3
      (by decide)
      (by intro j hj; interval_cases j <;> exact ⟨_, rfl, by decide⟩)
      ⟨0xFFFF, rfl, by decide⟩).1, by decide⟩

/-- C3, as stated, fails: on the cycle entry[5]=6, entry[6]=5 the call does not fail
with an error after at most (number of clusters + 1) steps; it stores 65536 clusters
of a table of 256 entries and then writes outside the `chain` array. -/
theorem getClusterChain_cycle_not_detected :
    ∃ ys, getClusterChain (exDisk cycleFat []) exBoot 5 = some (.chainWriteOutOfBounds ys) ∧
      ys.length = 65536 ∧ ¬ ys.length ≤ (padTo 256 cycleFat).length + 1 := by
  have hload : loadFAT (exDisk cycleFat []) exBoot = some (padTo 256 cycleFat) := by decide
  have hall := linkAt_cycle_forever (padTo 256 cycleFat) 5 0 2 (by decide) rfl
    (by intro j hj; interval_cases j <;> exact ⟨_, rfl, by decide⟩)
  refine ⟨linksUpTo (padTo 256 cycleFat) 5 65536, ?_, ?_, ?_⟩
  · unfold getClusterChain
    rw [hload]
    simp only [walkChain]
    rw [chainLoop_overruns (padTo 256 cycleFat) chainCapacity 5 [] hall]
    simp [chainCapacity]
  · exact linksUpTo_length _ _ _ (fun j _ => let ⟨c, hc, _⟩ := hall j; ⟨c, hc⟩)
  · rw [linksUpTo_length _ _ _ (fun j _ => let ⟨c, hc, _⟩ := hall j; ⟨c, hc⟩)]
    decide

/-- C3, amended: when the links followed from the starting cluster come back to an
earlier cluster (a cycle of `p` links entered after `a` links, all clusters below
`0xFFF8`), `getClusterChain` has no cap and reports no error: it stores the first
65536 clusters of the endless walk and then writes outside the `chain` array. -/
theorem getClusterChain_cycle_overruns (fd : Disk) (bs : BootSector) (fat : List Nat)
    (s a p : Nat) (hload : loadFAT fd bs = some fat) (hp : 0 < p)
    (hcyc : linkAt fat s (a + p) = linkAt fat s a)
    (hlinks : ∀ j < a + p, ∃ c, linkAt fat s j = some c ∧ c < 0xFFF8) :
    getClusterChain fd bs s = some (.chainWriteOutOfBounds (linksUpTo fat s 65536)) ∧
      (linksUpTo fat s 65536).length = 65536 ∧
      ∀ j < 65536, (linksUpTo fat s 65536)[j]? = linkAt fat s j := by
  have hall := linkAt_cycle_forever fat s a p hp hcyc hlinks
  have hsome : ∀ j < 65536, ∃ c, linkAt fat s j = some c := fun j _ =>
    let ⟨c, hc, _⟩ := hall j; ⟨c, hc⟩
  refine ⟨?_, linksUpTo_length fat s _ hsome, linksUpTo_getElem? fat s _ hsome⟩
  unfold getClusterChain
  rw [hload]
  simp only [walkChain]
  rw [chainLoop_overruns fat chainCapacity s [] hall]
  simp [chainCapacity]

/-- C3, amended, witness: the cycle entry[5]=6, entry[6]=5 entered at the start. -/
theorem getClusterChain_cycle_overruns_witness :
    getClusterChain (exDisk cycleFat []) exBoot 5
      = some (.chainWriteOutOfBounds (linksUpTo (padTo 256 cycleFat) 5 65536)) :=
  (getClusterChain_cycle_overruns (exDisk cycleFat []) exBoot (padTo 256 cycleFat) 5 0 2
    (by decide) (by decide) rfl
    (by intro j hj; interval_cases j <;> exact ⟨_, rfl, by decide⟩)).1

/-- C6, as stated, fails: the table loaded from the example volume has 256 entries,
and the lookup for cluster 300 is not answered by an error: `fat[300]` is read
outside the table. -/
theorem getClusterChain_lookup_out_of_range :
    (loadFAT (exDisk chainFat []) exBoot).map List.length = some 256 ∧
      getClusterChain (exDisk chainFat []) exBoot 300
        = some (.fatReadOutOfBounds [300] 300) := by
  decide

/-- C6, amended: the loaded table has `fatSize / 2` entries, and when the walk
reaches a cluster `c < 0xFFF8` at or beyond that length, the lookup `fat[c]` is made
without a bounds check: the table is read out of range and no error is returned. -/
theorem getClusterChain_lookup_unchecked (fd : Disk) (bs : BootSector) (fat : List Nat)
    (s k c : Nat) (hload : loadFAT fd bs = some fat)
    (hlinks : ∀ j < k, ∃ d, linkAt fat s j = some d ∧ d < 0xFFF8)
    (hc : linkAt fat s k = some c) (hclt : c < 0xFFF8) (hout : fat.length ≤ c) :
    fat.length = fatSizeBytes bs / 2 ∧
      getClusterChain fd bs s = some (.fatReadOutOfBounds (linksUpTo fat s k ++ [c]) c) := by
  have hk : k ≤ 0xFFF8 := by
    apply links_count_le fat s k hlinks
    intro j hj heq
    obtain ⟨d, hd, _⟩ := hlinks j hj
    have hnext : ∃ e, linkAt fat s (j + 1) = some e := by
      by_cases hjk : j + 1 < k
      · obtain ⟨e, he, _⟩ := hlinks (j + 1) hjk
        exact ⟨e, he⟩
      · have : j + 1 = k := by omega
        exact ⟨c, this ▸ hc⟩
    obtain ⟨e, he⟩ := hnext
    rw [linkAt, hd, Option.some_bind] at he
    have hdlt : d < fat.length := (List.getElem?_eq_some_iff.mp he).1
    rw [hd, hc, Option.some.injEq] at heq
    omega
  refine ⟨loadFAT_length fd bs fat hload, ?_⟩
  unfold getClusterChain
  rw [hload]
  simp only [walkChain]
  rw [chainLoop_reads_outside fat k chainCapacity s [] c (by unfold chainCapacity; omega)
    hlinks hc hclt hout]
  simp

/-- C6, amended, witness: cluster 5 links to cluster 300 of a 256-entry table. -/
theorem getClusterChain_lookup_unchecked_witness :
    getClusterChain (exDisk strayFat []) exBoot 5
      = some (.fatReadOutOfBounds (linksUpTo (padTo 256 strayFat) 5 1 ++ [300]) 300) :=
  (getClusterChain_lookup_unchecked (exDisk strayFat []) exBoot (padTo 256 strayFat) 5 1 300
    (by decide)
    (by intro j hj; interval_cases j; exact ⟨_, rfl, by decide⟩)
    rfl (by decide) (by decide)).2

/-- C7, as stated, fails: the entry of cluster 5 is the free marker `0x0000`; the
call does not fail, it stores 0 as the next cluster of the chain, follows it to
`fat[0]` and returns. -/
theorem getClusterChain_free_entry_followed :
    getClusterChain (exDisk freeFat []) exBoot 5 = some (.returned [5, 0, 0xFFFF]) := by
  decide

/-- C7, amended: `getClusterChain` makes no validity check on the entries it reads.
When the walk, not yet at an end marker after `j` links, reads an entry `v < 0xFFF8`
(so also `0x0000`, `0x0001` and `0xFFF0..0xFFF7`), the call does not fail: it takes
`v` as the next cluster and stores it at index `j + 1` of the chain. -/
theorem getClusterChain_follows_any_entry (fd : Disk) (bs : BootSector) (fat : List Nat)
    (s j v : Nat) (hload : loadFAT fd bs = some fat)
    (hlinks : ∀ i ≤ j, ∃ c, linkAt fat s i = some c ∧ c < 0xFFF8)
    (hv : linkAt fat s (j + 1) = some v) (hvlt : v < 0xFFF8)
    (hroom : j + 1 < chainCapacity) :
    ∃ r, getClusterChain fd bs s = some r ∧ r.stored[j + 1]? = some v := by
  have hall : ∀ i ≤ j + 1, ∃ c, linkAt fat s i = some c ∧ c < 0xFFF8 := by
    intro i hi
    by_cases hij : i ≤ j
    · exact hlinks i hij
    · have : i = j + 1 := by omega
      exact ⟨v, this ▸ hv, hvlt⟩
  obtain ⟨rest, hrest⟩ := chainLoop_stored_links fat (j + 1) chainCapacity s [] hroom hall
  refine ⟨walkChain fat s, ?_, ?_⟩
  · unfold getClusterChain
    rw [hload]
  · have hsome : ∀ i < j + 1 + 1, ∃ c, linkAt fat s i = some c := fun i hi =>
      let ⟨c, hc, _⟩ := hall i (by omega); ⟨c, hc⟩
    have hlen := linksUpTo_length fat s (j + 1 + 1) hsome
    unfold walkChain
    rw [hrest, List.nil_append, List.getElem?_append_left (by omega),
      linksUpTo_getElem? fat s (j + 1 + 1) hsome (j + 1) (by omega), hv]

/-- C7, amended, witness: the free marker in the entry of cluster 5 is stored as the
second cluster of the chain. -/
theorem getClusterChain_follows_any_entry_witness :
    ∃ r, getClusterChain (exDisk freeFat []) exBoot 5 = some r ∧ r.stored[1]? = some 0 :=
  getClusterChain_follows_any_entry (exDisk freeFat []) exBoot (padTo 256 freeFat) 5 0 0
    (by decide)
    (by intro i hi; interval_cases i; exact ⟨_, rfl, by decide⟩)
    rfl (by decide) (by decide)


/-! ## Claims on the geometry -/

/-- C9: for a boot sector with fields in range and `bytesPerSector ≥ 1` and a 16-bit
cluster number `c ≥ 2`, `clusterToSector` returns exactly
`firstDataSector + (c - 2) * sectorsPerCluster`, a natural number (no wrap-around),
where `firstDataSector = reserved + fatCount * fatSize16 + ⌈rootEntryCount * 32 /
bytesPerSector⌉`. -/
theorem clusterToSector_exact (vol : Volume) (c : Nat) (hr : vol.bootSector.InRange)
    (hb : 1 ≤ vol.bootSector.BPB_BytsPerSec) (hc : 2 ≤ c) (hc16 : c < 65536) :
    clusterToSector vol c
      = some ((vol.bootSector.BPB_RsvdSecCnt + vol.bootSector.BPB_NumFATs * vol.bootSector.BPB_FATSz16
          + ⌈((vol.bootSector.BPB_RootEntCnt * 32 : Nat) : ℚ) / (vol.bootSector.BPB_BytsPerSec : ℚ)⌉₊
          + (c - 2) * vol.bootSector.BPB_SecPerClus : Nat) : Int) := by
  rw [clusterToSector_eq vol c hr hb hc hc16, ceil_div_eq _ _ hb]
  rfl

/-- C9, witness: 512-byte sectors, 4 sectors per cluster, 1 reserved sector, 2 FATs
of 32 sectors, 512 root entries: cluster 2 maps to sector 97. -/
theorem clusterToSector_exact_witness :
    clusterToSector { fd := zeroDisk, bootSector := specBoot } 2
        = some ((1 + 2 * 32 + ⌈((512 * 32 : Nat) : ℚ) / ((512 : Nat) : ℚ)⌉₊ + (2 - 2) * 4 : Nat) : Int) ∧
      clusterToSector { fd := zeroDisk, bootSector := specBoot } 2 = some 97 :=
  ⟨clusterToSector_exact { fd := zeroDisk, bootSector := specBoot } 2 (by decide) (by decide)
    (by decide) (by decide), by decide⟩

/-- C10, as stated, fails: with 32768-byte sectors, 1 reserved sector and 2 FATs of
32768 sectors the exact offset is 2147516416, which does not fit the 32-bit `int` in
which it is computed; `readDirectory` obtains a negative offset. -/
theorem rootDirOffset_overflows :
    rootDirOffset bigBoot = -2147450880 ∧
      rootDirOffset bigBoot
        ≠ ((bigBoot.BPB_RsvdSecCnt * bigBoot.BPB_BytsPerSec
            + bigBoot.BPB_NumFATs * bigBoot.BPB_FATSz16 * bigBoot.BPB_BytsPerSec : Nat) : Int) := by
  decide

/-- C10, amended: for every boot sector the offset computed by `readDirectory` is
`reserved * bytesPerSector + fatCount * fatSize16 * bytesPerSector` wrapped to a
32-bit `int`, and the region it reads is `rootEntryCount * 32` bytes long; when
`(reserved + fatCount * fatSize16) * bytesPerSector` is below `2^31` the offset is
that value itself and the region is the `rootEntryCount * 32` bytes stored there. -/
theorem rootDirOffset_exact (bs : BootSector) :
    rootDirOffset bs
        = wrapInt32 (bs.BPB_RsvdSecCnt * bs.BPB_BytsPerSec
            + bs.BPB_NumFATs * bs.BPB_FATSz16 * bs.BPB_BytsPerSec) ∧
      (∀ (fd : Disk) (region : List Nat), readRootDir fd bs = some region →
        region.length = bs.BPB_RootEntCnt * 32) ∧
      ((bs.BPB_RsvdSecCnt + bs.BPB_NumFATs * bs.BPB_FATSz16) * bs.BPB_BytsPerSec < 2147483648 →
        rootDirOffset bs
          = ((bs.BPB_RsvdSecCnt * bs.BPB_BytsPerSec
              + bs.BPB_NumFATs * bs.BPB_FATSz16 * bs.BPB_BytsPerSec : Nat) : Int) ∧
        ∀ (fd : Disk) (region : List Nat), readRootDir fd bs = some region →
          region = (fd.bytes.drop (bs.BPB_RsvdSecCnt * bs.BPB_BytsPerSec
              + bs.BPB_NumFATs * bs.BPB_FATSz16 * bs.BPB_BytsPerSec)).take
                (bs.BPB_RootEntCnt * 32)) := by
  refine ⟨by unfold rootDirOffset; rw [Nat.add_mul], ?_, ?_⟩
  · intro fd region hread
    unfold readRootDir at hread
    generalize readFromDiskImage fd (rootDirOffset bs) (rootDirSize bs) = r at hread
    cases r with
    | none => exact Option.noConfusion hread
    | some b =>
      simp only at hread
      split at hread
      · exact Option.noConfusion hread
      · rename_i hlen
        rw [← Option.some.inj hread]
        exact not_not.mp hlen
  · intro hfit
    have hoff : rootDirOffset bs
        = ((bs.BPB_RsvdSecCnt * bs.BPB_BytsPerSec
            + bs.BPB_NumFATs * bs.BPB_FATSz16 * bs.BPB_BytsPerSec : Nat) : Int) := by
      unfold rootDirOffset
      rw [wrapInt32_of_lt _ hfit, Nat.add_mul]
    refine ⟨hoff, ?_⟩
    intro fd region hread
    unfold readRootDir at hread
    rw [hoff, readFromDiskImage_ofNat] at hread
    unfold rootDirSize sizeofDirectoryEntry at hread
    by_cases hio : fd.ioError (bs.BPB_RsvdSecCnt * bs.BPB_BytsPerSec
        + bs.BPB_NumFATs * bs.BPB_FATSz16 * bs.BPB_BytsPerSec) = true
    · rw [if_pos hio] at hread
      exact Option.noConfusion hread
    · rw [if_neg hio] at hread
      simp only at hread
      split at hread
      · exact Option.noConfusion hread
      · exact (Option.some.inj hread).symm

/-- C10, amended, witness: 512-byte sectors, 1 reserved sector, 2 FATs of 32
sectors give the offset 33280. -/
theorem rootDirOffset_exact_witness :
    rootDirOffset specBoot = ((1 * 512 + 2 * 32 * 512 : Nat) : Int) ∧
      rootDirOffset specBoot = 33280 :=
  ⟨((rootDirOffset_exact specBoot).2.2 (by decide)).1, by decide⟩

/-- C8, as stated, fails: the boot sector read from an image of zero bytes has
`bytesPerSector = 0`, `sectorsPerCluster = 0` and `fatCount = 0`, yet `readBootSector`
returns it; the later `clusterToSector` then divides by zero. -/
theorem readBootSector_accepts_zero_geometry :
    ∃ bs, readBootSector zeroDisk = some bs ∧ bs.BPB_BytsPerSec = 0 ∧
      bs.BPB_SecPerClus = 0 ∧ bs.BPB_NumFATs = 0 ∧
      clusterToSector { fd := zeroDisk, bootSector := bs } 2 = none :=
  ⟨decodeBootSector (List.replicate 62 0), by decide, by decide, by decide, by decide, by decide⟩

/-- C8, amended: `readBootSector` checks no field.  It fails exactly when the read
of the first `sizeof(BootSector) = 62` bytes fails or comes back short; otherwise it
returns the fields as they are stored, whatever their values; and `clusterToSector`
divides by zero exactly when the stored `bytesPerSector` is 0. -/
theorem readBootSector_no_validation (fd : Disk) :
    (readBootSector fd = none ↔ (fd.ioError 0 = true ∨ fd.bytes.length < 62)) ∧
      ∀ bs, readBootSector fd = some bs →
        bs.BPB_BytsPerSec = le16 fd.bytes 11 ∧ bs.BPB_SecPerClus = fd.bytes.getD 13 0 ∧
        bs.BPB_NumFATs = fd.bytes.getD 16 0 ∧ bs.BPB_RootEntCnt = le16 fd.bytes 17 ∧
        ∀ c, (clusterToSector { fd := fd, bootSector := bs } c = none ↔ le16 fd.bytes 11 = 0) := by
  have hlen : ((fd.bytes.drop 0).take 62).length = 62 ↔ ¬ fd.bytes.length < 62 := by
    simp only [List.drop_zero, List.length_take]
    omega
  have hget : ∀ i, i < 62 → ((fd.bytes.drop 0).take 62).getD i 0 = fd.bytes.getD i 0 := by
    intro i hi
    simp only [List.drop_zero, List.getD_eq_getElem?_getD, List.getElem?_take, hi, if_true]
  constructor
  · unfold readBootSector readFromDiskImage sizeofBootSector
    simp only [lt_self_iff_false, if_false, Int.toNat_zero]
    cases hio : fd.ioError 0
    · simp only [Bool.false_eq_true, if_false, false_or]
      by_cases hl : fd.bytes.length < 62
      · rw [if_pos (fun h => hlen.mp h hl)]
        simp [hl]
      · rw [if_neg (not_not.mpr (hlen.mpr hl))]
        simp [hl]
    · simp
  · intro bs hbs
    unfold readBootSector readFromDiskImage sizeofBootSector at hbs
    simp only [lt_self_iff_false, if_false, Int.toNat_zero] at hbs
    cases hio : fd.ioError 0
    · rw [hio] at hbs
      simp only [Bool.false_eq_true, if_false] at hbs
      split at hbs
      · exact Option.noConfusion hbs
      · have hval := Option.some.inj hbs
        have hbps : bs.BPB_BytsPerSec = le16 fd.bytes 11 := by
          rw [← hval]; simp only [decodeBootSector, le16]; rw [hget 11 (by omega), hget 12 (by omega)]
        refine ⟨hbps, ?_, ?_, ?_, ?_⟩
        · rw [← hval]; simp only [decodeBootSector]; rw [hget 13 (by omega)]
        · rw [← hval]; simp only [decodeBootSector]; rw [hget 16 (by omega)]
        · rw [← hval]; simp only [decodeBootSector, le16]; rw [hget 17 (by omega), hget 18 (by omega)]
        · intro c
          unfold clusterToSector
          simp only [hbps]
          split <;> simp_all
    · rw [hio] at hbs
      simp at hbs


/-! ## Claims on `readFile` -/

/-- C1: for a volume with fields in range, `bytesPerSector ≥ 1` and
`sectorsPerCluster ≥ 1`, and a handle at position 0 whose chain from the current
(first) cluster has `N` readable clusters inside the image that cover `fileSize`
bytes, `readFile` with capacity `≥ fileSize` (and fuel for its loop) returns exactly
`fileSize`, the buffer holds the concatenation of the clusters' data in chain order
truncated to `fileSize`, and every later `readFile` on the handle returns 0. -/
theorem readFile_fresh_handle (junk : Nat → Nat) (f : File) (N cap fuel : Nat)
    (hr : f.volume.InRange) (hb : 1 ≤ f.volume.bootSector.BPB_BytsPerSec)
    (hs : 1 ≤ f.volume.bootSector.BPB_SecPerClus)
    (hsize : f.fileSize < 4294967296) (hcl : f.currentCluster < 65536)
    (hpos : f.filePosition = 0)
    (hN : f.fileSize ≤ N * clusterSize f.volume.bootSector)
    (hcov : ∀ j < N, ClusterReadable f.volume (chainAt f.volume f.currentCluster j))
    (hcap : f.fileSize ≤ cap) (hfuel : f.fileSize < fuel) :
    ∃ f', readFile junk fuel f cap
        = some (.returned f.fileSize ((chainData f.volume f.currentCluster N).take f.fileSize) f') ∧
      ∀ fuel' cap', readFile junk fuel' f' cap' = some (.returned 0 [] f') := by
  by_cases hzero : f.fileSize = 0
  · refine ⟨f, ?_, ?_⟩
    · unfold readFile
      rw [if_pos (by omega), hzero]
      simp
    · intro fuel' cap'
      unfold readFile
      rw [if_pos (by omega)]
  · have htr : Tracks f f.currentCluster := by
      unfold Tracks
      rw [hpos, Nat.zero_div, chainAt]
    obtain ⟨n, f', hres, hn1, hn2, hn3, _, hfs, _, hfp, _⟩ :=
      readFileLoop_reads_chain junk f.volume f.currentCluster N f.fileSize 0 hr hb hs hcl hcov
        (by omega) fuel f [] 0 cap rfl rfl (by omega) (by omega) htr
        (by rw [hpos]; omega) (by omega)
    have hn : n = f.fileSize := by
      rw [hpos] at hn3
      omega
    subst hn
    refine ⟨f', ?_, ?_⟩
    · unfold readFile
      rw [if_neg (by omega), hres, hpos]
      simp
    · intro fuel' cap'
      unfold readFile
      rw [if_pos (by omega)]

/-- C1, witness: the two-cluster file (clusters 2 and 4) of the example volume, with
cluster size 2048 and file size 3000, read with capacity 3000. -/
theorem readFile_fresh_handle_witness :
    ∃ f', readFile exJunk 3001 exFresh 3000
        = some (.returned 3000 ((chainData exVolume 2 2).take 3000) f') ∧
      ∀ fuel' cap', readFile exJunk fuel' f' cap' = some (.returned 0 [] f') :=
  readFile_fresh_handle exJunk exFresh 2 3000 3001 exVolume_inRange (by decide) (by decide)
    (by decide) (by decide) (by decide) (by decide) (by decide!) (by decide) (by decide)

/-- C4, as stated, fails: on the example file, after a read of 3000 bytes (across the
cluster boundary at 2048) and a seek back to offset 0, the next `readFile` does not
return the first bytes of the file (0, 1, 2, 3, which a fresh handle returns) but the
first bytes of the second cluster of the chain, cluster 4. -/
theorem readFile_after_seek_back_reads_later_cluster :
    (readFile exJunk 100 exFresh 3000).map ReadResult.count = some 3000 ∧
      exAfterSeek.filePosition = 0 ∧ 0 < exAfterSeek.fileSize ∧
      (readFile exJunk 100 exFresh 4).map ReadResult.data = some [0, 1, 2, 3] ∧
      (readFile exJunk 100 exAfterSeek 4).map ReadResult.data = some [94, 95, 96, 97] ∧
      (clusterData exVolume (chainAt exVolume 2 1)).take 4 = [94, 95, 96, 97] := by
  decide!

/-- C4, amended: `readFile` reads from the handle's current cluster.  A fresh handle
has its current cluster in step with its position (`Tracks`: the current cluster is
the cluster at index `position / clusterSize` of the chain from the first cluster
`s`); when that holds, with `position < fileSize`, `position + fileSize < 2^32` and
the needed clusters readable, `readFile` returns the bytes of the chain data that
start at the position, so it reads from the cluster at index `position /
clusterSize`, and leaves cluster and position in step.  `seekFile` changes the
position only and never the current cluster. -/
theorem readFile_reads_current_cluster (junk : Nat → Nat) (f : File) (s N cap fuel : Nat)
    (hr : f.volume.InRange) (hb : 1 ≤ f.volume.bootSector.BPB_BytsPerSec)
    (hs : 1 ≤ f.volume.bootSector.BPB_SecPerClus) (hs16 : s < 65536)
    (htr : Tracks f s) (hp : f.filePosition < f.fileSize)
    (hwrap : f.filePosition + f.fileSize < 4294967296)
    (hN : f.filePosition + min cap f.fileSize ≤ N * clusterSize f.volume.bootSector)
    (hcov : ∀ j < N, ClusterReadable f.volume (chainAt f.volume s j))
    (hfuel : min cap f.fileSize < fuel) :
    (∃ n f', readFile junk fuel f cap
          = some (.returned n (((chainData f.volume s N).drop f.filePosition).take n) f') ∧
        (n = cap ∨ f.fileSize ≤ f.filePosition + n) ∧
        f'.filePosition = f.filePosition + n ∧ Tracks f' s) ∧
      (∀ offset whence, (seekFile f offset whence).1.currentCluster = f.currentCluster) ∧
      ∀ (vol : Volume) (entry : DirectoryEntry),
        Tracks (openFile vol entry) (openFile vol entry).currentCluster := by
  refine ⟨?_, ?_, ?_⟩
  · obtain ⟨n, f', hres, _, _, hn3, _, _, _, hfp, htr'⟩ :=
      readFileLoop_reads_chain junk f.volume s N f.fileSize f.filePosition hr hb hs hs16 hcov
        hwrap fuel f [] 0 cap rfl rfl rfl (by omega) htr (by simpa using hN) (by simpa using hfuel)
    refine ⟨n, f', ?_, hn3, hfp, htr'⟩
    unfold readFile
    rw [if_neg (by omega), hres]
    simp
  · intro offset whence
    unfold seekFile
    split
    · rfl
    · split
      · rfl
      · split <;> rfl
  · intro vol entry
    unfold Tracks openFile
    simp only [Nat.zero_div, chainAt]

/-- C4, amended, witness: the example handle after a read of the first 2900 bytes,
read again with capacity 50. -/
theorem readFile_reads_current_cluster_witness :
    ∃ n f', readFile exJunk 100 exAt2900 50
        = some (.returned n (((chainData exVolume 2 2).drop exAt2900.filePosition).take n) f') ∧
      (n = 50 ∨ exAt2900.fileSize ≤ exAt2900.filePosition + n) ∧
      f'.filePosition = exAt2900.filePosition + n ∧ Tracks f' 2 :=
  (readFile_reads_current_cluster exJunk exAt2900 2 2 50 100 exVolume_inRange (by decide)
    (by decide) (by decide) (by decide!) (by decide!) (by decide!) (by decide!) (by decide!)
    (by decide!)).1

/-- C5: the code breaks the claim.  On the example file of 3000 bytes, the handle at
position 2900 has 100 bytes left; `readFile` with capacity 512 returns 172 bytes,
more than `min 512 (3000 - 2900)`, and leaves the position at 3072, beyond the file
size. -/
theorem readFile_reads_past_end_of_file :
    exAt2900.filePosition = 2900 ∧ exAt2900.fileSize = 3000 ∧
      (readFile exJunk 100 exAt2900 512).map ReadResult.count = some 172 ∧
      (readFile exJunk 100 exAt2900 512).map ReadResult.position = some (some 3072) ∧
      ¬ 172 ≤ min 512 (3000 - 2900) := by
  decide!


/-! ## Claims on `openFile` and `seekFile` -/

/-- C11, as stated, fails: for a directory entry with `DIR_FstClusHI = 1` and
`DIR_FstClusLO = 2` the 32-bit cluster number is 65538, but the handle returned by
`openFile` starts at cluster 2. -/
theorem openFile_drops_high_half :
    (hiEntry.DIR_FstClusHI <<< 16 ||| hiEntry.DIR_FstClusLO) = 65538 ∧
      (openFile exVolume hiEntry).currentCluster = 2 := by
  decide

/-- C11, amended: for every directory entry (with 16-bit first-cluster fields),
`openFile` returns a handle whose starting cluster is the low 16 bits of
`(DIR_FstClusHI << 16) | DIR_FstClusLO`, that is `DIR_FstClusLO`; it is the 32-bit
value itself exactly when `DIR_FstClusHI = 0`.  The handle's file size is
`DIR_FileSize` and its position is 0. -/
theorem openFile_handle (vol : Volume) (entry : DirectoryEntry)
    (hlo : entry.DIR_FstClusLO < 65536) :
    (openFile vol entry).currentCluster
        = (entry.DIR_FstClusHI <<< 16 ||| entry.DIR_FstClusLO) % 65536 ∧
      (openFile vol entry).currentCluster = entry.DIR_FstClusLO ∧
      ((openFile vol entry).currentCluster = (entry.DIR_FstClusHI <<< 16 ||| entry.DIR_FstClusLO)
        ↔ entry.DIR_FstClusHI = 0) ∧
      (openFile vol entry).fileSize = entry.DIR_FileSize ∧
      (openFile vol entry).filePosition = 0 ∧
      (openFile vol entry).volume = vol := by
  have hcur : (openFile vol entry).currentCluster = entry.DIR_FstClusLO :=
    shifted_or_mod _ _ hlo
  have hval := shiftLeft_or_eq entry.DIR_FstClusHI entry.DIR_FstClusLO hlo
  refine ⟨?_, hcur, ?_, rfl, rfl, rfl⟩
  · rw [hcur, hval]; omega
  · rw [hcur, hval]; omega

/-- C11, amended, witness: the example entry (high half 0, low half 2). -/
theorem openFile_handle_witness :
    (openFile exVolume exEntry).currentCluster = 2 ∧
      (openFile exVolume exEntry).fileSize = 3000 ∧
      (openFile exVolume exEntry).filePosition = 0 :=
  let h := openFile_handle exVolume exEntry (by decide)
  ⟨h.2.1, h.2.2.2.1, h.2.2.2.2.1⟩

/-- C12, as stated, fails: `seekFile` from the start with offset `-1` does not fail;
it returns 4294967295 and moves the position there. -/
theorem seekFile_negative_accepted :
    (seekFile exFresh (-1) 0).2 = 4294967295 ∧
      (seekFile exFresh (-1) 0).1.filePosition = 4294967295 ∧
      exFresh.filePosition = 0 := by
  decide

/-- C12, amended: `seekFile` never rejects a candidate position.  For the three
origins it stores the candidate `origin + offset` reduced modulo `2^32` (so a
negative candidate `≥ -2^32` becomes `candidate + 2^32`), returns that position, which
is never negative, and leaves the rest of the handle unchanged.  It returns `-1`,
with the handle unchanged, only for an unknown origin. -/
theorem seekFile_wraps (f : File) (offset whence : Int) :
    ((whence = 0 ∨ whence = 1 ∨ whence = 2) →
        ((seekFile f offset whence).1.filePosition : Int)
            = (seekOrigin f whence + offset) % 4294967296 ∧
          (seekFile f offset whence).2 = (seekOrigin f whence + offset) % 4294967296 ∧
          0 ≤ (seekFile f offset whence).2 ∧
          (seekOrigin f whence + offset < 0 → -4294967296 ≤ seekOrigin f whence + offset →
            ((seekFile f offset whence).1.filePosition : Int)
              = seekOrigin f whence + offset + 4294967296) ∧
          (seekFile f offset whence).1.fileSize = f.fileSize ∧
          (seekFile f offset whence).1.currentCluster = f.currentCluster) ∧
      (¬ (whence = 0 ∨ whence = 1 ∨ whence = 2) → seekFile f offset whence = (f, -1)) := by
  constructor
  · intro hw
    have key : ∀ x : Int, ((toU32 x : Nat) : Int) = x % 4294967296 ∧ 0 ≤ ((toU32 x : Nat) : Int) ∧
        (x < 0 → -4294967296 ≤ x → ((toU32 x : Nat) : Int) = x + 4294967296) := by
      intro x
      unfold toU32
      omega
    have hk := key (seekOrigin f whence + offset)
    rw [seekFile_known f offset whence hw]
    exact ⟨hk.1, hk.1, hk.2.1, hk.2.2, rfl, rfl⟩
  · intro hw
    have h0 : ¬ whence = 0 := fun h => hw (Or.inl h)
    have h1 : ¬ whence = 1 := fun h => hw (Or.inr (Or.inl h))
    have h2 : ¬ whence = 2 := fun h => hw (Or.inr (Or.inr h))
    simp only [seekFile, h0, h1, h2, if_false]

/-- C12, amended, witness: the seek from the start with offset `-1` stores
`-1 + 2^32`. -/
theorem seekFile_wraps_witness :
    ((seekFile exFresh (-1) 0).1.filePosition : Int) = seekOrigin exFresh 0 + (-1) + 4294967296 :=
  ((seekFile_wraps exFresh (-1) 0).1 (Or.inl rfl)).2.2.2.1 (by decide) (by decide)


/-! ## Further claims on `readFile` -/

/-- C13: for every handle whose position is at or beyond the file size, `readFile`
with any capacity returns 0, stores nothing in the buffer and leaves the handle
(position, current cluster) as it is; it does so without a single loop iteration
(fuel 0), hence without a sector or FAT read, and whatever the image behind the
handle.  A seek from the end with an offset `≥ 0` (new position below `2^32`)
succeeds, returns the new position, and leads to such a handle. -/
theorem readFile_at_end_of_file (junk : Nat → Nat) (fuel : Nat) (f : File) (cap : Nat)
    (hend : f.fileSize ≤ f.filePosition) :
    readFile junk fuel f cap = some (.returned 0 [] f) ∧
      readFile junk 0 f cap = some (.returned 0 [] f) ∧
      (∀ fd : Disk,
        readFile junk fuel { f with volume := { f.volume with fd := fd } } cap
          = some (.returned 0 [] { f with volume := { f.volume with fd := fd } })) ∧
      ∀ (g : File) (offset : Int), 0 ≤ offset → (g.fileSize : Int) + offset < 4294967296 →
        (seekFile g offset 2).2 = (g.fileSize : Int) + offset ∧
        ((seekFile g offset 2).1.filePosition : Int) = (g.fileSize : Int) + offset ∧
        readFile junk fuel (seekFile g offset 2).1 cap
          = some (.returned 0 [] (seekFile g offset 2).1) := by
  have hgen : ∀ (fuel' : Nat) (h : File), h.fileSize ≤ h.filePosition →
      readFile junk fuel' h cap = some (.returned 0 [] h) := by
    intro fuel' h hh
    unfold readFile
    rw [if_pos hh]
  refine ⟨hgen fuel f hend, hgen 0 f hend, fun fd => hgen fuel _ hend, ?_⟩
  intro g offset h0 hlt
  have hseek := seekFile_known g offset 2 (Or.inr (Or.inr rfl))
  have horigin : seekOrigin g 2 = (g.fileSize : Int) := by
    simp only [seekOrigin, show ¬ ((2 : Int) = 0) by decide, show ¬ ((2 : Int) = 1) by decide,
      if_false]
  have hval : ((toU32 ((g.fileSize : Int) + offset) : Nat) : Int) = (g.fileSize : Int) + offset := by
    unfold toU32
    omega
  rw [horigin] at hseek
  rw [hseek]
  refine ⟨hval, hval, hgen fuel _ ?_⟩
  show g.fileSize ≤ toU32 ((g.fileSize : Int) + offset)
  omega

/-- C13, witness: the example handle after a seek to the end of the file. -/
theorem readFile_at_end_of_file_witness :
    readFile exJunk 7 exAtEnd 100 = some (.returned 0 [] exAtEnd) :=
  (readFile_at_end_of_file exJunk 7 exAtEnd 100 (by decide)).1

/-- C19: the code breaks the claim.  On a file of `2^32 - 1` bytes the handle at
position `2^32 - 2` has one byte left; `readFile` with capacity 2 clips on the bytes
copied by the call, not on the position, so it copies 2 bytes, one of them past the
end of the file, and the 32-bit position ends at 0, not at the position before plus
the returned count. -/
theorem readFile_position_wraps :
    wrapHandle.filePosition = 4294967294 ∧ wrapHandle.fileSize = 4294967295 ∧
      wrapHandle.fileSize - wrapHandle.filePosition = 1 ∧
      (readFile exJunk 10 wrapHandle 2).map ReadResult.count = some 2 ∧
      (readFile exJunk 10 wrapHandle 2).map (fun r => r.data.length) = some 2 ∧
      (readFile exJunk 10 wrapHandle 2).map ReadResult.position = some (some 0) ∧
      ¬ (0 = 4294967294 + 2) := by
  decide!

/-- Whenever `readFile` returns (also early, after a failed sector
read) the returned count is the number of bytes stored in the buffer, is at most the
capacity and at most the file size, and the position after the call is the position
before plus the count, reduced modulo `2^32` (the position is a 32-bit field); it is
the exact sum whenever that sum is below `2^32`, as it is when `position + fileSize <
2^32`. -/
theorem readFile_advances (junk : Nat → Nat) (fuel : Nat) (f : File) (cap n : Nat)
    (buf : List Nat) (f' : File) (hpos : f.filePosition < 4294967296)
    (hres : readFile junk fuel f cap = some (.returned n buf f')) :
    f'.filePosition = (f.filePosition + n) % 4294967296 ∧ n ≤ cap ∧ buf.length = n ∧
      n ≤ f.fileSize ∧
      (f.filePosition + n < 4294967296 → f'.filePosition = f.filePosition + n) ∧
      (f.filePosition + f.fileSize < 4294967296 → f'.filePosition = f.filePosition + n) := by
  have hmain : f'.filePosition = (f.filePosition + n) % 4294967296 ∧ n ≤ cap ∧ buf.length = n ∧
      n ≤ f.fileSize := by
    unfold readFile at hres
    by_cases hend : f.filePosition ≥ f.fileSize
    · rw [if_pos hend] at hres
      simp only [Option.some.injEq, ReadResult.returned.injEq] at hres
      obtain ⟨h1, h2, h3⟩ := hres
      subst h1; subst h2; subst h3
      exact ⟨by rw [Nat.add_zero, Nat.mod_eq_of_lt hpos], Nat.zero_le _, rfl, Nat.zero_le _⟩
    · rw [if_neg hend] at hres
      obtain ⟨k, hk1, hk2, hk3, hk4, _, _, hk7⟩ :=
        readFileLoop_advance junk fuel f [] 0 cap n buf f' hpos hres
      rw [Nat.zero_add] at hk1
      subst hk1
      exact ⟨hk3, hk2, by simpa using hk4, hk7 (Nat.zero_le _)⟩
  obtain ⟨h1, h2, h3, h4⟩ := hmain
  refine ⟨h1, h2, h3, h4, ?_, ?_⟩
  · intro hlt
    rw [h1, Nat.mod_eq_of_lt hlt]
  · intro hlt
    rw [h1, Nat.mod_eq_of_lt (by omega)]

/-- On the example volume with a read error in the second
sector, the read of 3000 bytes returns early with the 512 bytes of the first sector
and leaves the position at 512. -/
theorem readFile_advances_witness :
    readFile exJunk 100 faultyFresh 3000
        = some (.returned 512 (exData.take 512) (stepFile faultyFresh 512)) ∧
      (stepFile faultyFresh 512).filePosition = (faultyFresh.filePosition + 512) % 4294967296 :=
  have h : readFile exJunk 100 faultyFresh 3000
      = some (.returned 512 (exData.take 512) (stepFile faultyFresh 512)) := by rfl
  ⟨h, (readFile_advances exJunk 100 faultyFresh 3000 512 (exData.take 512)
    (stepFile faultyFresh 512) (by decide) h).1⟩


/-! ## Claims on the FAT lookups -/

/-- C20, as stated, fails: with 65535 reserved sectors of 32769 bytes the FAT offset
`65535 * 32769` does not fit a 32-bit `int`; the slot of cluster 0 lies inside the
image and holds the value 0, yet `nextCluster` returns `0xFFFF` and `loadFAT` returns
no table. -/
theorem nextCluster_offset_overflows :
    0 < hugeBoot.BPB_FATSz16 * hugeBoot.BPB_BytsPerSec / 2 ∧
      hugeBoot.BPB_RsvdSecCnt * hugeBoot.BPB_BytsPerSec + 2 * 0 + 2 ≤ hugeDisk.bytes.length ∧
      le16 hugeDisk.bytes (hugeBoot.BPB_RsvdSecCnt * hugeBoot.BPB_BytsPerSec + 2 * 0) = 0 ∧
      nextCluster { fd := hugeDisk, bootSector := hugeBoot } 0 = 0xFFFF ∧
      loadFAT hugeDisk hugeBoot = none := by
  refine ⟨by decide, ?_, ?_, by decide, by decide⟩
  · show 65535 * 32769 + 2 * 0 + 2 ≤ (List.replicate 2147516421 0).length
    rw [List.length_replicate]
    decide
  · exact le16_replicate_zero 2147516421
      (hugeBoot.BPB_RsvdSecCnt * hugeBoot.BPB_BytsPerSec + 2 * 0)

/-- C20, amended: when neither `int` product `BPB_RsvdSecCnt * BPB_BytsPerSec`,
`BPB_FATSz16 * BPB_BytsPerSec` passes `2^31 - 1`, for every 16-bit cluster number
`c < BPB_FATSz16 * BPB_BytsPerSec / 2` whose slot lies inside the image and is read
without error, entry `c` of a table returned by `loadFAT` is the little-endian 16-bit
value stored at byte offset `BPB_RsvdSecCnt * BPB_BytsPerSec + 2 * c`, and
`nextCluster` returns that same value. -/
theorem nextCluster_agrees_with_loadFAT (vol : Volume) (fat : List Nat) (c : Nat)
    (hr : vol.bootSector.BPB_RsvdSecCnt * vol.bootSector.BPB_BytsPerSec < 2147483648)
    (hf : vol.bootSector.BPB_FATSz16 * vol.bootSector.BPB_BytsPerSec < 2147483648)
    (hc : c < vol.bootSector.BPB_FATSz16 * vol.bootSector.BPB_BytsPerSec / 2)
    (hc16 : c < 65536)
    (hin : vol.bootSector.BPB_RsvdSecCnt * vol.bootSector.BPB_BytsPerSec + 2 * c + 2
      ≤ vol.fd.bytes.length)
    (hio : vol.fd.ioError (vol.bootSector.BPB_RsvdSecCnt * vol.bootSector.BPB_BytsPerSec + 2 * c)
      = false)
    (hload : loadFAT vol.fd vol.bootSector = some fat) :
    fat[c]? = some (le16 vol.fd.bytes
        (vol.bootSector.BPB_RsvdSecCnt * vol.bootSector.BPB_BytsPerSec + 2 * c)) ∧
      nextCluster vol c = le16 vol.fd.bytes
        (vol.bootSector.BPB_RsvdSecCnt * vol.bootSector.BPB_BytsPerSec + 2 * c) ∧
      fat[c]? = some (nextCluster vol c) := by
  have h1 := loadFAT_getElem? vol.fd vol.bootSector fat c hr hf hc hload
  have h2 := nextCluster_eq_le16 vol c hr hc16 hin hio
  exact ⟨h1, h2, by rw [h1, h2]⟩

/-- C20, amended, witness: cluster 2 of the example volume, whose FAT entry is 4. -/
theorem nextCluster_agrees_with_loadFAT_witness :
    (u16View ((exVolume.fd.bytes.drop 512).take 512))[2]? = some 4 ∧
      nextCluster exVolume 2 = 4 :=
  have hload : loadFAT exVolume.fd exVolume.bootSector
      = some (u16View ((exVolume.fd.bytes.drop 512).take 512)) := by decide!
  have h := nextCluster_agrees_with_loadFAT exVolume
    (u16View ((exVolume.fd.bytes.drop 512).take 512)) 2 (by decide) (by decide) (by decide)
    (by decide) (by decide!) (by decide) hload
  have hv : le16 exVolume.fd.bytes
      (exVolume.bootSector.BPB_RsvdSecCnt * exVolume.bootSector.BPB_BytsPerSec + 2 * 2) = 4 := by
    decide!
  ⟨by rw [h.1, hv], by rw [h.2.1, hv]⟩


/-! ## Claims on the root directory listing -/

/-- C14: the code breaks the claim.  In the directory `README.TXT`, long-name record
`0x42`, long-name record `0x01`, short entry `LONGFI~1.TXT`, the scan runs from the
last record to the first: it dumps the short entry before it has read the two
long-name records, with no long name, and prints the name assembled from them,
`longfilename.txt`, in front of the dump of `README.TXT`, the entry stored before
them.  When the two records start the directory, the name is never printed. -/
theorem readDirectory_long_name_misplaced :
    record lfnDir 1 = encodeLongDirectoryEntry (longPart 0x42 unitsPart2) ∧
      record lfnDir 2 = encodeLongDirectoryEntry (longPart 0x01 unitsPart1) ∧
      record lfnDir 3 = encodeDirectoryEntry aliasEntry ∧
      (printDirectoryEntry aliasEntry).isSome = true ∧
      (printDirectoryEntry readmeEntry).isSome = true ∧
      readDirectory (dirDisk lfnDir) exBoot = some (.finished (
        (printDirectoryEntry aliasEntry).toList.map Output.entry
          ++ [Output.longFilename (specLongName unitsPart1 unitsPart2),
            Output.longEntry (printLongDirectoryEntry
              (decodeLongDirectoryEntry (encodeDirectoryEntry readmeEntry)))]
          ++ (printDirectoryEntry readmeEntry).toList.map Output.entry)) ∧
      readDirectory (dirDisk lfnFirstDir) exBoot
        = some (.finished ((printDirectoryEntry aliasEntry).toList.map Output.entry)) := by
  decide!

/-- C15: the code breaks the claim.  With a long-name part pending, the scan prints
the `Long Filename` line and a long-entry dump of the record it is at, before
`printDirectoryEntry` tests the first name byte: the deleted record (`0xE5`) of
`deletedDir` and the unused record (`0x00`) of `unusedDir` are both dumped, with
their first byte printed as the order. -/
theorem readDirectory_dumps_deleted_record :
    (decodeDirectoryEntry (record deletedDir 0)).DIR_Name.getD 0 0 = 0xE5 ∧
      printDirectoryEntry (decodeDirectoryEntry (record deletedDir 0)) = none ∧
      readDirectory (dirDisk deletedDir) exBoot = some (.finished (
        (printDirectoryEntry exEntry).toList.map Output.entry
          ++ [Output.longFilename [110, 111, 116, 101, 115, 46, 116, 120, 116],
            Output.longEntry (printLongDirectoryEntry
              (decodeLongDirectoryEntry (record deletedDir 0)))])) ∧
      (printLongDirectoryEntry (decodeLongDirectoryEntry (record deletedDir 0))).order = 0xE5 ∧
      (decodeDirectoryEntry (record unusedDir 0)).DIR_Name.getD 0 0 = 0x00 ∧
      readDirectory (dirDisk unusedDir) exBoot = some (.finished (
        (printDirectoryEntry exEntry).toList.map Output.entry
          ++ [Output.longFilename [110, 111, 116, 101, 115, 46, 116, 120, 116],
            Output.longEntry (printLongDirectoryEntry
              (decodeLongDirectoryEntry (record unusedDir 0)))])) := by
  decide!

/-- C16, as stated, fails: the first record of `markerDir` has first name byte
`0x00`, yet the scan dumps the two short entries stored after it and prints the long
name taken from the long-name record stored after it. -/
theorem readDirectory_continues_past_end_marker :
    (decodeDirectoryEntry (record markerDir 0)).DIR_Name.getD 0 0 = 0x00 ∧
      (printDirectoryEntry exEntry).isSome = true ∧
      (printDirectoryEntry readmeEntry).isSome = true ∧
      readDirectory (dirDisk markerDir) exBoot = some (.finished (
        (printDirectoryEntry exEntry).toList.map Output.entry
          ++ [Output.longFilename [110, 111, 116, 101, 115, 46, 116, 120, 116],
            Output.longEntry (printLongDirectoryEntry
              (decodeLongDirectoryEntry (encodeDirectoryEntry readmeEntry)))]
          ++ (printDirectoryEntry readmeEntry).toList.map Output.entry)) := by
  decide!

/-- C16, amended: `readDirectory` has no end marker.  When the root directory region
is read and every long-name record in it has an ordinal from 1 to 19 (so that no
store leaves the name buffer), the scan visits all `BPB_RootEntCnt` records, from the
last to the first, and ends; the entry dumps it prints are those of all records that
pass the tests of `printDirectoryEntry`, in that order, wherever a record with first
name byte `0x00` is stored. -/
theorem readDirectory_reports_every_record (fd : Disk) (bs : BootSector) (rootDir : List Nat)
    (hread : readRootDir fd bs = some rootDir)
    (hord : ∀ i, i < bs.BPB_RootEntCnt →
      isLongNameEntry (decodeDirectoryEntry (record rootDir i)) = true →
      1 ≤ longOrder (decodeLongDirectoryEntry (record rootDir i)) ∧
      longOrder (decodeLongDirectoryEntry (record rootDir i)) ≤ 19) :
    ∃ out, readDirectory fd bs = some (.finished out) ∧
      out.filterMap Output.entryReport
        = (List.range bs.BPB_RootEntCnt).reverse.filterMap
            (fun i => printDirectoryEntry (decodeDirectoryEntry (record rootDir i))) ∧
      ∀ i, i < bs.BPB_RootEntCnt → ∀ rep,
        printDirectoryEntry (decodeDirectoryEntry (record rootDir i)) = some rep →
        Output.entry rep ∈ out := by
  obtain ⟨out, h1, h2⟩ := scanLoop_finishes rootDir bs.BPB_RootEntCnt
    (List.replicate longNameCapacity 0) [] (by rw [List.length_replicate]; rfl) hord
  rw [List.filterMap_nil, List.nil_append] at h2
  refine ⟨out, ?_, h2, ?_⟩
  · unfold readDirectory
    rw [hread]
    simp only []
    rw [h1]
  · intro i hi rep hrep
    have hmem : rep ∈ out.filterMap Output.entryReport := by
      rw [h2, List.mem_filterMap]
      exact ⟨i, List.mem_reverse.mpr (List.mem_range.mpr hi), hrep⟩
    obtain ⟨o, ho, hoe⟩ := List.mem_filterMap.mp hmem
    cases o with
    | longFilename name => exact Option.noConfusion hoe
    | longEntry r => exact Option.noConfusion hoe
    | entry r =>
      have hr : r = rep := Option.some.inj hoe
      rw [← hr]
      exact ho

/-- C16, amended, witness: the directory `markerDir`, whose first record is the
`0x00` record. -/
theorem readDirectory_reports_every_record_witness :
    ∃ out, readDirectory (dirDisk markerDir) exBoot = some (.finished out) ∧
      out.filterMap Output.entryReport
        = (List.range exBoot.BPB_RootEntCnt).reverse.filterMap
            (fun i => printDirectoryEntry (decodeDirectoryEntry (record (padTo 512 markerDir) i))) ∧
      ∀ i, i < exBoot.BPB_RootEntCnt → ∀ rep,
        printDirectoryEntry (decodeDirectoryEntry (record (padTo 512 markerDir) i)) = some rep →
        Output.entry rep ∈ out :=
  readDirectory_reports_every_record (dirDisk markerDir) exBoot (padTo 512 markerDir)
    (by decide!) (by decide!)

/-- C17, as stated, fails: the entry `hiddenEntry` has first name byte `F` and a
valid name, its attribute byte `0x22` has the hidden and archive bits set, and
`printDirectoryEntry` reports no entry for it. -/
theorem printDirectoryEntry_skips_hidden :
    hiddenEntry.DIR_Name.getD 0 0 = 70 ∧ hiddenEntry.DIR_Attr = 0x22 ∧
      hiddenEntry.DIR_Attr &&& 0x02 ≠ 0 ∧ hiddenEntry.DIR_Attr &&& 0x20 ≠ 0 ∧
      printDirectoryEntry hiddenEntry = none := by
  decide

/-- C17, amended: `printDirectoryEntry` reports an entry exactly when the first name
byte is neither `0x00` nor `0xE5`, none of the bits `0x02` hidden, `0x04` system,
`0x08` volume label is set, and the 11 name bytes lie in `0x20..0x7E`.  For a
reported entry the flags printed are exactly the bits set among `0x01` read-only,
`0x10` directory, `0x20` archive (and, the other three bits being clear, exactly the
bits set among all six); hidden, system and volume label are never printed. -/
theorem printDirectoryEntry_flags (entry : DirectoryEntry) :
    ((printDirectoryEntry entry).isSome = true ↔
      (entry.DIR_Name.getD 0 0 ≠ 0x00 ∧ entry.DIR_Name.getD 0 0 ≠ 0xE5) ∧
      (entry.DIR_Attr &&& 0x02 = 0 ∧ entry.DIR_Attr &&& 0x04 = 0 ∧ entry.DIR_Attr &&& 0x08 = 0) ∧
      ∀ i, i < 11 → 0x20 ≤ entry.DIR_Name.getD i 0 ∧ entry.DIR_Name.getD i 0 ≤ 0x7E) ∧
    ∀ rep, printDirectoryEntry entry = some rep →
      (Attribute.readOnly ∈ rep.attributes ↔ entry.DIR_Attr &&& 0x01 ≠ 0) ∧
      (Attribute.hidden ∈ rep.attributes ↔ entry.DIR_Attr &&& 0x02 ≠ 0) ∧
      (Attribute.system ∈ rep.attributes ↔ entry.DIR_Attr &&& 0x04 ≠ 0) ∧
      (Attribute.volumeLabel ∈ rep.attributes ↔ entry.DIR_Attr &&& 0x08 ≠ 0) ∧
      (Attribute.subDirectory ∈ rep.attributes ↔ entry.DIR_Attr &&& 0x10 ≠ 0) ∧
      (Attribute.archive ∈ rep.attributes ↔ entry.DIR_Attr &&& 0x20 ≠ 0) ∧
      Attribute.hidden ∉ rep.attributes ∧ Attribute.system ∉ rep.attributes ∧
      Attribute.volumeLabel ∉ rep.attributes := by
  constructor
  · have hname : ((List.range 11).any (fun i => invalidNameByte (entry.DIR_Name.getD i 0)) = true)
        ↔ ¬ ∀ i, i < 11 → 0x20 ≤ entry.DIR_Name.getD i 0 ∧ entry.DIR_Name.getD i 0 ≤ 0x7E := by
      rw [List.any_eq_true]
      constructor
      · rintro ⟨i, hi, hinv⟩ hall
        have hb := hall i (List.mem_range.mp hi)
        unfold invalidNameByte at hinv
        simp only [Bool.or_eq_true, Bool.and_eq_true, bne_iff_ne, decide_eq_true_eq] at hinv
        omega
      · intro hnot
        push_neg at hnot
        obtain ⟨i, hi, hb⟩ := hnot
        refine ⟨i, List.mem_range.mpr hi, ?_⟩
        unfold invalidNameByte
        simp only [Bool.or_eq_true, Bool.and_eq_true, bne_iff_ne, decide_eq_true_eq]
        by_cases hlow : 0x20 ≤ entry.DIR_Name.getD i 0
        · exact Or.inr (by have := hb hlow; omega)
        · exact Or.inl ⟨by omega, by omega⟩
    unfold printDirectoryEntry
    by_cases h0 : entry.DIR_Name.getD 0 0 = 0x00 ∨ entry.DIR_Name.getD 0 0 = 0xE5
    · rw [if_pos h0]
      simp only [Option.isSome_none, Bool.false_eq_true, false_iff]
      rintro ⟨⟨ha, hb⟩, _⟩
      exact h0.elim ha hb
    · rw [if_neg h0]
      by_cases h1 : entry.DIR_Attr &&& 0x08 ≠ 0 ∨ entry.DIR_Attr &&& 0x02 ≠ 0 ∨ entry.DIR_Attr &&& 0x04 ≠ 0
      · rw [if_pos h1]
        simp only [Option.isSome_none, Bool.false_eq_true, false_iff]
        rintro ⟨_, ⟨h2, h4, h8⟩, _⟩
        rcases h1 with h | h | h
        · exact h h8
        · exact h h2
        · exact h h4
      · rw [if_neg h1]
        by_cases h2 : (List.range 11).any (fun i => invalidNameByte (entry.DIR_Name.getD i 0)) = true
        · rw [if_pos h2]
          simp only [Option.isSome_none, Bool.false_eq_true, false_iff]
          rintro ⟨_, _, hall⟩
          exact (hname.mp h2) hall
        · rw [if_neg h2]
          simp only [Option.isSome_some, true_iff]
          push_neg at h0 h1
          exact ⟨h0, ⟨h1.2.1, h1.2.2, h1.1⟩, not_not.mp (fun hn => h2 (hname.mpr hn))⟩
  · intro rep hrep
    obtain ⟨_, hattr, hflags, _⟩ := printDirectoryEntry_eq_some entry rep hrep
    push_neg at hattr
    obtain ⟨h8, h2, h4⟩ := hattr
    rw [hflags]
    simp only [mem_attributeFlags]
    simp [h2, h4, h8]

/-- C17, amended, witness: the archive file `README.TXT` is reported with the single
flag archive. -/
theorem printDirectoryEntry_flags_witness :
    (printDirectoryEntry readmeEntry).map EntryReport.attributes = some [Attribute.archive] ∧
      ((printDirectoryEntry readmeEntry).isSome = true ↔
        (readmeEntry.DIR_Name.getD 0 0 ≠ 0x00 ∧ readmeEntry.DIR_Name.getD 0 0 ≠ 0xE5) ∧
        (readmeEntry.DIR_Attr &&& 0x02 = 0 ∧ readmeEntry.DIR_Attr &&& 0x04 = 0 ∧
          readmeEntry.DIR_Attr &&& 0x08 = 0) ∧
        ∀ i, i < 11 → 0x20 ≤ readmeEntry.DIR_Name.getD i 0 ∧ readmeEntry.DIR_Name.getD i 0 ≤ 0x7E) :=
  ⟨by decide, (printDirectoryEntry_flags readmeEntry).1⟩

/-- C18: for every 16-bit date word `d` and time word `t`, the numbers printed are
year `1980 +` bits 15..9 of `d`, month bits 8..5, day bits 4..0, hours bits 15..11
of `t`, minutes bits 10..5, seconds twice bits 4..0; packing the six numbers again
gives back `d` and `t`; the year lies in 1980..2107, hours are at most 31, minutes at
most 63, seconds are even and at most 62.  These are the numbers in the date and
time fields of every entry that `printDirectoryEntry` reports. -/
theorem decodeDate_decodeTime_fields (d t : Nat) (hd : d < 65536) (ht : t < 65536) :
    decodeDate d = (1980 + d / 512 % 128, d / 32 % 16, d % 32) ∧
      decodeTime t = (t / 2048 % 32, t / 32 % 64, 2 * (t % 32)) ∧
      ((decodeDate d).1 - 1980) * 512 + (decodeDate d).2.1 * 32 + (decodeDate d).2.2 = d ∧
      (decodeTime t).1 * 2048 + (decodeTime t).2.1 * 32 + (decodeTime t).2.2 / 2 = t ∧
      1980 ≤ (decodeDate d).1 ∧ (decodeDate d).1 ≤ 2107 ∧
      (decodeDate d).2.1 ≤ 15 ∧ (decodeDate d).2.2 ≤ 31 ∧
      (decodeTime t).1 ≤ 31 ∧ (decodeTime t).2.1 ≤ 63 ∧
      (decodeTime t).2.2 % 2 = 0 ∧ (decodeTime t).2.2 ≤ 62 ∧
      ∀ entry rep, printDirectoryEntry entry = some rep →
        rep.creationDate = decodeDate entry.DIR_CrtDate ∧
        rep.creationTime = decodeTime entry.DIR_CrtTime ∧
        rep.writeDate = decodeDate entry.DIR_WrtDate ∧
        rep.writeTime = decodeTime entry.DIR_WrtTime := by
  have hdate : decodeDate d = (1980 + d / 512 % 128, d / 32 % 16, d % 32) := by
    rw [decodeDate_eq, Nat.add_comm]
  have htime : decodeTime t = (t / 2048 % 32, t / 32 % 64, 2 * (t % 32)) := by
    rw [decodeTime_eq, Nat.mul_comm, Nat.mod_eq_of_lt (show t / 2048 < 32 by omega)]
  refine ⟨hdate, htime, ?_, ?_, ?_, ?_, ?_, ?_, ?_, ?_, ?_, ?_, ?_⟩
  · rw [hdate]
    show (1980 + d / 512 % 128 - 1980) * 512 + d / 32 % 16 * 32 + d % 32 = d
    omega
  · rw [htime]
    show t / 2048 % 32 * 2048 + t / 32 % 64 * 32 + 2 * (t % 32) / 2 = t
    omega
  · rw [hdate]
    show 1980 ≤ 1980 + d / 512 % 128
    omega
  · rw [hdate]
    show 1980 + d / 512 % 128 ≤ 2107
    omega
  · rw [hdate]
    show d / 32 % 16 ≤ 15
    omega
  · rw [hdate]
    show d % 32 ≤ 31
    omega
  · rw [htime]
    show t / 2048 % 32 ≤ 31
    omega
  · rw [htime]
    show t / 32 % 64 ≤ 63
    omega
  · rw [htime]
    show 2 * (t % 32) % 2 = 0
    omega
  · rw [htime]
    show 2 * (t % 32) ≤ 62
    omega
  · intro entry rep hrep
    obtain ⟨_, _, _, h1, h2, h3, h4, _⟩ := printDirectoryEntry_eq_some entry rep hrep
    exact ⟨h1, h2, h3, h4⟩

/-- C18, witness: the date word of 2024-03-15 and the time word of 13:37:42. -/
theorem decodeDate_decodeTime_fields_witness :
    decodeDate 22639 = (2024, 3, 15) ∧ decodeTime 27829 = (13, 37, 42) :=
  have h := decodeDate_decodeTime_fields 22639 27829 (by decide) (by decide)
  ⟨h.1, h.2.1⟩


/-! ## Claims on long-name parts, termination and bounds -/

/-- C21, as stated, fails: for the long-name record `widePart`, whose first and
fourth code units are `0x0141` and `0x017A`, `parseLongNameEntry` stores `0x41` and
`0x7A`, and it stores `0xFF` for each fill unit `0xFFFF`. -/
theorem parseLongNameEntry_drops_high_byte :
    codeUnits widePart = [0x141, 0xF3, 0x64, 0x17A, 0x2E, 0x74, 0x78, 0x74, 0,
        0xFFFF, 0xFFFF, 0xFFFF, 0xFFFF] ∧
      (parseLongNameEntry widePart (List.replicate 256 0) 0).map (fun b => b.take 13)
        = some [0x41, 0xF3, 0x64, 0x7A, 0x2E, 0x74, 0x78, 0x74, 0, 0xFF, 0xFF, 0xFF, 0xFF] := by
  decide

/-- C21, amended: when the 13 stores of `parseLongNameEntry` stay inside the buffer
(`0 ≤ position` and `position + 13 ≤` its length; otherwise the behaviour is
undefined), the buffer keeps its length, element `position + j` holds the low byte
only of code unit `j` (the unit modulo 256), in the order name part 1 (5 units),
part 2 (6 units), part 3 (2 units), and every other element is unchanged. -/
theorem parseLongNameEntry_stores_low_bytes (e : LongDirectoryEntry) (buf : List Nat)
    (pos : Int) (buf' : List Nat) (h : parseLongNameEntry e buf pos = some buf')
    (h1 : ∀ b ∈ e.LDIR_Name1, b < 256) (h2 : ∀ b ∈ e.LDIR_Name2, b < 256)
    (h3 : ∀ b ∈ e.LDIR_Name3, b < 256) :
    0 ≤ pos ∧ pos + 13 ≤ (buf.length : Int) ∧ buf'.length = buf.length ∧
      (∀ j, j < 13 → buf'[pos.toNat + j]? = ((codeUnits e).map (fun u => u % 256))[j]?) ∧
      (∀ j u, (codeUnits e)[j]? = some u → buf'[pos.toNat + j]? = some (u % 256)) ∧
      (∀ k, k < pos.toNat ∨ pos.toNat + 13 ≤ k → buf'[k]? = buf[k]?) := by
  obtain ⟨hp0, hp13, hbuf⟩ := parseLongNameEntry_eq_some e buf pos buf' h
  have hunits := nameUnits_eq_codeUnits_mod e h1 h2 h3
  have hulen := nameUnits_length e
  have hclen : (codeUnits e).length = 13 := by simp [codeUnits]
  obtain ⟨p, rfl⟩ : ∃ p : Nat, pos = (p : Int) := ⟨pos.toNat, by omega⟩
  rw [Int.toNat_ofNat] at hbuf ⊢
  have hple : p + 13 ≤ buf.length := by omega
  have htake : (buf.take p).length = p := by
    rw [List.length_take]
    omega
  have hstored : ∀ j, j < 13 → buf'[p + j]? = (nameUnits e)[j]? := by
    intro j hj
    rw [hbuf, List.getElem?_append_left (by rw [List.length_append, htake, hulen]; omega),
      List.getElem?_append_right (by rw [htake]; omega), htake, Nat.add_sub_cancel_left]
  refine ⟨hp0, hp13, ?_, ?_, ?_, ?_⟩
  · rw [hbuf, List.length_append, List.length_append, htake, hulen, List.length_drop]
    omega
  · intro j hj
    rw [hstored j hj, hunits]
  · intro j u hu
    have hj : j < 13 := by
      have := List.getElem?_eq_some_iff.mp hu
      obtain ⟨hlt, _⟩ := this
      omega
    rw [hstored j hj, hunits, List.getElem?_map, hu]
    rfl
  · intro k hk
    rw [hbuf]
    rcases hk with hk | hk
    · rw [List.append_assoc, List.getElem?_append_left (by rw [htake]; exact hk),
        List.getElem?_take_of_lt hk]
    · rw [List.getElem?_append_right (by rw [List.length_append, htake, hulen]; exact hk),
        List.length_append, htake, hulen, List.getElem?_drop]
      congr 1
      omega

/-- C21, amended, witness: the record `widePart` stored at position 13 of a zero
buffer. -/
theorem parseLongNameEntry_stores_low_bytes_witness :
    (List.replicate 13 0 ++ nameUnits widePart ++ List.replicate 230 0)[13]? = some (0x141 % 256) ∧
      (List.replicate 13 0 ++ nameUnits widePart ++ List.replicate 230 0)[12]?
        = (List.replicate 256 0)[12]? :=
  have h := parseLongNameEntry_stores_low_bytes widePart (List.replicate 256 0) 13
    (List.replicate 13 0 ++ nameUnits widePart ++ List.replicate 230 0)
    (by decide) (by decide) (by decide) (by decide)
  ⟨h.2.2.2.2.1 0 0x141 (by decide), h.2.2.2.2.2 12 (Or.inl (by decide))⟩

/-- C22: the code breaks the claim.  On the example volume (512-byte sectors, 4
sectors per cluster) the handle at position 1 of a file of `2^32 - 1` bytes, read
with capacity `2^32`, never returns: no number of loop iterations ends the loop.  The
clip to the file size is made on the bytes copied by the call, not on the position:
once they equal the file size an iteration copies zero bytes, whatever capacity is
left, while the position, wrapped past `2^32`, stays below the file size. -/
theorem readFile_never_returns :
    stuckHandle.filePosition = 1 ∧ stuckHandle.fileSize = 4294967295 ∧
      1 ≤ stuckHandle.volume.bootSector.BPB_BytsPerSec ∧
      1 ≤ stuckHandle.volume.bootSector.BPB_SecPerClus ∧
      (∀ fuel, readFile exJunk fuel stuckHandle 4294967296 = none) ∧
      ∀ (pos L : Nat), 0 < L →
        chunkSize { stuckHandle with filePosition := pos } stuckHandle.fileSize L = 0 := by
  refine ⟨by decide, by decide, by decide, by decide, ?_, ?_⟩
  · intro fuel
    unfold readFile
    rw [if_neg (by decide)]
    exact readFileLoop_never_ends exJunk 4294967295 1 4294967296 (by decide) (by decide)
      (by decide) (by decide) (by decide) fuel stuckHandle [] 0 4294967296 (by decide) (by decide)
      (by decide) (fun _ => rfl) (by decide) (by decide) (by decide) (Or.inl rfl)
  · intro pos L hL
    have hb : 1 ≤ stuckHandle.volume.bootSector.BPB_BytsPerSec := by decide
    exact chunkSize_zero_at_size { stuckHandle with filePosition := pos } stuckHandle.fileSize L
      hb hL (Nat.le_refl _)

/-- For every volume with `BPB_BytsPerSec ≥ 1` and
`BPB_SecPerClus ≥ 1`, every handle and every capacity such that the capacity is at
most the file size or `position + fileSize < 2^32`, `readFile` returns, after at most
`capacity` loop iterations.  An iteration copies at least one byte exactly as long as
the bytes copied by the call are fewer than the file size; once they are equal it
copies none. -/
theorem readFile_terminates (junk : Nat → Nat) (f : File) (cap fuel : Nat)
    (hb : 1 ≤ f.volume.bootSector.BPB_BytsPerSec) (hs : 1 ≤ f.volume.bootSector.BPB_SecPerClus)
    (hsafe : cap ≤ f.fileSize ∨ f.filePosition + f.fileSize < 4294967296)
    (hfuel : cap < fuel) :
    (∃ n buf f', readFile junk fuel f cap = some (.returned n buf f')) ∧
      ∀ (g : File) (br L : Nat), 1 ≤ g.volume.bootSector.BPB_BytsPerSec → 0 < L →
        (0 < chunkSize g br L ↔ br < g.fileSize) := by
  constructor
  · unfold readFile
    by_cases hend : f.filePosition ≥ f.fileSize
    · rw [if_pos hend]
      exact ⟨_, _, _, rfl⟩
    · rw [if_neg hend]
      apply readFileLoop_terminates junk fuel f [] 0 cap hb hs _ hfuel
      rcases hsafe with h | h
      · exact Or.inl (by omega)
      · exact Or.inr ⟨Nat.zero_le _, by omega, Nat.zero_le _⟩
  · intro g br L hgb hL
    constructor
    · intro hpos
      by_contra hge
      have := Nat.mod_lt g.filePosition hgb
      unfold chunkSize at hpos
      simp only at hpos
      split at hpos <;> split at hpos <;> omega
    · exact chunkSize_pos g br L hgb hL

/-- The fresh handle on the example file of 3000 bytes, read with capacity 5000,
returns. -/
theorem readFile_terminates_witness :
    ∃ n buf f', readFile exJunk 5001 exFresh 5000 = some (.returned n buf f') :=
  (readFile_terminates exJunk exFresh 5000 5001 (by decide) (by decide)
    (Or.inr (by decide)) (by decide)).1

/-- C23: when the walk of `getClusterChain` over a table meets `k` clusters below
`0xFFF8`, all inside the table, and then an entry `≥ 0xFFF8`, the `k` clusters are
pairwise different and `k ≤ 65528`; the walk returns them followed by `0xFFFF`,
`k + 1 ≤ 65529` elements, so no store leaves the array of 65536 elements (an array
of `k + 1` elements would do). -/
theorem getClusterChain_walk_in_bounds (fat : List Nat) (s k : Nat)
    (hlinks : ∀ j < k, ∃ c, linkAt fat s j = some c ∧ c < 0xFFF8)
    (hend : ∃ e, linkAt fat s k = some e ∧ 0xFFF8 ≤ e) :
    (linksUpTo fat s k).Nodup ∧ (linksUpTo fat s k).length = k ∧ k ≤ 65528 ∧
      walkChain fat s = .returned (linksUpTo fat s k ++ [0xFFFF]) ∧
      (linksUpTo fat s k ++ [0xFFFF]).length ≤ chainCapacity ∧
      (∀ room, k < room → chainLoop fat room s [] = .returned (linksUpTo fat s k ++ [0xFFFF])) ∧
      ∀ fd bs, loadFAT fd bs = some fat →
        getClusterChain fd bs s = some (.returned (linksUpTo fat s k ++ [0xFFFF])) := by
  have hsome : ∀ j < k, ∃ c, linkAt fat s j = some c := fun j hj =>
    let ⟨c, hc, _⟩ := hlinks j hj; ⟨c, hc⟩
  have hk : k ≤ 65528 := links_count_le_of_end fat s k hlinks hend
  have hlen := linksUpTo_length fat s k hsome
  have hloop : ∀ room, k < room →
      chainLoop fat room s [] = .returned (linksUpTo fat s k ++ [0xFFFF]) := by
    intro room hroom
    rw [chainLoop_returns fat k room s [] hroom hlinks hend, List.nil_append]
  have hwalk : walkChain fat s = .returned (linksUpTo fat s k ++ [0xFFFF]) :=
    hloop chainCapacity (by unfold chainCapacity; omega)
  refine ⟨linksUpTo_nodup fat s k hlinks hend, hlen, hk, hwalk, ?_, hloop, ?_⟩
  · rw [List.length_append, hlen, List.length_singleton]
    unfold chainCapacity
    omega
  · intro fd bs hload
    unfold getClusterChain
    rw [hload]
    simp only []
    rw [hwalk]

/-- C23, witness: the chain 5, 6, 7 of the example table. -/
theorem getClusterChain_walk_in_bounds_witness :
    (linksUpTo (padTo 256 chainFat) 5 3).Nodup ∧
      walkChain (padTo 256 chainFat) 5 = .returned (linksUpTo (padTo 256 chainFat) 5 3 ++ [0xFFFF]) :=
  have h := getClusterChain_walk_in_bounds (padTo 256 chainFat) 5 3
    (by intro j hj; interval_cases j <;> exact ⟨_, rfl, by decide⟩)
    ⟨0xFFFF, rfl, by decide⟩
  ⟨h.1, h.2.2.2.1⟩

/-- C24, as stated, fails: the first record of `ordinal20Dir` is a long-name record
with sequence byte `0x54`, ordinal 20; its stores go to the indices 247 to 259, the
last four outside the buffer of 256 elements, and the scan ends in the overrun. -/
theorem readDirectory_ordinal_20_overruns :
    (decodeLongDirectoryEntry (record ordinal20Dir 0)).LDIR_Ord = 0x54 ∧
      longOrder (decodeLongDirectoryEntry (record ordinal20Dir 0)) = 20 ∧
      storeIndices 247 = [247, 248, 249, 250, 251, 252, 253, 254, 255, 256, 257, 258, 259] ∧
      readDirectory (dirDisk ordinal20Dir) exBoot
        = some (.bufferOverrun ((printDirectoryEntry exEntry).toList.map Output.entry) 247) := by
  decide!

/-- C24, amended: for a long-name record met by the scan whose sequence byte carries
an ordinal `n` from 1 to 20, with or without the flag `0x40`, the scan takes `n` as
the order.  For `n ≤ 19` the 13 indices `(n-1)*13 .. (n-1)*13+12` lie in `0..246`,
inside the buffer, and the scan goes on with the next record.  For `n = 20` the
indices are `247..259`: the stores at 256 to 259 fall outside the buffer of 256
elements (undefined behaviour). -/
theorem scanLoop_long_name_bounds (rootDir : List Nat) (i n : Nat) (buf : List Nat)
    (out : List Output)
    (hlong : isLongNameEntry (decodeDirectoryEntry (record rootDir i)) = true)
    (h1 : 1 ≤ n) (h20 : n ≤ 20)
    (hord : (decodeLongDirectoryEntry (record rootDir i)).LDIR_Ord = n ∨
      (decodeLongDirectoryEntry (record rootDir i)).LDIR_Ord = n + 0x40)
    (hlen : buf.length = longNameCapacity) :
    longOrder (decodeLongDirectoryEntry (record rootDir i)) = n ∧
      (n ≤ 19 →
        (∀ x ∈ storeIndices (((n : Int) - 1) * 13), 0 ≤ x ∧ x ≤ 246) ∧
        ∃ buf', parseLongNameEntry (decodeLongDirectoryEntry (record rootDir i)) buf
            (((n : Int) - 1) * 13) = some buf' ∧
          buf'.length = longNameCapacity ∧
          scanLoop rootDir (i + 1) buf out = scanLoop rootDir i buf' out) ∧
      (n = 20 →
        storeIndices (((n : Int) - 1) * 13)
          = [247, 248, 249, 250, 251, 252, 253, 254, 255, 256, 257, 258, 259] ∧
        parseLongNameEntry (decodeLongDirectoryEntry (record rootDir i)) buf
            (((n : Int) - 1) * 13) = none ∧
        scanLoop rootDir (i + 1) buf out = .bufferOverrun out 247) := by
  have hlen' : buf.length = 256 := hlen
  have horder : longOrder (decodeLongDirectoryEntry (record rootDir i)) = n := by
    unfold longOrder
    rcases hord with h | h
    · rw [h]
      exact (land_clear_flag n h20).1
    · rw [h]
      exact (land_clear_flag n h20).2
  have hstep := scanLoop_long rootDir i buf out hlong
  rw [horder] at hstep
  refine ⟨horder, ?_, ?_⟩
  · intro h19
    constructor
    · intro x hx
      unfold storeIndices at hx
      rw [List.mem_map] at hx
      obtain ⟨j, hj, rfl⟩ := hx
      have hj13 := List.mem_range.mp hj
      omega
    · obtain ⟨buf', hparse, hlen2⟩ := parseLongNameEntry_in_bounds
        (decodeLongDirectoryEntry (record rootDir i)) buf n h1 h19 hlen'
      refine ⟨buf', hparse, hlen2, ?_⟩
      rw [hstep, hparse]
  · intro hn
    subst hn
    have hnone : parseLongNameEntry (decodeLongDirectoryEntry (record rootDir i)) buf
        ((((20 : Nat) : Int) - 1) * 13) = none := by
      unfold parseLongNameEntry
      rw [if_pos (Or.inr (by rw [hlen']; decide))]
    refine ⟨by decide, hnone, ?_⟩
    rw [hstep, hnone]
    rfl

/-- C24, amended, witness: the record with sequence byte `0x42` of `lfnDir`, stored
at indices 13 to 25. -/
theorem scanLoop_long_name_bounds_witness :
    longOrder (decodeLongDirectoryEntry (record lfnDir 1)) = 2 ∧
      ∀ x ∈ storeIndices ((((2 : Nat) : Int) - 1) * 13), 0 ≤ x ∧ x ≤ 246 :=
  have h := scanLoop_long_name_bounds lfnDir 1 2 (List.replicate 256 0) [] (by decide)
    (by decide) (by decide) (Or.inr (by decide)) (by decide)
  ⟨h.1, (h.2.1 (by decide)).1⟩

/-- C25: for every 32-byte directory record, `printDirectoryEntry` prints exactly
when the attribute byte (byte 11) has none of the bits `0x02`, `0x04`, `0x08` set and
each of the 11 name bytes (bytes 0 to 10) lies in `0x20..0x7E`; the test of its
filename loop is true exactly for a byte below `0x20` or above `0x7E`.  The same
holds for every entry passed to `printDirectoryEntry`. -/
theorem printDirectoryEntry_reports_iff (r : List Nat) :
    ((printDirectoryEntry (decodeDirectoryEntry r)).isSome = true ↔
      (r.getD 11 0 &&& 0x02 = 0 ∧ r.getD 11 0 &&& 0x04 = 0 ∧ r.getD 11 0 &&& 0x08 = 0) ∧
      ∀ i, i < 11 → 0x20 ≤ r.getD i 0 ∧ r.getD i 0 ≤ 0x7E) ∧
    (∀ b, invalidNameByte b = true ↔ b < 0x20 ∨ 0x7E < b) ∧
    ∀ entry : DirectoryEntry, (printDirectoryEntry entry).isSome = true ↔
      (entry.DIR_Attr &&& 0x02 = 0 ∧ entry.DIR_Attr &&& 0x04 = 0 ∧ entry.DIR_Attr &&& 0x08 = 0) ∧
      ∀ i, i < 11 → 0x20 ≤ entry.DIR_Name.getD i 0 ∧ entry.DIR_Name.getD i 0 ≤ 0x7E := by
  refine ⟨?_, invalidNameByte_iff, printDirectoryEntry_isSome_iff⟩
  rw [printDirectoryEntry_isSome_iff]
  have hattr : (decodeDirectoryEntry r).DIR_Attr = r.getD 11 0 := rfl
  rw [hattr]
  constructor
  · rintro ⟨ha, hn⟩
    exact ⟨ha, fun i hi => by rw [← decodeDirectoryEntry_name r i hi]; exact hn i hi⟩
  · rintro ⟨ha, hn⟩
    exact ⟨ha, fun i hi => by rw [decodeDirectoryEntry_name r i hi]; exact hn i hi⟩


end FAT16
